import Mathlib

/-!
# Poly1305 (poly1305-donna-32 in Go): embedding and verification

The definitions follow `src/poly1305.go` line by line.

* Go `uint32` / `uint64` values are natural numbers; every operation that can
  wrap in Go carries its explicit reduction modulo `2^32` or `2^64`.
* Go `int` values (`leftover`, lengths, loop counters) are integers.
* A Go panic is the `Except.error` outcome; a normal return is `Except.ok`.
* `useUnsafe` selects, on little-endian hosts only, loads and stores that read
  and write the same four bytes in the same order as the portable
  `binary.LittleEndian` calls; the portable branch is the one embedded.
-/

namespace poly1305

/-! ## Go values -/

/-- A Go `byte`. -/
abbrev Byte := Fin 256

/-- The conversion `byte(x)` of an unsigned word. -/
def byte (x : Nat) : Byte := ⟨x % 256, Nat.mod_lt x (by decide)⟩

/-- KeySize is the Poly1305 key size in bytes. -/
def KeySize : Int := 32

/-- Size is the Poly1305 MAC size in bytes. -/
def Size : Int := 16

/-- BlockSize is the Poly1305 block size in bytes. -/
def BlockSize : Int := 16

/-- The package's error values. -/
inductive GoError where
  | ErrInvalidKeySize
  | ErrInvalidMacSize
  deriving DecidableEq, Repr

/-- What a Go panic carries: a runtime failure (index or slice bounds, nil
dereference), an error value handed to `panic`, or a string handed to `panic`. -/
inductive Panic where
  | indexOutOfRange
  | sliceOutOfRange
  | nilDereference
  | errorValue (e : GoError)
  | text (s : String)
  deriving DecidableEq, Repr

/-- A Go computation: it either panics or returns. -/
abbrev Go (α : Type) := Except Panic α

/-! ## Machine words -/

/-- Conversion `uint32(x)`. -/
def u32 (x : Nat) : Nat := x % 2 ^ 32

/-- Addition of `uint32`. -/
def add32 (a b : Nat) : Nat := (a + b) % 2 ^ 32

/-- Subtraction of `uint32`. -/
def sub32 (a b : Nat) : Nat := (a + (2 ^ 32 - b % 2 ^ 32)) % 2 ^ 32

/-- Multiplication of `uint32`. -/
def mul32 (a b : Nat) : Nat := (a * b) % 2 ^ 32

/-- Left shift of `uint32`. -/
def shl32 (a n : Nat) : Nat := (a <<< n) % 2 ^ 32

/-- Bitwise complement `^x` of `uint32`. -/
def not32 (a : Nat) : Nat := a ^^^ 0xffffffff

/-- Addition of `uint64`. -/
def add64 (a b : Nat) : Nat := (a + b) % 2 ^ 64

/-- Multiplication of `uint64`. -/
def mul64 (a b : Nat) : Nat := (a * b) % 2 ^ 64

/-! ## Slices and arrays -/

/-- The index expression `s[i]` on a slice. -/
def index (s : List Byte) (i : Int) : Go Byte :=
  if i < 0 then .error .indexOutOfRange
  else match s[i.toNat]? with
    | some b => .ok b
    | none => .error .indexOutOfRange

/-- The slice expression `s[lo:]`. -/
def sliceFrom (s : List Byte) (lo : Int) : Go (List Byte) :=
  if 0 ≤ lo ∧ lo ≤ (s.length : Int) then .ok (s.drop lo.toNat) else .error .sliceOutOfRange

/-- The call `binary.LittleEndian.Uint32(b)`: the little-endian value of the
first four bytes, after the bounds check on `b[3]`. -/
def Uint32 (b : List Byte) : Go Nat :=
  match b with
  | b0 :: b1 :: b2 :: b3 :: _ =>
    .ok (b0.val + b1.val * 2 ^ 8 + b2.val * 2 ^ 16 + b3.val * 2 ^ 24)
  | _ => .error .indexOutOfRange

/-- The expression `binary.LittleEndian.Uint32(b[off:])`. -/
def load32 (b : List Byte) (off : Int) : Go Nat := do
  let s ← sliceFrom b off
  Uint32 s

/-- The four bytes `binary.LittleEndian.PutUint32` stores for `v`. -/
def le32 (v : Nat) : List Byte :=
  [byte v, byte (v >>> 8), byte (v >>> 16), byte (v >>> 24)]

/-- The array type `[5]uint32`. -/
structure Limbs5 where
  v0 : Nat
  v1 : Nat
  v2 : Nat
  v3 : Nat
  v4 : Nat
  deriving DecidableEq, Repr

/-- The array type `[4]uint32`. -/
structure Words4 where
  v0 : Nat
  v1 : Nat
  v2 : Nat
  v3 : Nat
  deriving DecidableEq, Repr

/-- The array type `[BlockSize]byte`. -/
abbrev Buffer := { l : List Byte // l.length = 16 }

/-- The zero value of `[BlockSize]byte`. -/
def Buffer.zero : Buffer := ⟨List.replicate 16 0, by simp⟩

/-- The assignment `buffer[i] = v`. -/
def Buffer.store (b : Buffer) (i : Int) (v : Byte) : Go Buffer :=
  if 0 ≤ i ∧ i < 16 then .ok ⟨b.val.set i.toNat v, by simp [b.property]⟩
  else .error .indexOutOfRange

/-- The loop `for i := lo; i < hi; i++ { body }` over a state `σ`; `fuel`
bounds the number of iterations. -/
def forLoop {σ : Type} (body : Int → σ → Go σ) (hi : Int) : Nat → Int → σ → Go σ
  | 0, _, s => .ok s
  | fuel + 1, i, s =>
    if i < hi then do
      let s ← body i s
      forLoop body hi fuel (i + 1) s
    else .ok s

/-- The loop `for i := lo; i < hi; i++ { body }`: it runs `hi - lo` times when
`lo < hi` and not at all otherwise. -/
def forRange {σ : Type} (body : Int → σ → Go σ) (lo hi : Int) (s : σ) : Go σ :=
  forLoop body hi (hi - lo).toNat lo s

/-- Poly1305 is an instance of the Poly1305 MAC algorithm. -/
structure Poly1305 where
  r : Limbs5
  h : Limbs5
  pad : Words4
  leftover : Int
  buffer : Buffer
  final : Bool
  deriving DecidableEq

/-- The zero value `Poly1305{}`. -/
def Poly1305.zero : Poly1305 :=
  { r := ⟨0, 0, 0, 0, 0⟩, h := ⟨0, 0, 0, 0, 0⟩, pad := ⟨0, 0, 0, 0⟩,
    leftover := 0, buffer := Buffer.zero, final := false }

/-! ## The engine -/

/-- Init (re-)initializes the hash instance with a given key (lines 129-175). -/
def Poly1305.Init (st : Poly1305) (key : List Byte) : Go Poly1305 := do
  if (key.length : Int) ≠ KeySize then
    throw (.errorValue .ErrInvalidKeySize)
  let k0 ← load32 key 0
  let k3 ← load32 key 3
  let k6 ← load32 key 6
  let k9 ← load32 key 9
  let k12 ← load32 key 12
  let r : Limbs5 :=
    ⟨k0 &&& 0x3ffffff, (k3 >>> 2) &&& 0x3ffff03, (k6 >>> 4) &&& 0x3ffc0ff,
     (k9 >>> 6) &&& 0x3f03fff, (k12 >>> 8) &&& 0x00fffff⟩
  let p0 ← load32 key 16
  let p1 ← load32 key 20
  let p2 ← load32 key 24
  let p3 ← load32 key 28
  pure { st with r := r, h := ⟨0, 0, 0, 0, 0⟩, pad := ⟨p0, p1, p2, p3⟩,
                 leftover := 0, final := false }

/-- Clear purges the sensitive material in hash's internal state (lines 177-188). -/
def Poly1305.Clear (st : Poly1305) : Poly1305 :=
  { st with h := ⟨0, 0, 0, 0, 0⟩, r := ⟨0, 0, 0, 0, 0⟩, pad := ⟨0, 0, 0, 0⟩ }

/-- The arithmetic of one iteration of the loop in `blocks` (lines 222-252):
`h` already holds the sum of the accumulator and the block limbs. -/
def mulReduce (r h : Limbs5) : Limbs5 :=
  let r0 := r.v0
  let r1 := r.v1
  let r2 := r.v2
  let r3 := r.v3
  let r4 := r.v4
  let s1 := mul32 r1 5
  let s2 := mul32 r2 5
  let s3 := mul32 r3 5
  let s4 := mul32 r4 5
  let h0 := h.v0
  let h1 := h.v1
  let h2 := h.v2
  let h3 := h.v3
  let h4 := h.v4
  -- h *= r
  let d0 := add64 (add64 (add64 (add64 (mul64 h0 r0) (mul64 h1 s4)) (mul64 h2 s3)) (mul64 h3 s2)) (mul64 h4 s1)
  let d1 := add64 (add64 (add64 (add64 (mul64 h0 r1) (mul64 h1 r0)) (mul64 h2 s4)) (mul64 h3 s3)) (mul64 h4 s2)
  let d2 := add64 (add64 (add64 (add64 (mul64 h0 r2) (mul64 h1 r1)) (mul64 h2 r0)) (mul64 h3 s4)) (mul64 h4 s3)
  let d3 := add64 (add64 (add64 (add64 (mul64 h0 r3) (mul64 h1 r2)) (mul64 h2 r1)) (mul64 h3 r0)) (mul64 h4 s4)
  let d4 := add64 (add64 (add64 (add64 (mul64 h0 r4) (mul64 h1 r3)) (mul64 h2 r2)) (mul64 h3 r1)) (mul64 h4 r0)
  -- (partial) h %= p
  let c := u32 (d0 >>> 26)
  let h0 := u32 d0 &&& 0x3ffffff
  let d1 := add64 d1 c
  let c := u32 (d1 >>> 26)
  let h1 := u32 d1 &&& 0x3ffffff
  let d2 := add64 d2 c
  let c := u32 (d2 >>> 26)
  let h2 := u32 d2 &&& 0x3ffffff
  let d3 := add64 d3 c
  let c := u32 (d3 >>> 26)
  let h3 := u32 d3 &&& 0x3ffffff
  let d4 := add64 d4 c
  let c := u32 (d4 >>> 26)
  let h4 := u32 d4 &&& 0x3ffffff
  let h0 := add32 h0 (mul32 c 5)
  let c := h0 >>> 26
  let h0 := h0 &&& 0x3ffffff
  let h1 := add32 h1 c
  ⟨h0, h1, h2, h3, h4⟩

/-- The loop `for bytes >= BlockSize` of `blocks` (lines 205-256); `fuel`
bounds the number of iterations. -/
def blocksLoop (r : Limbs5) (hibit : Nat) : Nat → Limbs5 → List Byte → Int → Go Limbs5
  | 0, h, _, _ => .ok h
  | fuel + 1, h, m, bytes =>
    if bytes ≥ BlockSize then do
      -- h += m[i]
      let m0 ← load32 m 0
      let m3 ← load32 m 3
      let m6 ← load32 m 6
      let m9 ← load32 m 9
      let m12 ← load32 m 12
      let h0 := add32 h.v0 (m0 &&& 0x3ffffff)
      let h1 := add32 h.v1 ((m3 >>> 2) &&& 0x3ffffff)
      let h2 := add32 h.v2 ((m6 >>> 4) &&& 0x3ffffff)
      let h3 := add32 h.v3 ((m9 >>> 6) &&& 0x3ffffff)
      let h4 := add32 h.v4 ((m12 >>> 8) ||| hibit)
      let h := mulReduce r ⟨h0, h1, h2, h3, h4⟩
      let m ← sliceFrom m BlockSize
      blocksLoop r hibit fuel h m (bytes - BlockSize)
    else .ok h

/-- The method `blocks` (lines 190-259). The loop subtracts `BlockSize` from
`bytes` while `bytes >= BlockSize`, so `bytes.toNat` iterations always suffice. -/
def Poly1305.blocks (st : Poly1305) (m : List Byte) (bytes : Int) : Go Poly1305 := do
  let hibit : Nat := if !st.final then 1 <<< 24 else 0
  let h ← blocksLoop st.r hibit bytes.toNat st.h m bytes
  pure { st with h := h }

/-- The full carry of `finish` (lines 281-302). -/
def fullCarry (h : Limbs5) : Limbs5 :=
  let h0 := h.v0
  let h1 := h.v1
  let h2 := h.v2
  let h3 := h.v3
  let h4 := h.v4
  let c := h1 >>> 26
  let h1 := h1 &&& 0x3ffffff
  let h2 := add32 h2 c
  let c := h2 >>> 26
  let h2 := h2 &&& 0x3ffffff
  let h3 := add32 h3 c
  let c := h3 >>> 26
  let h3 := h3 &&& 0x3ffffff
  let h4 := add32 h4 c
  let c := h4 >>> 26
  let h4 := h4 &&& 0x3ffffff
  let h0 := add32 h0 (mul32 c 5)
  let c := h0 >>> 26
  let h0 := h0 &&& 0x3ffffff
  let h1 := add32 h1 c
  ⟨h0, h1, h2, h3, h4⟩

/-- The computation of `h + -p` and the branch-free selection of `finish`
(lines 304-335). -/
def selectReduced (h : Limbs5) : Limbs5 :=
  let h0 := h.v0
  let h1 := h.v1
  let h2 := h.v2
  let h3 := h.v3
  let h4 := h.v4
  -- compute h + -p
  let g0 := add32 h0 5
  let c := g0 >>> 26
  let g0 := g0 &&& 0x3ffffff
  let g1 := add32 h1 c
  let c := g1 >>> 26
  let g1 := g1 &&& 0x3ffffff
  let g2 := add32 h2 c
  let c := g2 >>> 26
  let g2 := g2 &&& 0x3ffffff
  let g3 := add32 h3 c
  let c := g3 >>> 26
  let g3 := g3 &&& 0x3ffffff
  let g4 := sub32 (add32 h4 c) (1 <<< 26)
  -- select h if h < p, or h + -p if h >= p
  let mask := sub32 (g4 >>> ((4 * 8) - 1)) 1
  let g0 := g0 &&& mask
  let g1 := g1 &&& mask
  let g2 := g2 &&& mask
  let g3 := g3 &&& mask
  let g4 := g4 &&& mask
  let mask := not32 mask
  let h0 := (h0 &&& mask) ||| g0
  let h1 := (h1 &&& mask) ||| g1
  let h2 := (h2 &&& mask) ||| g2
  let h3 := (h3 &&& mask) ||| g3
  let h4 := (h4 &&& mask) ||| g4
  ⟨h0, h1, h2, h3, h4⟩

/-- The repacking into four words and the addition of the pad in `finish`
(lines 337-354). -/
def packAddPad (h : Limbs5) (pad : Words4) : Words4 :=
  let h0 := h.v0
  let h1 := h.v1
  let h2 := h.v2
  let h3 := h.v3
  let h4 := h.v4
  -- h = h % (2^128)
  let h0 := (h0 ||| shl32 h1 26) &&& 0xffffffff
  let h1 := ((h1 >>> 6) ||| shl32 h2 20) &&& 0xffffffff
  let h2 := ((h2 >>> 12) ||| shl32 h3 14) &&& 0xffffffff
  let h3 := ((h3 >>> 18) ||| shl32 h4 8) &&& 0xffffffff
  -- mac = (h + pad) % (2^128)
  let f := add64 h0 pad.v0
  let h0 := u32 f
  let f := add64 (add64 h1 pad.v1) (f >>> 32)
  let h1 := u32 f
  let f := add64 (add64 h2 pad.v2) (f >>> 32)
  let h2 := u32 f
  let f := add64 (add64 h3 pad.v3) (f >>> 32)
  let h3 := u32 f
  ⟨h0, h1, h2, h3⟩

/-- The method `finish` (lines 261-371): the state it leaves behind and the 16
bytes it stores through `mac`. All sixteen bytes of `*mac` are overwritten, so
the previous contents of the array do not enter. -/
def Poly1305.finish (st : Poly1305) : Go (Poly1305 × List Byte) := do
  -- process the remaining block
  let st ← (if st.leftover > 0 then do
      let b ← st.buffer.store st.leftover 1
      let b ← forRange (fun i b => Buffer.store b i 0) (st.leftover + 1) BlockSize b
      let st := { st with buffer := b, final := true }
      st.blocks st.buffer.val BlockSize
    else pure st)
  -- fully carry h
  let h := fullCarry st.h
  let h := selectReduced h
  let w := packAddPad h st.pad
  let mac := le32 w.v0 ++ le32 w.v1 ++ le32 w.v2 ++ le32 w.v3
  -- zero out the state
  pure (st.Clear, mac)

/-- The copy loop of `Write` (lines 69-71 and 92-94):
`for i := 0; i < n; i++ { st.buffer[st.leftover+i] = m[i] }`. -/
def copyIn (buffer : Buffer) (leftover : Int) (m : List Byte) (n : Int) : Go Buffer :=
  forRange (fun i b => do
    let v ← index m i
    Buffer.store b (leftover + i) v) 0 n buffer

/-- The part of `Write` from "process full blocks" to the return (lines 82-98),
on the current slice `m` and count `bytes`; `p` is the argument of `Write`. -/
def Poly1305.writeTail (st : Poly1305) (p m : List Byte) (bytes : Int) :
    Go (Poly1305 × Int × Option GoError) := do
  -- process full blocks
  let (st, m, bytes) ← (if bytes ≥ BlockSize then do
      -- bytes & (^(BlockSize - 1)) clears the low four bits of bytes
      let want := bytes - bytes % 16
      let st ← st.blocks m want
      let m ← sliceFrom m want
      pure (st, m, bytes - want)
    else pure (st, m, bytes))
  -- store leftover
  if bytes > 0 then
    let b ← copyIn st.buffer st.leftover m bytes
    let st := { st with buffer := b, leftover := st.leftover + bytes }
    return (st, p.length, none)
  return (st, p.length, none)

/-- Write adds more data to the running hash (lines 54-99): the state after
the call and the two results `n` and `err`. -/
def Poly1305.Write (st : Poly1305) (p : List Byte) : Go (Poly1305 × Int × Option GoError) := do
  let m := p
  let bytes : Int := m.length
  -- handle leftover
  if st.leftover > 0 then
    let want := BlockSize - st.leftover
    let want := if want > bytes then bytes else want
    let b ← copyIn st.buffer st.leftover m want
    let st := { st with buffer := b }
    let bytes := bytes - want
    let m ← sliceFrom m want
    let st := { st with leftover := st.leftover + want }
    if st.leftover < BlockSize then
      return (st, p.length, none)
    let st ← st.blocks st.buffer.val BlockSize
    let st := { st with leftover := 0 }
    st.writeTail p m bytes
  else
    st.writeTail p m bytes

/-- The method Sum appends the current hash to b and returns the resulting
slice (lines 101-108): `tmp := *st` copies the struct, `finish` runs on the
copy. The first component is the receiver after the call. -/
def Poly1305.Sum (st : Poly1305) (b : List Byte) : Go (Poly1305 × List Byte) := do
  let tmp := st
  let (_, mac) ← tmp.finish
  pure (st, b ++ mac)

/-- New returns a new Poly1305 instance keyed with the supplied key (lines 373-382):
the pair of the pointer (nil is `none`) and the error (nil is `none`). -/
def New (key : List Byte) : Go (Option Poly1305 × Option GoError) := do
  if (key.length : Int) ≠ KeySize then
    return (none, some .ErrInvalidKeySize)
  let h ← Poly1305.zero.Init key
  return (some h, none)

/-- The package-level Sum (lines 384-390): the 16 bytes stored through `mac`. -/
def Sum (m key : List Byte) : Go (List Byte) := do
  let h := Poly1305.zero
  let h ← h.Init key
  let (h, _, _) ← h.Write m
  let (_, mac) ← h.finish
  pure mac

/-- The call `subtle.ConstantTimeByteEq(x, y)`: `int((uint32(x^y) - 1) >> 31)`. -/
def ConstantTimeByteEq (x y : Nat) : Int :=
  ((sub32 (x ^^^ y) 1) >>> 31 : Nat)

/-- The call `subtle.ConstantTimeCompare(x, y)` of the Go standard library: 0 when
the lengths differ, else the OR of the bytewise XORs compared with 0. -/
def ConstantTimeCompare (x y : List Byte) : Int :=
  if x.length ≠ y.length then 0
  else ConstantTimeByteEq ((List.zipWith (fun a b => a.val ^^^ b.val) x y).foldl (fun v e => v ||| e) 0) 0

/-- Verify (lines 392-397). -/
def Verify (mac m key : List Byte) : Go Bool := do
  let m2 ← Sum m key
  pure (decide (ConstantTimeCompare mac m2 = 1))

/-! ## Semantic functions and specification

Pure functions that describe what the loops of the engine compute, the invariant of an
engine that has absorbed a message, and the mathematical definition of the tag. -/

/-- A list with the window starting at `k` overwritten by `x`. -/
def splice (b : List Byte) (k : Nat) (x : List Byte) : List Byte :=
  b.take k ++ x ++ b.drop (k + x.length)

/-- The little-endian value of the four bytes of `b` at offset `off`. -/
def le32At (b : List Byte) (off : Nat) : Nat :=
  (b.getD off 0).val + (b.getD (off + 1) 0).val * 2 ^ 8 + (b.getD (off + 2) 0).val * 2 ^ 16
    + (b.getD (off + 3) 0).val * 2 ^ 24

/-- The limbs that one iteration of `blocks` adds to the accumulator for the block `b`. -/
def blockLimbs (hibit : Nat) (b : List Byte) : Limbs5 :=
  ⟨le32At b 0 &&& 0x3ffffff, (le32At b 3 >>> 2) &&& 0x3ffffff, (le32At b 6 >>> 4) &&& 0x3ffffff,
   (le32At b 9 >>> 6) &&& 0x3ffffff, (le32At b 12 >>> 8) ||| hibit⟩

/-- One iteration of the loop of `blocks` on the 16-byte block `b`. -/
def absorbBlock (r : Limbs5) (hibit : Nat) (h : Limbs5) (b : List Byte) : Limbs5 :=
  let l := blockLimbs hibit b
  mulReduce r ⟨add32 h.v0 l.v0, add32 h.v1 l.v1, add32 h.v2 l.v2, add32 h.v3 l.v3, add32 h.v4 l.v4⟩

/-- The loop of `blocks` run over the first `n` 16-byte blocks of `m`. -/
def absorb (r : Limbs5) (hibit : Nat) : Nat → Limbs5 → List Byte → Limbs5
  | 0, h, _ => h
  | n + 1, h, m => absorb r hibit n (absorbBlock r hibit h (m.take 16)) (m.drop 16)

/-- The value of `hibit` in `blocks`. -/
def hibitOf (final : Bool) : Nat := if !final then 1 <<< 24 else 0

/-- The padded final block: the pending bytes, one `0x01` byte, zero fill. -/
def finalBlock (pending : List Byte) : List Byte :=
  pending ++ [1] ++ List.replicate (15 - pending.length) 0

/-- The accumulator after the optional final block of `finish`. -/
def finishLimbs (r h : Limbs5) (pending : List Byte) : Limbs5 :=
  if pending.length = 0 then h else absorbBlock r 0 h (finalBlock pending)

/-- The 16 bytes `finish` stores for the accumulator `h` and the pad. -/
def tagOfLimbs (h : Limbs5) (pad : Words4) : List Byte :=
  le32 (packAddPad (selectReduced (fullCarry h)) pad).v0
    ++ le32 (packAddPad (selectReduced (fullCarry h)) pad).v1
    ++ le32 (packAddPad (selectReduced (fullCarry h)) pad).v2
    ++ le32 (packAddPad (selectReduced (fullCarry h)) pad).v3

/-- The limbs of `r` that `Init` stores for a key. -/
def rOf (key : List Byte) : Limbs5 :=
  ⟨le32At key 0 &&& 0x3ffffff, (le32At key 3 >>> 2) &&& 0x3ffff03,
   (le32At key 6 >>> 4) &&& 0x3ffc0ff, (le32At key 9 >>> 6) &&& 0x3f03fff,
   (le32At key 12 >>> 8) &&& 0x00fffff⟩

/-- The pad words that `Init` stores for a key. -/
def padOf (key : List Byte) : Words4 :=
  ⟨le32At key 16, le32At key 20, le32At key 24, le32At key 28⟩

/-- The state of an engine that was keyed with `key` and has absorbed the message `M`. -/
def Absorbed (key M : List Byte) (st : Poly1305) : Prop :=
  st.r = rOf key ∧ st.pad = padOf key ∧ st.final = false ∧
  st.h = absorb (rOf key) (1 <<< 24) (M.length / 16) ⟨0, 0, 0, 0, 0⟩ M ∧
  st.leftover = ((M.length % 16 : Nat) : Int) ∧
  st.buffer.val.take (M.length % 16) = M.drop (16 * (M.length / 16))

/-- The tag the engine computes for the message `M` under `key`, as a function of the
whole message. -/
def streamTag (key M : List Byte) : List Byte :=
  tagOfLimbs (finishLimbs (rOf key)
    (absorb (rOf key) (1 <<< 24) (M.length / 16) ⟨0, 0, 0, 0, 0⟩ M)
    (M.drop (16 * (M.length / 16)))) (padOf key)

def Limbs5.val (h : Limbs5) : Nat :=
  h.v0 + h.v1 * 2 ^ 26 + h.v2 * 2 ^ 52 + h.v3 * 2 ^ 78 + h.v4 * 2 ^ 104

def Words4.val (w : Words4) : Nat :=
  w.v0 + w.v1 * 2 ^ 32 + w.v2 * 2 ^ 64 + w.v3 * 2 ^ 96

def P : Nat := 2 ^ 130 - 5

/-- Limbs as left by `blocks`: every limb within 26 bits except for a small
excess in limb 1. -/
def Limbs5.Carried (h : Limbs5) : Prop :=
  h.v0 < 2 ^ 26 ∧ h.v1 < 2 ^ 26 + 64 ∧ h.v2 < 2 ^ 26 ∧ h.v3 < 2 ^ 26 ∧ h.v4 < 2 ^ 26

/-- Limbs all within 26 bits. -/
def Limbs5.Reduced (h : Limbs5) : Prop :=
  h.v0 < 2 ^ 26 ∧ h.v1 < 2 ^ 26 ∧ h.v2 < 2 ^ 26 ∧ h.v3 < 2 ^ 26 ∧ h.v4 < 2 ^ 26

/-- The carry chain of `blocks` (lines 229-252) on the five 64-bit sums. -/
def carry5 (d0 d1 d2 d3 d4 : Nat) : Limbs5 :=
  let c := u32 (d0 >>> 26)
  let h0 := u32 d0 &&& 0x3ffffff
  let d1 := add64 d1 c
  let c := u32 (d1 >>> 26)
  let h1 := u32 d1 &&& 0x3ffffff
  let d2 := add64 d2 c
  let c := u32 (d2 >>> 26)
  let h2 := u32 d2 &&& 0x3ffffff
  let d3 := add64 d3 c
  let c := u32 (d3 >>> 26)
  let h3 := u32 d3 &&& 0x3ffffff
  let d4 := add64 d4 c
  let c := u32 (d4 >>> 26)
  let h4 := u32 d4 &&& 0x3ffffff
  let h0 := add32 h0 (mul32 c 5)
  let c := h0 >>> 26
  let h0 := h0 &&& 0x3ffffff
  let h1 := add32 h1 c
  ⟨h0, h1, h2, h3, h4⟩

/-- The little-endian value of a byte string. -/
def LE : List Byte → Nat
  | [] => 0
  | b :: bs => b.val + 256 * LE bs

/-- One step of the Poly1305 polynomial evaluation: `acc := ((acc + c) * r) mod p` with
`c = LE(block) + 2^(8*len(block))`. -/
def polyStep (r : Nat) (acc : Nat) (b : List Byte) : Nat :=
  ((acc + (LE b + 2 ^ (8 * b.length))) * r) % P

/-- The first `n` 16-byte blocks of `m`. -/
def firstBlocks : Nat → List Byte → List (List Byte)
  | 0, _ => []
  | n + 1, m => m.take 16 :: firstBlocks n (m.drop 16)

/-- The Poly1305 clamp mask. -/
def clampMask : Nat := 0x0ffffffc0ffffffc0ffffffc0fffffff

/-- The `n`-byte little-endian encoding of `v`. -/
def leBytes : Nat → Nat → List Byte
  | 0, _ => []
  | n + 1, v => byte v :: leBytes n (v / 256)

/-- The consecutive 16-byte blocks of a message: the last one 1..16 bytes long, none for
the empty message. `fuel` bounds the number of blocks. -/
def specBlocksAux : Nat → List Byte → List (List Byte)
  | 0, _ => []
  | fuel + 1, m => if m.isEmpty then [] else m.take 16 :: specBlocksAux fuel (m.drop 16)

/-- The consecutive 16-byte blocks of a message. -/
def specBlocks (m : List Byte) : List (List Byte) := specBlocksAux m.length m

/-- The Poly1305 accumulator: folded from 0 by `acc := ((acc + c_i) * r) mod p`. -/
def specAcc (r : Nat) (blocks : List (List Byte)) : Nat :=
  blocks.foldl (polyStep r) 0

/-- The standard Poly1305 tag of the message `m` under the 32-byte key `key`. -/
def specTag (key m : List Byte) : List Byte :=
  leBytes 16 ((specAcc (LE (key.take 16) &&& clampMask) (specBlocks m)
    + LE ((key.drop 16).take 16)) % 2 ^ 128)

/-- The message or key `bs` with bit `i` flipped: bit `i % 8` of byte `i / 8`. -/
def flipBit (bs : List Byte) (i : Nat) : List Byte :=
  bs.set (i / 8) (byte ((bs.getD (i / 8) 0).val ^^^ (1 <<< (i % 8))))

/-- Successive `Write` calls, one per chunk. -/
def writeAll : Poly1305 → List (List Byte) → Go Poly1305
  | st, [] => .ok st
  | st, c :: cs => do
    let (st', _, _) ← st.Write c
    writeAll st' cs

/-- The call sequence `New(key)`, `Write` on each chunk in order, `Sum(nil)`. -/
def sumChunks (key : List Byte) (chunks : List (List Byte)) : Go (List Byte) := do
  let (h, _) ← New key
  match h with
  | none => throw .nilDereference
  | some h =>
    let h ← writeAll h chunks
    let (_, mac) ← h.Sum []
    pure mac

/-- The call sequence `New(key)`, `Write(a)`, `Sum(nil)`, `Write(b)`, `Sum(nil)`: the two
tags returned by `Sum`. -/
def peekTwice (key a b : List Byte) : Go (List Byte × List Byte) := do
  let (h, _) ← New key
  match h with
  | none => throw .nilDereference
  | some h =>
    let (h, _, _) ← h.Write a
    let (h, t1) ← h.Sum []
    let (h, _, _) ← h.Write b
    let (_, t2) ← h.Sum []
    pure (t1, t2)

/-- A keyed engine with three buffered bytes, used as a concrete state. -/
def sampleState : Poly1305 :=
  { r := ⟨1, 2, 3, 4, 5⟩, h := ⟨6, 7, 8, 9, 10⟩, pad := ⟨11, 12, 13, 14⟩, leftover := 3,
    buffer := ⟨[1, 2, 3, 0, 0, 0, 0, 0, 0, 0, 0, 0, 0, 0, 0, 0], rfl⟩, final := false }

/-- Reset clears the internal hash state and panic()s (lines 110-117): the engine as
`st.Clear()` leaves it at the moment the panic is raised, and the outcome of the call, which
is the panic and never a return. -/
def Poly1305.Reset (st : Poly1305) : Poly1305 × Go Unit :=
  let st := st.Clear -- Obliterate the state before panic().
  (st, .error (.text "poly1305: Reset() is not supported"))

/-- A starting point of an engine: the zero value, the engine that `New(key)` returns, or
the result of `Init(key)` on any engine. -/
def Started (st : Poly1305) : Prop :=
  st = Poly1305.zero ∨ (∃ key e, New key = .ok (some st, e)) ∨
  (∃ st0 key, Poly1305.Init st0 key = .ok st)

/-- A starting point of a keyed engine: the engine that `New(key)` returns, or the result of
`Init(key)` on any engine. -/
def Keyed (st : Poly1305) : Prop :=
  (∃ key e, New key = .ok (some st, e)) ∨ (∃ st0 key, Poly1305.Init st0 key = .ok st)

/-- One call of `Write` that returns, taking the engine from `st` to `st'`. -/
def WriteStep (st st' : Poly1305) : Prop :=
  ∃ p n e, st.Write p = .ok (st', n, e)

/-- One call of `Write`, method `Sum`, `Clear` or `Init` that returns, taking the engine from
`st` to `st'`. -/
def Step (st st' : Poly1305) : Prop :=
  WriteStep st st' ∨ (∃ b out, st.Sum b = .ok (st', out)) ∨ st' = st.Clear ∨
  (∃ key, st.Init key = .ok st')

/-- The engine states reachable from `New(key)`, from `Init(key)` or from the zero value
through any sequence of `Write`, method `Sum`, `Clear` and `Init` calls. -/
inductive Reach : Poly1305 → Prop where
  | start (st : Poly1305) : Started st → Reach st
  | step (st st' : Poly1305) : Reach st → Step st st' → Reach st'

/-- The engine states reachable from `New(key)` or `Init(key)` through `Write` calls. -/
inductive ReachW : Poly1305 → Prop where
  | start (st : Poly1305) : Keyed st → ReachW st
  | step (st st' : Poly1305) : ReachW st → WriteStep st st' → ReachW st'

/-- The call sequence `st.Init(key)`, `Write` on each chunk in order, `Sum(nil)`. -/
def initChunks (st : Poly1305) (key : List Byte) (chunks : List (List Byte)) :
    Go (List Byte) := do
  let h ← st.Init key
  let h ← writeAll h chunks
  let (_, mac) ← h.Sum []
  pure mac

/-- Key of test vector #1 of `TestIETFDraft`: all-zero key and 64 zero bytes. -/
def ietfKey1 : List Byte :=
  [
   0, 0, 0, 0, 0, 0, 0, 0, 0, 0, 0, 0, 0, 0, 0, 0,
   0, 0, 0, 0, 0, 0, 0, 0, 0, 0, 0, 0, 0, 0, 0, 0]

/-- Message of test vector #1 of `TestIETFDraft`. -/
def ietfMsg1 : List Byte :=
  [
   0, 0, 0, 0, 0, 0, 0, 0, 0, 0, 0, 0, 0, 0, 0, 0,
   0, 0, 0, 0, 0, 0, 0, 0, 0, 0, 0, 0, 0, 0, 0, 0,
   0, 0, 0, 0, 0, 0, 0, 0, 0, 0, 0, 0, 0, 0, 0, 0,
   0, 0, 0, 0, 0, 0, 0, 0, 0, 0, 0, 0, 0, 0, 0, 0]

/-- Tag of test vector #1 of `TestIETFDraft`. -/
def ietfTag1 : List Byte :=
  [
   0, 0, 0, 0, 0, 0, 0, 0, 0, 0, 0, 0, 0, 0, 0, 0]

/-- Key of test vector #2 of `TestIETFDraft`: `r = 0` with a non-zero `s`. -/
def ietfKey2 : List Byte :=
  [
   0, 0, 0, 0, 0, 0, 0, 0, 0, 0, 0, 0, 0, 0, 0, 0,
   54, 229, 246, 181, 197, 224, 96, 112, 240, 239, 202, 150, 34, 122, 134, 62]

/-- Message of test vector #2 of `TestIETFDraft`. -/
def ietfMsg2 : List Byte :=
  [
   65, 110, 121, 32, 115, 117, 98, 109, 105, 115, 115, 105, 111, 110, 32, 116,
   111, 32, 116, 104, 101, 32, 73, 69, 84, 70, 32, 105, 110, 116, 101, 110,
   100, 101, 100, 32, 98, 121, 32, 116, 104, 101, 32, 67, 111, 110, 116, 114,
   105, 98, 117, 116, 111, 114, 32, 102, 111, 114, 32, 112, 117, 98, 108, 105,
   99, 97, 116, 105, 111, 110, 32, 97, 115, 32, 97, 108, 108, 32, 111, 114,
   32, 112, 97, 114, 116, 32, 111, 102, 32, 97, 110, 32, 73, 69, 84, 70,
   32, 73, 110, 116, 101, 114, 110, 101, 116, 45, 68, 114, 97, 102, 116, 32,
   111, 114, 32, 82, 70, 67, 32, 97, 110, 100, 32, 97, 110, 121, 32, 115,
   116, 97, 116, 101, 109, 101, 110, 116, 32, 109, 97, 100, 101, 32, 119, 105,
   116, 104, 105, 110, 32, 116, 104, 101, 32, 99, 111, 110, 116, 101, 120, 116,
   32, 111, 102, 32, 97, 110, 32, 73, 69, 84, 70, 32, 97, 99, 116, 105,
   118, 105, 116, 121, 32, 105, 115, 32, 99, 111, 110, 115, 105, 100, 101, 114,
   101, 100, 32, 97, 110, 32, 34, 73, 69, 84, 70, 32, 67, 111, 110, 116,
   114, 105, 98, 117, 116, 105, 111, 110, 34, 46, 32, 83, 117, 99, 104, 32,
   115, 116, 97, 116, 101, 109, 101, 110, 116, 115, 32, 105, 110, 99, 108, 117,
   100, 101, 32, 111, 114, 97, 108, 32, 115, 116, 97, 116, 101, 109, 101, 110,
   116, 115, 32, 105, 110, 32, 73, 69, 84, 70, 32, 115, 101, 115, 115, 105,
   111, 110, 115, 44, 32, 97, 115, 32, 119, 101, 108, 108, 32, 97, 115, 32,
   119, 114, 105, 116, 116, 101, 110, 32, 97, 110, 100, 32, 101, 108, 101, 99,
   116, 114, 111, 110, 105, 99, 32, 99, 111, 109, 109, 117, 110, 105, 99, 97,
   116, 105, 111, 110, 115, 32, 109, 97, 100, 101, 32, 97, 116, 32, 97, 110,
   121, 32, 116, 105, 109, 101, 32, 111, 114, 32, 112, 108, 97, 99, 101, 44,
   32, 119, 104, 105, 99, 104, 32, 97, 114, 101, 32, 97, 100, 100, 114, 101,
   115, 115, 101, 100, 32, 116, 111]

/-- Tag of test vector #2 of `TestIETFDraft`. -/
def ietfTag2 : List Byte :=
  [
   54, 229, 246, 181, 197, 224, 96, 112, 240, 239, 202, 150, 34, 122, 134, 62]

/-- Key of test vector #3 of `TestIETFDraft`: the key of vector 2 with `r` and `s` exchanged. -/
def ietfKey3 : List Byte :=
  [
   54, 229, 246, 181, 197, 224, 96, 112, 240, 239, 202, 150, 34, 122, 134, 62,
   0, 0, 0, 0, 0, 0, 0, 0, 0, 0, 0, 0, 0, 0, 0, 0]

/-- Message of test vector #3 of `TestIETFDraft`, the same 375 bytes as in vector #2. -/
def ietfMsg3 : List Byte := ietfMsg2

/-- Tag of test vector #3 of `TestIETFDraft`. -/
def ietfTag3 : List Byte :=
  [
   243, 71, 126, 124, 217, 84, 23, 175, 137, 166, 184, 121, 76, 49, 12, 240]

/-- Key of test vector #4 of `TestIETFDraft`: the Jabberwocky stanza. -/
def ietfKey4 : List Byte :=
  [
   28, 146, 64, 165, 235, 85, 211, 138, 243, 51, 136, 134, 4, 246, 181, 240,
   71, 57, 23, 193, 64, 43, 128, 9, 157, 202, 92, 188, 32, 112, 117, 192]

/-- Message of test vector #4 of `TestIETFDraft`. -/
def ietfMsg4 : List Byte :=
  [
   39, 84, 119, 97, 115, 32, 98, 114, 105, 108, 108, 105, 103, 44, 32, 97,
   110, 100, 32, 116, 104, 101, 32, 115, 108, 105, 116, 104, 121, 32, 116, 111,
   118, 101, 115, 10, 68, 105, 100, 32, 103, 121, 114, 101, 32, 97, 110, 100,
   32, 103, 105, 109, 98, 108, 101, 32, 105, 110, 32, 116, 104, 101, 32, 119,
   97, 98, 101, 58, 10, 65, 108, 108, 32, 109, 105, 109, 115, 121, 32, 119,
   101, 114, 101, 32, 116, 104, 101, 32, 98, 111, 114, 111, 103, 111, 118, 101,
   115, 44, 10, 65, 110, 100, 32, 116, 104, 101, 32, 109, 111, 109, 101, 32,
   114, 97, 116, 104, 115, 32, 111, 117, 116, 103, 114, 97, 98, 101, 46]

/-- Tag of test vector #4 of `TestIETFDraft`. -/
def ietfTag4 : List Byte :=
  [
   69, 65, 102, 154, 126, 170, 238, 97, 231, 8, 220, 124, 188, 197, 235, 98]

/-- Key of test vector #5 of `TestIETFDraft`: 130-bit partial reduction: `r = 2`, sixteen `0xff` bytes. -/
def ietfKey5 : List Byte :=
  [
   2, 0, 0, 0, 0, 0, 0, 0, 0, 0, 0, 0, 0, 0, 0, 0,
   0, 0, 0, 0, 0, 0, 0, 0, 0, 0, 0, 0, 0, 0, 0, 0]

/-- Message of test vector #5 of `TestIETFDraft`. -/
def ietfMsg5 : List Byte :=
  [
   255, 255, 255, 255, 255, 255, 255, 255, 255, 255, 255, 255, 255, 255, 255, 255]

/-- Tag of test vector #5 of `TestIETFDraft`. -/
def ietfTag5 : List Byte :=
  [
   3, 0, 0, 0, 0, 0, 0, 0, 0, 0, 0, 0, 0, 0, 0, 0]

/-- Key of test vector #6 of `TestIETFDraft`: addition of `s = 2^128 - 1` overflows modulo `2^128`. -/
def ietfKey6 : List Byte :=
  [
   2, 0, 0, 0, 0, 0, 0, 0, 0, 0, 0, 0, 0, 0, 0, 0,
   255, 255, 255, 255, 255, 255, 255, 255, 255, 255, 255, 255, 255, 255, 255, 255]

/-- Message of test vector #6 of `TestIETFDraft`. -/
def ietfMsg6 : List Byte :=
  [
   2, 0, 0, 0, 0, 0, 0, 0, 0, 0, 0, 0, 0, 0, 0, 0]

/-- Tag of test vector #6 of `TestIETFDraft`. -/
def ietfTag6 : List Byte :=
  [
   3, 0, 0, 0, 0, 0, 0, 0, 0, 0, 0, 0, 0, 0, 0, 0]

/-- Key of test vector #7 of `TestIETFDraft`: data limb all ones with a carry from the lower limb. -/
def ietfKey7 : List Byte :=
  [
   1, 0, 0, 0, 0, 0, 0, 0, 0, 0, 0, 0, 0, 0, 0, 0,
   0, 0, 0, 0, 0, 0, 0, 0, 0, 0, 0, 0, 0, 0, 0, 0]

/-- Message of test vector #7 of `TestIETFDraft`. -/
def ietfMsg7 : List Byte :=
  [
   255, 255, 255, 255, 255, 255, 255, 255, 255, 255, 255, 255, 255, 255, 255, 255,
   240, 255, 255, 255, 255, 255, 255, 255, 255, 255, 255, 255, 255, 255, 255, 255,
   17, 0, 0, 0, 0, 0, 0, 0, 0, 0, 0, 0, 0, 0, 0, 0]

/-- Tag of test vector #7 of `TestIETFDraft`. -/
def ietfTag7 : List Byte :=
  [
   5, 0, 0, 0, 0, 0, 0, 0, 0, 0, 0, 0, 0, 0, 0, 0]

/-- Key of test vector #8 of `TestIETFDraft`: final result from the polynomial part exactly `2^130 - 5`. -/
def ietfKey8 : List Byte :=
  [
   1, 0, 0, 0, 0, 0, 0, 0, 0, 0, 0, 0, 0, 0, 0, 0,
   0, 0, 0, 0, 0, 0, 0, 0, 0, 0, 0, 0, 0, 0, 0, 0]

/-- Message of test vector #8 of `TestIETFDraft`. -/
def ietfMsg8 : List Byte :=
  [
   255, 255, 255, 255, 255, 255, 255, 255, 255, 255, 255, 255, 255, 255, 255, 255,
   251, 254, 254, 254, 254, 254, 254, 254, 254, 254, 254, 254, 254, 254, 254, 254,
   1, 1, 1, 1, 1, 1, 1, 1, 1, 1, 1, 1, 1, 1, 1, 1]

/-- Tag of test vector #8 of `TestIETFDraft`. -/
def ietfTag8 : List Byte :=
  [
   0, 0, 0, 0, 0, 0, 0, 0, 0, 0, 0, 0, 0, 0, 0, 0]

/-- Key of test vector #9 of `TestIETFDraft`: final result from the polynomial part exactly `2^130 - 6`. -/
def ietfKey9 : List Byte :=
  [
   2, 0, 0, 0, 0, 0, 0, 0, 0, 0, 0, 0, 0, 0, 0, 0,
   0, 0, 0, 0, 0, 0, 0, 0, 0, 0, 0, 0, 0, 0, 0, 0]

/-- Message of test vector #9 of `TestIETFDraft`. -/
def ietfMsg9 : List Byte :=
  [
   253, 255, 255, 255, 255, 255, 255, 255, 255, 255, 255, 255, 255, 255, 255, 255]

/-- Tag of test vector #9 of `TestIETFDraft`. -/
def ietfTag9 : List Byte :=
  [
   250, 255, 255, 255, 255, 255, 255, 255, 255, 255, 255, 255, 255, 255, 255, 255]

/-- Key of test vector #10 of `TestIETFDraft`: `5*H+L` reduction with a 131-bit intermediate result. -/
def ietfKey10 : List Byte :=
  [
   1, 0, 0, 0, 0, 0, 0, 0, 4, 0, 0, 0, 0, 0, 0, 0,
   0, 0, 0, 0, 0, 0, 0, 0, 0, 0, 0, 0, 0, 0, 0, 0]

/-- Message of test vector #10 of `TestIETFDraft`. -/
def ietfMsg10 : List Byte :=
  [
   227, 53, 148, 215, 80, 94, 67, 185, 0, 0, 0, 0, 0, 0, 0, 0,
   51, 148, 215, 80, 94, 67, 121, 205, 1, 0, 0, 0, 0, 0, 0, 0,
   0, 0, 0, 0, 0, 0, 0, 0, 0, 0, 0, 0, 0, 0, 0, 0,
   1, 0, 0, 0, 0, 0, 0, 0, 0, 0, 0, 0, 0, 0, 0, 0]

/-- Tag of test vector #10 of `TestIETFDraft`. -/
def ietfTag10 : List Byte :=
  [
   20, 0, 0, 0, 0, 0, 0, 0, 85, 0, 0, 0, 0, 0, 0, 0]

/-- Key of test vector #11 of `TestIETFDraft`: `5*H+L`-type reduction with a 131-bit final result. -/
def ietfKey11 : List Byte :=
  [
   1, 0, 0, 0, 0, 0, 0, 0, 4, 0, 0, 0, 0, 0, 0, 0,
   0, 0, 0, 0, 0, 0, 0, 0, 0, 0, 0, 0, 0, 0, 0, 0]

/-- Message of test vector #11 of `TestIETFDraft`. -/
def ietfMsg11 : List Byte :=
  [
   227, 53, 148, 215, 80, 94, 67, 185, 0, 0, 0, 0, 0, 0, 0, 0,
   51, 148, 215, 80, 94, 67, 121, 205, 1, 0, 0, 0, 0, 0, 0, 0,
   0, 0, 0, 0, 0, 0, 0, 0, 0, 0, 0, 0, 0, 0, 0, 0]

/-- Tag of test vector #11 of `TestIETFDraft`. -/
def ietfTag11 : List Byte :=
  [
   19, 0, 0, 0, 0, 0, 0, 0, 0, 0, 0, 0, 0, 0, 0, 0]

/-- The key `totalKey` of `TestTotal`. -/
def totalKey : List Byte :=
  [1, 2, 3, 4, 5, 6, 7, 255, 254, 253, 252, 251, 250, 249, 255, 255,
   255, 255, 255, 255, 255, 255, 255, 255, 255, 255, 255, 255, 0, 0, 0, 0]

/-- The expected output `totalMac` of `TestTotal`. -/
def totalMac : List Byte :=
  [0x64, 0xaf, 0xe2, 0xe8, 0xd6, 0xad, 0x7b, 0xbd, 0xd2, 0x87, 0xf9, 0x7c, 0x44, 0x62, 0x3d, 0x39]

/-- One iteration of the loop of `TestTotal` (lines 147-163) on the engine `h`: the key and
the first `i` message bytes are set to `byte(i)`, `Sum` computes the tag of that message and
the tag is written to the engine. -/
def totalStep (i : Int) (h : Poly1305) : Go Poly1305 := do
  let mac ← Sum (List.replicate i.toNat (byte i.toNat)) (List.replicate 32 (byte i.toNat))
  let (h, _, _) ← h.Write mac
  pure h

/-- The body of `TestTotal` after the tables (lines 143-165) for a key and a loop body: an
engine is created by `New(key)`, the loop body runs for `i = 0..255` on it, and the result is
what `Sum(nil)` returns at the end. -/
def totalRun (key : List Byte) (step : Int → Poly1305 → Go Poly1305) : Go (List Byte) := do
  let (h, _) ← New key
  match h with
  | none => throw .nilDereference
  | some h =>
    let h ← forRange step 0 256 h
    let (_, out) ← h.Sum []
    pure out

/-- The computation of `TestTotal` (lines 120-166): an engine created by `New(totalKey)` is
fed, for `i = 0..255`, the tag that `Sum` produces for the message of `i` bytes `byte(i)`
under the key of 32 bytes `byte(i)`; the result is what `Sum(nil)` returns at the end. -/
def testTotal : Go (List Byte) := totalRun totalKey totalStep

/-- The tags `t_0, ..., t_(n-1)` of `TestTotal` by the standard definition, concatenated in
the order in which they are written. -/
def totalTags (n : Nat) : List Byte :=
  ((List.range n).map (fun i =>
    specTag (List.replicate 32 (byte i)) (List.replicate i (byte i)))).flatten

/-- The little-endian value of `n` bytes all equal to `b`. -/
def repLE (b : Nat) : Nat → Nat
  | 0 => 0
  | n + 1 => b + 256 * repLE b n

/-- The Poly1305 accumulator `acc` after `n` further blocks of the same value `c`. -/
def repAcc (r c : Nat) : Nat → Nat → Nat
  | 0, acc => acc
  | n + 1, acc => repAcc r c n (((acc + c) * r) % P)

/-- The standard tag, as a number, of the message of `i` bytes `byte(i)` under the key of
32 bytes `byte(i)`. -/
def repTag (i : Nat) : Nat :=
  let b := i % 256
  let k := repLE b 16
  let r := k &&& clampMask
  let acc := repAcc r (k + 2 ^ 128) (i / 16) 0
  let acc :=
    if i % 16 = 0 then acc else ((acc + (repLE b (i % 16) + 2 ^ (8 * (i % 16)))) * r) % P
  (acc + k) % 2 ^ 128

/-- The standard tag of the 256 tags `t_0, ..., t_255` of `TestTotal` under `totalKey`. -/
def totalTag : List Byte :=
  leBytes 16 (((List.range 256).foldl
      (fun acc i => polyStep (LE (totalKey.take 16) &&& clampMask) acc (leBytes 16 (repTag i))) 0
    + LE ((totalKey.drop 16).take 16)) % 2 ^ 128)

/-- The key `03 00 .. 00` (so `r = 3`, `s = 0`). -/
def limbKey : List Byte := 3 :: List.replicate 31 0

/-- A 16-byte block whose absorption under `limbKey` leaves limb 1 at `2^26`. -/
def limbBlock : List Byte :=
  [0x55, 0x55, 0x55, 0x55, 0x55, 0x55, 0x05, 0, 0, 0, 0, 0, 0, 0xff, 0xff, 0xff]

/-- The engine that `New(limbKey)` returns. -/
def limbState : Poly1305 :=
  { r := ⟨3, 0, 0, 0, 0⟩, h := ⟨0, 0, 0, 0, 0⟩, pad := ⟨0, 0, 0, 0⟩, leftover := 0,
    buffer := Buffer.zero, final := false }

/-- What holds of an engine between calls once it is keyed and only written to: `r` is
clamped into 26-bit limbs, the accumulator is carried, the final flag is off and the
leftover count is below one block. -/
def Poly1305.Wf (st : Poly1305) : Prop :=
  st.r.Reduced ∧ st.h.Carried ∧ st.final = false ∧ 0 ≤ st.leftover ∧ st.leftover < 16

/-- The engine `limbState` after `Write` of the three bytes `01 02 03`. -/
def partState : Poly1305 :=
  { r := ⟨3, 0, 0, 0, 0⟩, h := ⟨0, 0, 0, 0, 0⟩, pad := ⟨0, 0, 0, 0⟩, leftover := 3,
    buffer := ⟨[1, 2, 3, 0, 0, 0, 0, 0, 0, 0, 0, 0, 0, 0, 0, 0], rfl⟩, final := false }

/-- The engine `limbState` after `Write` of the block `limbBlock`. -/
def limbAfter : Poly1305 :=
  { r := ⟨3, 0, 0, 0, 0⟩, h := ⟨4, 67108864, 0, 0, 33554429⟩, pad := ⟨0, 0, 0, 0⟩, leftover := 0,
    buffer := Buffer.zero, final := false }

/-- An unsigned operation of width `w` whose exact result is `x`: that result when it fits in
`w` bits, nothing when the machine word would wrap. -/
def fits (w x : Nat) : Option Nat := if x < 2 ^ w then some x else none

/-- The `uint64` sum of five `uint64` products of a line `d_i = ...` of `blocks`
(lines 222-226) in exact arithmetic, every product and every partial sum checked against
the 64-bit word. -/
def dot5Checked (a1 b1 a2 b2 a3 b3 a4 b4 a5 b5 : Nat) : Option Nat := do
  let p1 ← fits 64 (a1 * b1)
  let p2 ← fits 64 (a2 * b2)
  let s ← fits 64 (p1 + p2)
  let p3 ← fits 64 (a3 * b3)
  let s ← fits 64 (s + p3)
  let p4 ← fits 64 (a4 * b4)
  let s ← fits 64 (s + p4)
  let p5 ← fits 64 (a5 * b5)
  fits 64 (s + p5)

/-- The partial reduction of `blocks` (lines 228-252) in exact arithmetic: the sums
`d_i += uint64(c)`, the conversions `c = uint32(d_i >> 26)`, the product `c * 5`, the sum
`h0 += c * 5` and the last `h1 += c` are checked against their words; `uint32(d_i)` keeps
the low 32 bits as in the source. -/
def carryChecked (d0 d1 d2 d3 d4 : Nat) : Option Limbs5 := do
  let c ← fits 32 (d0 >>> 26)
  let h0 := u32 d0 &&& 0x3ffffff
  let d1 ← fits 64 (d1 + c)
  let c ← fits 32 (d1 >>> 26)
  let h1 := u32 d1 &&& 0x3ffffff
  let d2 ← fits 64 (d2 + c)
  let c ← fits 32 (d2 >>> 26)
  let h2 := u32 d2 &&& 0x3ffffff
  let d3 ← fits 64 (d3 + c)
  let c ← fits 32 (d3 >>> 26)
  let h3 := u32 d3 &&& 0x3ffffff
  let d4 ← fits 64 (d4 + c)
  let c ← fits 32 (d4 >>> 26)
  let h4 := u32 d4 &&& 0x3ffffff
  let c5 ← fits 32 (c * 5)
  let h0 ← fits 32 (h0 + c5)
  let c := h0 >>> 26
  let h0 := h0 &&& 0x3ffffff
  let h1 ← fits 32 (h1 + c)
  pure ⟨h0, h1, h2, h3, h4⟩

/-- One pass of `blocks` over the 16-byte block `b` (lines 201-252) in exact arithmetic,
with every addition, product and conversion checked against its 32-bit or 64-bit word: the
result is defined only when no operation would wrap. -/
def blockStepChecked (r : Limbs5) (hibit : Nat) (h : Limbs5) (b : List Byte) :
    Option Limbs5 := do
  let r0 := r.v0
  let r1 := r.v1
  let r2 := r.v2
  let r3 := r.v3
  let r4 := r.v4
  let s1 ← fits 32 (r1 * 5)
  let s2 ← fits 32 (r2 * 5)
  let s3 ← fits 32 (r3 * 5)
  let s4 ← fits 32 (r4 * 5)
  -- h += m[i]
  let h0 ← fits 32 (h.v0 + (le32At b 0 &&& 0x3ffffff))
  let h1 ← fits 32 (h.v1 + ((le32At b 3 >>> 2) &&& 0x3ffffff))
  let h2 ← fits 32 (h.v2 + ((le32At b 6 >>> 4) &&& 0x3ffffff))
  let h3 ← fits 32 (h.v3 + ((le32At b 9 >>> 6) &&& 0x3ffffff))
  let h4 ← fits 32 (h.v4 + ((le32At b 12 >>> 8) ||| hibit))
  -- h *= r
  let d0 ← dot5Checked h0 r0 h1 s4 h2 s3 h3 s2 h4 s1
  let d1 ← dot5Checked h0 r1 h1 r0 h2 s4 h3 s3 h4 s2
  let d2 ← dot5Checked h0 r2 h1 r1 h2 r0 h3 s4 h4 s3
  let d3 ← dot5Checked h0 r3 h1 r2 h2 r1 h3 r0 h4 s4
  let d4 ← dot5Checked h0 r4 h1 r3 h2 r2 h3 r1 h4 r0
  -- (partial) h %= p
  carryChecked d0 d1 d2 d3 d4

/-! ## Lemmas -/

theorem forLoop_inv {σ : Type} (body : Int → σ → Go σ) (N : Nat) (Inv : Nat → σ → Prop)
    (step : ∀ (i : Nat) (s : σ), i < N → Inv i s → ∃ s', body (i : Int) s = .ok s' ∧ Inv (i + 1) s') :
    ∀ (fuel i : Nat) (s : σ), i ≤ N → N - i ≤ fuel → Inv i s →
      ∃ s', forLoop body (N : Int) fuel (i : Int) s = .ok s' ∧ Inv N s' := by
  intro fuel
  induction fuel with
  | zero =>
    intro i s hi hf hinv
    have : i = N := by omega
    subst this
    exact ⟨s, rfl, hinv⟩
  | succ fuel ih =>
    intro i s hi hf hinv
    by_cases hlt : i < N
    · obtain ⟨s1, hb, hinv1⟩ := step i s hlt hinv
      obtain ⟨s2, hl, hinv2⟩ := ih (i + 1) s1 (by omega) (by omega) hinv1
      refine ⟨s2, ?_, hinv2⟩
      have hc : ((i : Int) < (N : Int)) := by omega
      simp only [forLoop, hc, if_true, hb, bind, Except.bind]
      exact hl
    · have : i = N := by omega
      subst this
      refine ⟨s, ?_, hinv⟩
      simp [forLoop]

theorem forRange_inv {σ : Type} (body : Int → σ → Go σ) (L N : Nat) (Inv : Nat → σ → Prop)
    (step : ∀ (i : Nat) (s : σ), i < N → Inv i s → ∃ s', body (i : Int) s = .ok s' ∧ Inv (i + 1) s')
    (s : σ) (hL : L ≤ N) (h0 : Inv L s) :
    ∃ s', forRange body (L : Int) (N : Int) s = .ok s' ∧ Inv N s' := by
  unfold forRange
  exact forLoop_inv body N Inv step _ L s hL (by omega) h0

theorem splice_nil (b : List Byte) (k : Nat) : splice b k [] = b := by
  simp [splice]

theorem splice_set (b : List Byte) (k : Nat) (x : List Byte) (v : Byte) (j : Nat)
    (hj : x.length = j) (h : k + j < b.length) :
    (splice b k x).set (k + j) v = splice b k (x ++ [v]) := by
  subst hj
  unfold splice
  have h1 : (b.take k ++ x).length = k + x.length := by
    simp [List.length_take]; omega
  rw [List.set_append_right _ _ (by omega), h1, Nat.sub_self,
    List.drop_eq_getElem_cons h]
  simp [Nat.add_assoc]

theorem Buffer.store_eq (b : Buffer) (i : Nat) (v : Byte) (h : i < 16) :
    ∃ b', Buffer.store b (i : Int) v = .ok b' ∧ b'.val = b.val.set i v := by
  refine ⟨⟨b.val.set i v, by simp [b.property]⟩, ?_, rfl⟩
  have h1 : (0 : Int) ≤ (i : Int) ∧ (i : Int) < 16 := by omega
  simp [Buffer.store, h1]

theorem index_eq (m : List Byte) (i : Nat) (h : i < m.length) :
    index m (i : Int) = .ok (m[i]) := by
  have h1 : ¬ ((i : Int) < 0) := by omega
  simp [index, h1, List.getElem?_eq_getElem h]

theorem copyIn_eq (buffer : Buffer) (k : Nat) (m : List Byte) (n : Nat)
    (hk : k + n ≤ 16) (hn : n ≤ m.length) :
    ∃ b', copyIn buffer (k : Int) m (n : Int) = .ok b' ∧
      b'.val = splice buffer.val k (m.take n) := by
  unfold copyIn
  have := forRange_inv (fun i b => do
      let v ← index m i
      Buffer.store b ((k : Int) + i) v) 0 n
    (fun i b => b.val = splice buffer.val k (m.take i)) ?_ buffer (Nat.zero_le _) (by simp [splice_nil])
  · simpa using this
  · intro i s hi hs
    have him : i < m.length := by omega
    obtain ⟨b', hb, hv⟩ := Buffer.store_eq s (k + i) m[i] (by omega)
    refine ⟨b', ?_, ?_⟩
    · simp only [index_eq m i him, bind, Except.bind]
      exact_mod_cast hb
    · show b'.val = splice buffer.val k (m.take (i + 1))
      rw [hv, hs]
      have hl : (m.take i).length = i := by simp [List.length_take]; omega
      rw [splice_set buffer.val k (m.take i) m[i] i hl
        (by rw [buffer.property]; omega), List.take_succ, List.getElem?_eq_getElem him]
      rfl

theorem cons_of_le_length (m : List Byte) (n : Nat) (h : n + 1 ≤ m.length) :
    ∃ b rest, m = b :: rest ∧ n ≤ rest.length := by
  cases m with
  | nil => simp at h
  | cons b rest => exact ⟨b, rest, rfl, by simpa using h⟩

theorem exists16 (m : List Byte) (h : 15 + 1 ≤ m.length) :
    ∃ b0 b1 b2 b3 b4 b5 b6 b7 b8 b9 b10 b11 b12 b13 b14 b15 rest, m = b0 :: b1 :: b2 :: b3 :: b4 :: b5 :: b6 :: b7 :: b8 :: b9 :: b10 :: b11 :: b12 :: b13 :: b14 :: b15 :: rest := by
  obtain ⟨b0, m1, rfl, h1⟩ := cons_of_le_length m 15 h
  obtain ⟨b1, m2, rfl, h2⟩ := cons_of_le_length m1 14 h1
  obtain ⟨b2, m3, rfl, h3⟩ := cons_of_le_length m2 13 h2
  obtain ⟨b3, m4, rfl, h4⟩ := cons_of_le_length m3 12 h3
  obtain ⟨b4, m5, rfl, h5⟩ := cons_of_le_length m4 11 h4
  obtain ⟨b5, m6, rfl, h6⟩ := cons_of_le_length m5 10 h5
  obtain ⟨b6, m7, rfl, h7⟩ := cons_of_le_length m6 9 h6
  obtain ⟨b7, m8, rfl, h8⟩ := cons_of_le_length m7 8 h7
  obtain ⟨b8, m9, rfl, h9⟩ := cons_of_le_length m8 7 h8
  obtain ⟨b9, m10, rfl, h10⟩ := cons_of_le_length m9 6 h9
  obtain ⟨b10, m11, rfl, h11⟩ := cons_of_le_length m10 5 h10
  obtain ⟨b11, m12, rfl, h12⟩ := cons_of_le_length m11 4 h11
  obtain ⟨b12, m13, rfl, h13⟩ := cons_of_le_length m12 3 h12
  obtain ⟨b13, m14, rfl, h14⟩ := cons_of_le_length m13 2 h13
  obtain ⟨b14, m15, rfl, h15⟩ := cons_of_le_length m14 1 h14
  obtain ⟨b15, rest, rfl, h16⟩ := cons_of_le_length m15 0 h15
  exact ⟨b0, b1, b2, b3, b4, b5, b6, b7, b8, b9, b10, b11, b12, b13, b14, b15, rest, rfl⟩

theorem sliceFrom_eq (m : List Byte) (lo : Nat) (h : lo ≤ m.length) :
    sliceFrom m (lo : Int) = .ok (m.drop lo) := by
  have h1 : (0 : Int) ≤ (lo : Int) ∧ (lo : Int) ≤ (m.length : Int) := by omega
  simp [sliceFrom, h1]

theorem load32_eq (m : List Byte) (off : Nat) (h : off + 4 ≤ m.length) :
    load32 m (off : Int) = .ok (le32At m off) := by
  obtain ⟨c0, t1, h1, l1⟩ := cons_of_le_length (m.drop off) 3 (by simp only [List.length_drop]; omega)
  obtain ⟨c1, t2, rfl, l2⟩ := cons_of_le_length t1 2 l1
  obtain ⟨c2, t3, rfl, l3⟩ := cons_of_le_length t2 1 l2
  obtain ⟨c3, t4, rfl, _⟩ := cons_of_le_length t3 0 l3
  have g : ∀ j, j < 4 → (m.getD (off + j) 0) = (c0 :: c1 :: c2 :: c3 :: t4).getD j 0 := by
    intro j _
    rw [← h1, List.getD_eq_getElem?_getD, List.getD_eq_getElem?_getD, List.getElem?_drop]
  have g0 := g 0 (by omega)
  have g1 := g 1 (by omega)
  have g2 := g 2 (by omega)
  have g3 := g 3 (by omega)
  simp only [Nat.add_zero] at g0
  simp only [load32, sliceFrom_eq m off (by omega), bind, Except.bind, h1, Uint32, le32At, g0, g1,
    g2, g3]
  rfl

theorem le32At_take (m : List Byte) (off : Nat) (h : off + 4 ≤ 16) :
    le32At (m.take 16) off = le32At m off := by
  have g : ∀ j, j < 16 → (m.take 16).getD j 0 = m.getD j 0 := by
    intro j hj
    rw [List.getD_eq_getElem?_getD, List.getD_eq_getElem?_getD, List.getElem?_take_of_lt hj]
  simp only [le32At, g off (by omega), g (off + 1) (by omega), g (off + 2) (by omega),
    g (off + 3) (by omega)]

theorem blocksLoop_step (r : Limbs5) (hibit : Nat) (fuel : Nat) (h : Limbs5) (m : List Byte)
    (bytes : Int) (hb : bytes ≥ 16) (hm : 16 ≤ m.length) :
    blocksLoop r hibit (fuel + 1) h m bytes =
      blocksLoop r hibit fuel (absorbBlock r hibit h (m.take 16)) (m.drop 16) (bytes - 16) := by
  have hb' : bytes ≥ BlockSize := hb
  have l0 := load32_eq m 0 (by omega)
  have l3 := load32_eq m 3 (by omega)
  have l6 := load32_eq m 6 (by omega)
  have l9 := load32_eq m 9 (by omega)
  have l12 := load32_eq m 12 (by omega)
  have sl := sliceFrom_eq m 16 hm
  simp only [Nat.cast_ofNat, Nat.cast_zero] at l0 l3 l6 l9 l12 sl
  have t0 := le32At_take m 0 (by omega)
  have t3 := le32At_take m 3 (by omega)
  have t6 := le32At_take m 6 (by omega)
  have t9 := le32At_take m 9 (by omega)
  have t12 := le32At_take m 12 (by omega)
  simp only [blocksLoop, l0, l3, l6, l9, l12, bind, Except.bind, BlockSize, sl,
    absorbBlock, blockLimbs, t0, t3, t6, t9, t12]
  rw [if_pos hb]

theorem blocksLoop_eq (r : Limbs5) (hibit : Nat) :
    ∀ (fuel : Nat) (h : Limbs5) (m : List Byte) (bytes : Nat), bytes ≤ fuel →
      16 * (bytes / 16) ≤ m.length →
      blocksLoop r hibit fuel h m (bytes : Int) = .ok (absorb r hibit (bytes / 16) h m) := by
  intro fuel
  induction fuel with
  | zero =>
    intro h m bytes hf _
    have : bytes = 0 := by omega
    subst this
    rfl
  | succ fuel ih =>
    intro h m bytes hf hm
    by_cases hb : 16 ≤ bytes
    · have hq : bytes / 16 = (bytes - 16) / 16 + 1 := by omega
      rw [blocksLoop_step r hibit fuel h m bytes (by omega) (by omega)]
      have hc : ((bytes : Int) - 16) = ((bytes - 16 : Nat) : Int) := by omega
      rw [hc, ih _ _ (bytes - 16) (by omega) (by simp only [List.length_drop]; omega), hq]
      rfl
    · have hq : bytes / 16 = 0 := by omega
      have hb' : ¬ ((bytes : Int) ≥ BlockSize) := by
        show ¬ ((bytes : Int) ≥ 16)
        omega
      simp only [blocksLoop, hb', if_false, hq, absorb]

theorem blocks_eq (st : Poly1305) (m : List Byte) (bytes : Nat)
    (hm : 16 * (bytes / 16) ≤ m.length) :
    st.blocks m (bytes : Int) =
      .ok { st with h := absorb st.r (hibitOf st.final) (bytes / 16) st.h m } := by
  simp only [Poly1305.blocks, Int.toNat_ofNat]
  rw [blocksLoop_eq st.r _ bytes st.h m bytes (Nat.le_refl _) hm]
  rfl

theorem absorb_add (r : Limbs5) (hibit : Nat) (a b : Nat) (h : Limbs5) (m : List Byte) :
    absorb r hibit (a + b) h m = absorb r hibit b (absorb r hibit a h m) (m.drop (16 * a)) := by
  induction a generalizing h m with
  | zero => simp [absorb]
  | succ a ih =>
    rw [Nat.add_right_comm, absorb, ih, absorb, List.drop_drop]
    congr 2
    omega

theorem absorb_append (r : Limbs5) (hibit : Nat) (n : Nat) (h : Limbs5) (m x : List Byte)
    (hm : 16 * n ≤ m.length) :
    absorb r hibit n h (m ++ x) = absorb r hibit n h m := by
  induction n generalizing h m with
  | zero => rfl
  | succ n ih =>
    rw [absorb, absorb, List.take_append_of_le_length (by omega),
      List.drop_append_of_le_length (by omega)]
    exact ih _ _ (by simp only [List.length_drop]; omega)

theorem splice_take_zero (b x : List Byte) : (splice b 0 x).take x.length = x := by
  simp [splice]

theorem writeTail_spec (st : Poly1305) (p m : List Byte) (hl : st.leftover = 0) :
    ∃ st', st.writeTail p m (m.length : Int) = .ok (st', (p.length : Int), none) ∧
      st'.r = st.r ∧ st'.pad = st.pad ∧ st'.final = st.final ∧
      st'.h = absorb st.r (hibitOf st.final) (m.length / 16) st.h m ∧
      st'.leftover = ((m.length % 16 : Nat) : Int) ∧
      st'.buffer.val.take (m.length % 16) = m.drop (16 * (m.length / 16)) := by
  generalize hq : m.length / 16 = q
  generalize ht : m.length % 16 = t
  have hlen : m.length = 16 * q + t := by omega
  have htl : t < 16 := by omega
  -- the state and slice after "process full blocks"
  have hmid : ∃ st1, (if (m.length : Int) ≥ BlockSize then do
        let st ← st.blocks m ((m.length : Int) - (m.length : Int) % 16)
        let m' ← sliceFrom m ((m.length : Int) - (m.length : Int) % 16)
        pure (st, m', (m.length : Int) - ((m.length : Int) - (m.length : Int) % 16))
      else pure (st, m, (m.length : Int)) : Go (Poly1305 × List Byte × Int)) =
      .ok (st1, m.drop (16 * q), (t : Int)) ∧
      st1 = { st with h := absorb st.r (hibitOf st.final) q st.h m } := by
    refine ⟨_, ?_, rfl⟩
    by_cases hb : 16 ≤ m.length
    · have hc : (m.length : Int) ≥ BlockSize := by
        show (m.length : Int) ≥ 16
        omega
      have hw : (m.length : Int) - (m.length : Int) % 16 = ((16 * q : Nat) : Int) := by omega
      rw [if_pos hc, hw, blocks_eq st m (16 * q) (by omega), sliceFrom_eq m (16 * q) (by omega)]
      have hq' : 16 * q / 16 = q := by omega
      have ht' : (m.length : Int) - ((16 * q : Nat) : Int) = (t : Int) := by omega
      simp only [bind, Except.bind, pure, Except.pure, hq', ht']
    · have hc : ¬ ((m.length : Int) ≥ BlockSize) := by
        show ¬ ((m.length : Int) ≥ 16)
        omega
      have hq0 : q = 0 := by omega
      have ht' : m.length = t := by omega
      rw [if_neg hc]
      subst hq0
      simp only [pure, Except.pure, absorb, Nat.mul_zero, List.drop_zero, ht']
  obtain ⟨st1, hmid, hst1⟩ := hmid
  have hl1 : st1.leftover = 0 := by rw [hst1]; exact hl
  simp only [bind, Except.bind, pure, Except.pure] at hmid
  by_cases hz : 0 < t
  · obtain ⟨b', hb', hv'⟩ := copyIn_eq st1.buffer 0 (m.drop (16 * q)) t (by omega)
      (by simp only [List.length_drop]; omega)
    have hb2 : copyIn st1.buffer st1.leftover (m.drop (16 * q)) (t : Int) = .ok b' := by
      rw [hl1]; exact_mod_cast hb'
    have hl2 : (m.drop (16 * q)).length = t := by simp only [List.length_drop]; omega
    have e1 : (m.drop (16 * q)).take t = m.drop (16 * q) := List.take_of_length_le (by omega)
    have e2 := splice_take_zero st1.buffer.val (m.drop (16 * q))
    rw [hl2] at e2
    rw [e1] at hv'
    refine ⟨{ st1 with buffer := b', leftover := st1.leftover + t }, ?_, ?_⟩
    · have hc : (t : Int) > 0 := by omega
      simp only [Poly1305.writeTail, bind, Except.bind, pure, Except.pure, hmid, hc, if_true, hb2]
    · refine ⟨?_, ?_, ?_, ?_, ?_, ?_⟩
      · show st1.r = st.r
        rw [hst1]
      · show st1.pad = st.pad
        rw [hst1]
      · show st1.final = st.final
        rw [hst1]
      · show st1.h = _
        rw [hst1]
      · show st1.leftover + (t : Int) = (t : Int)
        omega
      · show b'.val.take t = _
        rw [hv']
        exact e2
  · have ht0 : t = 0 := by omega
    subst ht0
    refine ⟨st1, ?_, ?_⟩
    · have hc : ¬ (((0 : Nat) : Int) > 0) := by omega
      simp only [Poly1305.writeTail, bind, Except.bind, pure, Except.pure, hmid, hc, if_false]
    · refine ⟨?_, ?_, ?_, ?_, ?_, ?_⟩
      · rw [hst1]
      · rw [hst1]
      · rw [hst1]
      · rw [hst1]
      · rw [hl1]; rfl
      · rw [List.take_zero, List.drop_of_length_le (by omega)]

theorem splice_full (b x : List Byte) (k : Nat) (hk : k + x.length = b.length) :
    splice b k x = b.take k ++ x := by
  simp [splice, hk]

theorem splice_take (b x : List Byte) (k : Nat) (hk : k ≤ b.length) :
    (splice b k x).take (k + x.length) = b.take k ++ x := by
  unfold splice
  rw [List.take_append_of_le_length (by simp [List.length_take]; omega)]
  apply List.take_of_length_le
  simp [List.length_take]

theorem Write_spec (st : Poly1305) (p : List Byte) (h0 : 0 ≤ st.leftover)
    (h1 : st.leftover < 16) :
    ∃ st', st.Write p = .ok (st', (p.length : Int), none) ∧
      st'.r = st.r ∧ st'.pad = st.pad ∧ st'.final = st.final ∧
      st'.h = absorb st.r (hibitOf st.final)
        ((st.buffer.val.take st.leftover.toNat ++ p).length / 16) st.h
        (st.buffer.val.take st.leftover.toNat ++ p) ∧
      st'.leftover = (((st.buffer.val.take st.leftover.toNat ++ p).length % 16 : Nat) : Int) ∧
      st'.buffer.val.take ((st.buffer.val.take st.leftover.toNat ++ p).length % 16) =
        (st.buffer.val.take st.leftover.toNat ++ p).drop
          (16 * ((st.buffer.val.take st.leftover.toNat ++ p).length / 16)) := by
  obtain ⟨k, hk⟩ : ∃ k : Nat, st.leftover = (k : Int) := ⟨st.leftover.toNat, by omega⟩
  have hk16 : k < 16 := by omega
  have hbl := st.buffer.property
  rw [hk, Int.toNat_ofNat]
  have hpl : (st.buffer.val.take k).length = k := by
    rw [List.length_take, hbl]; omega
  by_cases hz : k = 0
  · subst hz
    have hc : ¬ (st.leftover > 0) := by omega
    obtain ⟨st', hw, e1, e2, e3, e4, e5, e6⟩ := writeTail_spec st p p (by omega)
    refine ⟨st', ?_, e1, e2, e3, ?_, ?_, ?_⟩
    · simp only [Poly1305.Write, hc, if_false]
      exact hw
    · simpa using e4
    · simpa using e5
    · simpa using e6
  · have hc : st.leftover > 0 := by omega
    by_cases hs : k + p.length < 16
    · -- the input does not complete the buffered block
      obtain ⟨b', hb', hv'⟩ := copyIn_eq st.buffer k p p.length (by omega) (Nat.le_refl _)
      have hw : (if BlockSize - st.leftover > (p.length : Int) then (p.length : Int)
          else BlockSize - st.leftover) = (p.length : Int) := by
        have : BlockSize - st.leftover > (p.length : Int) := by
          show (16 : Int) - st.leftover > (p.length : Int)
          omega
        rw [if_pos this]
      have hlt : st.leftover + (p.length : Int) < BlockSize := by
        show st.leftover + (p.length : Int) < 16
        omega
      rw [← hk] at hb'
      refine ⟨{ st with buffer := b', leftover := st.leftover + (p.length : Int) }, ?_, rfl, rfl,
        rfl, ?_, ?_, ?_⟩
      · simp only [Poly1305.Write, hc, if_true, hw, bind, Except.bind, hb',
          sliceFrom_eq p p.length (Nat.le_refl _), hlt, pure, Except.pure]
      · have : (st.buffer.val.take k ++ p).length / 16 = 0 := by
          rw [List.length_append, hpl]; omega
        rw [this]
        rfl
      · show st.leftover + (p.length : Int) = _
        rw [List.length_append, hpl]
        omega
      · show b'.val.take _ = _
        have e1 : (st.buffer.val.take k ++ p).length % 16 = k + p.length := by
          rw [List.length_append, hpl]; omega
        have e2 : (st.buffer.val.take k ++ p).length / 16 = 0 := by
          rw [List.length_append, hpl]; omega
        rw [e1, e2, hv', List.take_of_length_le (Nat.le_refl _)]
        exact splice_take _ _ _ (by omega)
    · -- the input completes the buffered block
      obtain ⟨b', hb', hv'⟩ := copyIn_eq st.buffer k p (16 - k) (by omega) (by omega)
      have hw : (if BlockSize - st.leftover > (p.length : Int) then (p.length : Int)
          else BlockSize - st.leftover) = ((16 - k : Nat) : Int) := by
        have : ¬ (BlockSize - st.leftover > (p.length : Int)) := by
          show ¬ ((16 : Int) - st.leftover > (p.length : Int))
          omega
        rw [if_neg this]
        show (16 : Int) - st.leftover = _
        omega
      have hlt : ¬ (st.leftover + ((16 - k : Nat) : Int) < BlockSize) := by
        show ¬ (st.leftover + ((16 - k : Nat) : Int) < 16)
        omega
      rw [← hk] at hb'
      have hfull : b'.val = st.buffer.val.take k ++ p.take (16 - k) := by
        rw [hv']
        apply splice_full
        rw [List.length_take, hbl]
        omega
      have hb16 : b'.val.length = 16 := b'.property
      have hblk := blocks_eq { st with buffer := b', leftover := st.leftover + ((16 - k : Nat) : Int) }
        b'.val 16 (by rw [hb16])
      obtain ⟨st', hwt, e1, e2, e3, e4, e5, e6⟩ := writeTail_spec
        { st with buffer := b', leftover := 0,
                  h := absorb st.r (hibitOf st.final) (16 / 16) st.h b'.val } p (p.drop (16 - k)) rfl
      have hlen : ((p.length : Int) - ((16 - k : Nat) : Int)) = ((p.drop (16 - k)).length : Int) := by
        rw [List.length_drop]; omega
      have hD : st.buffer.val.take k ++ p = b'.val ++ p.drop (16 - k) := by
        rw [hfull, List.append_assoc, List.take_append_drop]
      have hlD : (b'.val ++ p.drop (16 - k)).length = 16 + (p.drop (16 - k)).length := by
        rw [List.length_append, hb16]
      have hq : (b'.val ++ p.drop (16 - k)).length / 16 = 1 + (p.drop (16 - k)).length / 16 := by
        omega
      have hr : (b'.val ++ p.drop (16 - k)).length % 16 = (p.drop (16 - k)).length % 16 := by
        omega
      have hdrop : (b'.val ++ p.drop (16 - k)).drop 16 = p.drop (16 - k) :=
        List.drop_left' hb16
      rw [hD, hq, hr]
      refine ⟨st', ?_, e1, e2, e3, ?_, ?_, ?_⟩
      · simp only [Poly1305.Write, hc, if_true, hw, bind, Except.bind, hb',
          sliceFrom_eq p (16 - k) (by omega), hlt, if_false, pure, Except.pure]
        have hblk' : Poly1305.blocks
            { st with buffer := b', leftover := st.leftover + ((16 - k : Nat) : Int) } b'.val
            BlockSize = _ := hblk
        simp only [hblk', hlen]
        exact hwt
      · rw [e4, absorb_add, absorb_append _ _ 1 _ _ _ (by omega), Nat.mul_one, hdrop]
      · exact e5
      · rw [e6, Nat.mul_add, ← List.drop_drop, Nat.mul_one, hdrop]

theorem zeroFill_eq (buffer : Buffer) (k : Nat) (hk : k < 16) (b1 : Buffer)
    (hb1 : b1.val = splice buffer.val k [1]) :
    ∃ b', forRange (fun i b => Buffer.store b i 0) ((k : Int) + 1) BlockSize b1 = .ok b' ∧
      b'.val = finalBlock (buffer.val.take k) := by
  have hbl := buffer.property
  have := forRange_inv (fun i b => Buffer.store b i 0) (k + 1) 16
    (fun i b => k + 1 ≤ i ∧ b.val = splice buffer.val k ([1] ++ List.replicate (i - (k + 1)) 0))
    ?_ b1 (by omega) ⟨Nat.le_refl _, by simpa using hb1⟩
  · obtain ⟨b', h1, _, h2⟩ := this
    refine ⟨b', by exact_mod_cast h1, ?_⟩
    rw [h2, splice_full _ _ _ (by simp [hbl]; omega)]
    have : (buffer.val.take k).length = k := by rw [List.length_take, hbl]; omega
    simp only [finalBlock, this, List.append_assoc]
    congr 3
    omega
  · intro i s hi ⟨hki, hs⟩
    obtain ⟨b', hb, hv⟩ := Buffer.store_eq s i 0 hi
    refine ⟨b', hb, by omega, ?_⟩
    rw [hv, hs]
    have hl : ([1] ++ List.replicate (i - (k + 1)) (0 : Byte)).length = i - k := by
      simp; omega
    have hi' : k + (i - k) = i := by omega
    have hset := splice_set buffer.val k _ 0 (i - k) hl (by rw [hbl]; omega)
    rw [hi'] at hset
    rw [hset]
    have : i + 1 - (k + 1) = (i - (k + 1)) + 1 := by omega
    rw [this, List.replicate_succ', List.append_assoc]

theorem finish_spec (st : Poly1305) (h0 : 0 ≤ st.leftover) (h1 : st.leftover < 16) :
    ∃ st', st.finish = .ok (st', tagOfLimbs
        (finishLimbs st.r st.h (st.buffer.val.take st.leftover.toNat)) st.pad) ∧
      st'.h = ⟨0, 0, 0, 0, 0⟩ ∧ st'.r = ⟨0, 0, 0, 0, 0⟩ ∧ st'.pad = ⟨0, 0, 0, 0⟩ := by
  obtain ⟨k, hk⟩ : ∃ k : Nat, st.leftover = (k : Int) := ⟨st.leftover.toNat, by omega⟩
  have hk16 : k < 16 := by omega
  have hbl := st.buffer.property
  have hpl : (st.buffer.val.take k).length = k := by
    rw [List.length_take, hbl]; omega
  rw [hk, Int.toNat_ofNat]
  by_cases hz : k = 0
  · subst hz
    have hc : ¬ (st.leftover > 0) := by omega
    refine ⟨st.Clear, ?_, rfl, rfl, rfl⟩
    simp only [Poly1305.finish, hc, if_false, bind, Except.bind, pure, Except.pure, tagOfLimbs,
      finishLimbs, hpl, if_true]
  · have hc : st.leftover > 0 := by omega
    obtain ⟨b1, hb1, hv1⟩ := Buffer.store_eq st.buffer k 1 hk16
    have hs1 : b1.val = splice st.buffer.val k [1] := by
      rw [hv1]
      have := splice_set st.buffer.val k [] 1 0 rfl (by rw [hbl]; omega)
      rw [splice_nil] at this
      simpa using this
    obtain ⟨b2, hb2, hv2⟩ := zeroFill_eq st.buffer k hk16 b1 hs1
    have hb16 : b2.val.length = 16 := b2.property
    have hblk := blocks_eq { st with buffer := b2, final := true } b2.val 16 (by rw [hb16])
    rw [← hk] at hb1 hb2
    refine ⟨Poly1305.Clear
      { st with buffer := b2, final := true, h := absorb st.r (hibitOf true) (16 / 16) st.h b2.val },
      ?_, ?_⟩
    · simp only [Poly1305.finish, hc, if_true, bind, Except.bind, pure, Except.pure, hb1, hb2]
      have hblk' : Poly1305.blocks { st with buffer := b2, final := true } b2.val BlockSize = _ :=
        hblk
      simp only [hblk']
      have e : absorb st.r (hibitOf true) (16 / 16) st.h b2.val
          = finishLimbs st.r st.h (st.buffer.val.take k) := by
        have hne : ¬ ((st.buffer.val.take k).length = 0) := by rw [hpl]; exact hz
        simp only [finishLimbs, hne, if_false, ← hv2]
        show absorbBlock st.r 0 st.h (b2.val.take 16) = _
        rw [List.take_of_length_le (by omega)]
      simp only [e, tagOfLimbs]
    · exact ⟨rfl, rfl, rfl⟩

theorem Init_spec (st : Poly1305) (key : List Byte) (hk : key.length = 32) :
    st.Init key = .ok { st with r := rOf key, h := ⟨0, 0, 0, 0, 0⟩, pad := padOf key,
                                leftover := 0, final := false } := by
  have hc : ¬ ((key.length : Int) ≠ KeySize) := by
    show ¬ ((key.length : Int) ≠ 32)
    omega
  have l0 := load32_eq key 0 (by omega)
  have l3 := load32_eq key 3 (by omega)
  have l6 := load32_eq key 6 (by omega)
  have l9 := load32_eq key 9 (by omega)
  have l12 := load32_eq key 12 (by omega)
  have l16 := load32_eq key 16 (by omega)
  have l20 := load32_eq key 20 (by omega)
  have l24 := load32_eq key 24 (by omega)
  have l28 := load32_eq key 28 (by omega)
  simp only [Nat.cast_ofNat, Nat.cast_zero] at l0 l3 l6 l9 l12 l16 l20 l24 l28
  simp only [Poly1305.Init, hc, if_false, bind, Except.bind, pure, Except.pure, l0, l3, l6, l9, l12,
    l16, l20, l24, l28, rOf, padOf]

theorem Absorbed_Init (st : Poly1305) (key : List Byte) (hk : key.length = 32) :
    ∃ st', st.Init key = .ok st' ∧ Absorbed key [] st' := by
  refine ⟨_, Init_spec st key hk, rfl, rfl, rfl, rfl, rfl, rfl⟩

theorem Absorbed_Write (key M p : List Byte) (st : Poly1305) (ha : Absorbed key M st) :
    ∃ st', st.Write p = .ok (st', (p.length : Int), none) ∧ Absorbed key (M ++ p) st' := by
  obtain ⟨a1, a2, a3, a4, a5, a6⟩ := ha
  obtain ⟨st', hw, e1, e2, e3, e4, e5, e6⟩ := Write_spec st p (by omega) (by omega)
  have hk : st.leftover.toNat = M.length % 16 := by omega
  rw [hk, a6] at e4 e5 e6
  have hl : (M.drop (16 * (M.length / 16)) ++ p).length = M.length % 16 + p.length := by
    rw [List.length_append, List.length_drop]; omega
  have hq : (M ++ p).length / 16 = M.length / 16 + (M.drop (16 * (M.length / 16)) ++ p).length / 16 := by
    rw [hl, List.length_append]; omega
  have hr : (M ++ p).length % 16 = (M.drop (16 * (M.length / 16)) ++ p).length % 16 := by
    rw [hl, List.length_append]; omega
  have hd : (M ++ p).drop (16 * (M.length / 16)) = M.drop (16 * (M.length / 16)) ++ p :=
    List.drop_append_of_le_length (by omega)
  refine ⟨st', hw, by rw [e1, a1], by rw [e2, a2], by rw [e3, a3], ?_, ?_, ?_⟩
  · rw [e4, a1, a3, a4, hq, absorb_add, hd,
      absorb_append (rOf key) (1 <<< 24) (M.length / 16) _ M p (by omega)]
    rfl
  · rw [e5, hr]
  · rw [hr, e6, hq, Nat.mul_add, ← List.drop_drop, hd]

theorem Absorbed_finish (key M : List Byte) (st : Poly1305) (ha : Absorbed key M st) :
    ∃ st', st.finish = .ok (st', streamTag key M) := by
  obtain ⟨a1, a2, a3, a4, a5, a6⟩ := ha
  obtain ⟨st', hf, _⟩ := finish_spec st (by omega) (by omega)
  have hk : st.leftover.toNat = M.length % 16 := by omega
  rw [hk, a6, a1, a2, a4] at hf
  exact ⟨st', hf⟩

theorem Sum_eq_streamTag (m key : List Byte) (hk : key.length = 32) :
    Sum m key = .ok (streamTag key m) := by
  obtain ⟨st1, h1, a1⟩ := Absorbed_Init Poly1305.zero key hk
  obtain ⟨st2, h2, a2⟩ := Absorbed_Write key [] m st1 a1
  obtain ⟨st3, h3⟩ := Absorbed_finish key ([] ++ m) st2 a2
  simp only [Sum, h1, h2, h3, bind, Except.bind, pure, Except.pure, List.nil_append]

theorem land_mask26 (x : Nat) : x &&& 0x3ffffff = x % 2 ^ 26 :=
  Nat.and_pow_two_sub_one_eq_mod x 26

theorem land_mask32 (x : Nat) : x &&& 0xffffffff = x % 2 ^ 32 :=
  Nat.and_pow_two_sub_one_eq_mod x 32

theorem u32_mod26 (d : Nat) : u32 d % 2 ^ 26 = d % 2 ^ 26 := by
  rw [u32]; omega

theorem carry5_spec (d0 d1 d2 d3 d4 : Nat)
    (h0 : d0 ≤ 21 * ((2 ^ 27 + 64) * 2 ^ 26)) (h1 : d1 ≤ 21 * ((2 ^ 27 + 64) * 2 ^ 26))
    (h2 : d2 ≤ 21 * ((2 ^ 27 + 64) * 2 ^ 26)) (h3 : d3 ≤ 21 * ((2 ^ 27 + 64) * 2 ^ 26))
    (h4 : d4 ≤ 5 * ((2 ^ 27 + 64) * 2 ^ 26)) :
    (carry5 d0 d1 d2 d3 d4).v0 < 2 ^ 26 ∧ (carry5 d0 d1 d2 d3 d4).v1 < 2 ^ 26 + 64 ∧
    (carry5 d0 d1 d2 d3 d4).v2 < 2 ^ 26 ∧ (carry5 d0 d1 d2 d3 d4).v3 < 2 ^ 26 ∧
    (carry5 d0 d1 d2 d3 d4).v4 < 2 ^ 26 ∧
    ∃ c, (carry5 d0 d1 d2 d3 d4).val + c * P
      = d0 + d1 * 2 ^ 26 + d2 * 2 ^ 52 + d3 * 2 ^ 78 + d4 * 2 ^ 104 := by
  have c0 : u32 (d0 / 2 ^ 26) = d0 / 2 ^ 26 := by
    rw [u32]; omega
  have e1 : add64 d1 (d0 / 2 ^ 26) = d1 + d0 / 2 ^ 26 := by
    rw [add64]; omega
  have c1 : u32 ((d1 + d0 / 2 ^ 26) / 2 ^ 26) = (d1 + d0 / 2 ^ 26) / 2 ^ 26 := by
    rw [u32]; omega
  generalize hx1 : d1 + d0 / 2 ^ 26 = x1 at *
  have e2 : add64 d2 (x1 / 2 ^ 26) = d2 + x1 / 2 ^ 26 := by
    rw [add64]; omega
  have c2 : u32 ((d2 + x1 / 2 ^ 26) / 2 ^ 26) = (d2 + x1 / 2 ^ 26) / 2 ^ 26 := by
    rw [u32]; omega
  generalize hx2 : d2 + x1 / 2 ^ 26 = x2 at *
  have e3 : add64 d3 (x2 / 2 ^ 26) = d3 + x2 / 2 ^ 26 := by
    rw [add64]; omega
  have c3 : u32 ((d3 + x2 / 2 ^ 26) / 2 ^ 26) = (d3 + x2 / 2 ^ 26) / 2 ^ 26 := by
    rw [u32]; omega
  generalize hx3 : d3 + x2 / 2 ^ 26 = x3 at *
  have e4 : add64 d4 (x3 / 2 ^ 26) = d4 + x3 / 2 ^ 26 := by
    rw [add64]; omega
  have c4 : u32 ((d4 + x3 / 2 ^ 26) / 2 ^ 26) = (d4 + x3 / 2 ^ 26) / 2 ^ 26 := by
    rw [u32]; omega
  generalize hx4 : d4 + x3 / 2 ^ 26 = x4 at *
  have m5 : mul32 (x4 / 2 ^ 26) 5 = x4 / 2 ^ 26 * 5 := by
    rw [mul32]; omega
  have a0 : add32 (d0 % 2 ^ 26) (x4 / 2 ^ 26 * 5) = d0 % 2 ^ 26 + x4 / 2 ^ 26 * 5 := by
    rw [add32]; omega
  generalize hy : d0 % 2 ^ 26 + x4 / 2 ^ 26 * 5 = y at *
  have a1 : add32 (x1 % 2 ^ 26) (y / 2 ^ 26) = x1 % 2 ^ 26 + y / 2 ^ 26 := by
    rw [add32]; omega
  have hc : carry5 d0 d1 d2 d3 d4 =
      ⟨y % 2 ^ 26, x1 % 2 ^ 26 + y / 2 ^ 26, x2 % 2 ^ 26, x3 % 2 ^ 26, x4 % 2 ^ 26⟩ := by
    simp only [carry5, land_mask26, Nat.shiftRight_eq_div_pow, u32_mod26, c0, e1, c1, e2, c2,
      e3, c3, e4, c4, m5, a0, a1]
  rw [hc]
  refine ⟨?_, ?_, ?_, ?_, ?_, x4 / 2 ^ 26, ?_⟩
  · show y % 2 ^ 26 < 2 ^ 26
    omega
  · show x1 % 2 ^ 26 + y / 2 ^ 26 < 2 ^ 26 + 64
    omega
  · show x2 % 2 ^ 26 < 2 ^ 26
    omega
  · show x3 % 2 ^ 26 < 2 ^ 26
    omega
  · show x4 % 2 ^ 26 < 2 ^ 26
    omega
  · simp only [Limbs5.val, P]
    omega

theorem sum5_exact (a1 b1 a2 b2 a3 b3 a4 b4 a5 b5 : Nat)
    (h1 : a1 * b1 < 2 ^ 61) (h2 : a2 * b2 < 2 ^ 61) (h3 : a3 * b3 < 2 ^ 61)
    (h4 : a4 * b4 < 2 ^ 61) (h5 : a5 * b5 < 2 ^ 61) :
    add64 (add64 (add64 (add64 (mul64 a1 b1) (mul64 a2 b2)) (mul64 a3 b3)) (mul64 a4 b4))
      (mul64 a5 b5) = a1 * b1 + a2 * b2 + a3 * b3 + a4 * b4 + a5 * b5 := by
  simp only [add64, mul64]
  generalize a1 * b1 = p1 at *
  generalize a2 * b2 = p2 at *
  generalize a3 * b3 = p3 at *
  generalize a4 * b4 = p4 at *
  generalize a5 * b5 = p5 at *
  omega

theorem mulReduce_eq_carry5 (r h : Limbs5) :
    mulReduce r h = carry5
      (add64 (add64 (add64 (add64 (mul64 h.v0 r.v0) (mul64 h.v1 (mul32 r.v4 5))) (mul64 h.v2 (mul32 r.v3 5))) (mul64 h.v3 (mul32 r.v2 5))) (mul64 h.v4 (mul32 r.v1 5)))
      (add64 (add64 (add64 (add64 (mul64 h.v0 r.v1) (mul64 h.v1 r.v0)) (mul64 h.v2 (mul32 r.v4 5))) (mul64 h.v3 (mul32 r.v3 5))) (mul64 h.v4 (mul32 r.v2 5)))
      (add64 (add64 (add64 (add64 (mul64 h.v0 r.v2) (mul64 h.v1 r.v1)) (mul64 h.v2 r.v0)) (mul64 h.v3 (mul32 r.v4 5))) (mul64 h.v4 (mul32 r.v3 5)))
      (add64 (add64 (add64 (add64 (mul64 h.v0 r.v3) (mul64 h.v1 r.v2)) (mul64 h.v2 r.v1)) (mul64 h.v3 r.v0)) (mul64 h.v4 (mul32 r.v4 5)))
      (add64 (add64 (add64 (add64 (mul64 h.v0 r.v4) (mul64 h.v1 r.v3)) (mul64 h.v2 r.v2)) (mul64 h.v3 r.v1)) (mul64 h.v4 r.v0)) := rfl

theorem mulReduce_spec (r h : Limbs5)
    (hr0 : r.v0 < 2 ^ 26) (hr1 : r.v1 < 2 ^ 26) (hr2 : r.v2 < 2 ^ 26)
    (hr3 : r.v3 < 2 ^ 26) (hr4 : r.v4 < 2 ^ 26)
    (hh0 : h.v0 < 2 ^ 27 + 64) (hh1 : h.v1 < 2 ^ 27 + 64) (hh2 : h.v2 < 2 ^ 27 + 64)
    (hh3 : h.v3 < 2 ^ 27 + 64) (hh4 : h.v4 < 2 ^ 27 + 64) :
    (mulReduce r h).v0 < 2 ^ 26 ∧ (mulReduce r h).v1 < 2 ^ 26 + 64 ∧
    (mulReduce r h).v2 < 2 ^ 26 ∧ (mulReduce r h).v3 < 2 ^ 26 ∧
    (mulReduce r h).v4 < 2 ^ 26 ∧
    (mulReduce r h).val % P = (h.val * r.val) % P := by
  obtain ⟨r0, r1, r2, r3, r4⟩ := r
  obtain ⟨h0, h1, h2, h3, h4⟩ := h
  simp only at hr0 hr1 hr2 hr3 hr4 hh0 hh1 hh2 hh3 hh4
  have b : ∀ a b : Nat, a < 2 ^ 27 + 64 → b < 2 ^ 26 → a * b ≤ (2 ^ 27 + 64) * 2 ^ 26 :=
    fun a b ha hb => Nat.mul_le_mul (Nat.le_of_lt ha) (Nat.le_of_lt hb)
  have b5 : ∀ a b : Nat, a < 2 ^ 27 + 64 → b < 2 ^ 26 →
      a * (b * 5) ≤ (2 ^ 27 + 64) * (2 ^ 26 * 5) :=
    fun a b ha hb => Nat.mul_le_mul (Nat.le_of_lt ha) (Nat.mul_le_mul (Nat.le_of_lt hb) (Nat.le_refl 5))
  have b00 := b h0 r0 hh0 hr0
  have b01 := b h0 r1 hh0 hr1
  have b02 := b h0 r2 hh0 hr2
  have b03 := b h0 r3 hh0 hr3
  have b04 := b h0 r4 hh0 hr4
  have b10 := b h1 r0 hh1 hr0
  have b11 := b h1 r1 hh1 hr1
  have b12 := b h1 r2 hh1 hr2
  have b13 := b h1 r3 hh1 hr3
  have b14 := b5 h1 r4 hh1 hr4
  have b20 := b h2 r0 hh2 hr0
  have b21 := b h2 r1 hh2 hr1
  have b22 := b h2 r2 hh2 hr2
  have b23 := b5 h2 r3 hh2 hr3
  have b24 := b5 h2 r4 hh2 hr4
  have b30 := b h3 r0 hh3 hr0
  have b31 := b h3 r1 hh3 hr1
  have b32 := b5 h3 r2 hh3 hr2
  have b33 := b5 h3 r3 hh3 hr3
  have b34 := b5 h3 r4 hh3 hr4
  have b40 := b h4 r0 hh4 hr0
  have b41 := b5 h4 r1 hh4 hr1
  have b42 := b5 h4 r2 hh4 hr2
  have b43 := b5 h4 r3 hh4 hr3
  have b44 := b5 h4 r4 hh4 hr4
  have s1 : mul32 r1 5 = r1 * 5 := Nat.mod_eq_of_lt (by omega)
  have s2 : mul32 r2 5 = r2 * 5 := Nat.mod_eq_of_lt (by omega)
  have s3 : mul32 r3 5 = r3 * 5 := Nat.mod_eq_of_lt (by omega)
  have s4 : mul32 r4 5 = r4 * 5 := Nat.mod_eq_of_lt (by omega)
  have key : (Limbs5.mk h0 h1 h2 h3 h4).val * (Limbs5.mk r0 r1 r2 r3 r4).val =
      (h0 * r0 + h1 * (r4 * 5) + h2 * (r3 * 5) + h3 * (r2 * 5) + h4 * (r1 * 5))
      + (h0 * r1 + h1 * r0 + h2 * (r4 * 5) + h3 * (r3 * 5) + h4 * (r2 * 5)) * 2 ^ 26
      + (h0 * r2 + h1 * r1 + h2 * r0 + h3 * (r4 * 5) + h4 * (r3 * 5)) * 2 ^ 52
      + (h0 * r3 + h1 * r2 + h2 * r1 + h3 * r0 + h4 * (r4 * 5)) * 2 ^ 78
      + (h0 * r4 + h1 * r3 + h2 * r2 + h3 * r1 + h4 * r0) * 2 ^ 104
      + ((h1 * r4 + h2 * r3 + h3 * r2 + h4 * r1)
        + (h2 * r4 + h3 * r3 + h4 * r2) * 2 ^ 26
        + (h3 * r4 + h4 * r3) * 2 ^ 52
        + (h4 * r4) * 2 ^ 78) * P := by
    simp only [Limbs5.val, P]
    norm_num
    ring
  rw [mulReduce_eq_carry5]
  simp only [s1, s2, s3, s4]
  rw [sum5_exact _ _ _ _ _ _ _ _ _ _ (by omega) (by omega) (by omega) (by omega) (by omega),
    sum5_exact _ _ _ _ _ _ _ _ _ _ (by omega) (by omega) (by omega) (by omega) (by omega),
    sum5_exact _ _ _ _ _ _ _ _ _ _ (by omega) (by omega) (by omega) (by omega) (by omega),
    sum5_exact _ _ _ _ _ _ _ _ _ _ (by omega) (by omega) (by omega) (by omega) (by omega),
    sum5_exact _ _ _ _ _ _ _ _ _ _ (by omega) (by omega) (by omega) (by omega) (by omega)]
  obtain ⟨c0, c1, c2, c3, c4, c, hc⟩ := carry5_spec
    (h0 * r0 + h1 * (r4 * 5) + h2 * (r3 * 5) + h3 * (r2 * 5) + h4 * (r1 * 5))
    (h0 * r1 + h1 * r0 + h2 * (r4 * 5) + h3 * (r3 * 5) + h4 * (r2 * 5))
    (h0 * r2 + h1 * r1 + h2 * r0 + h3 * (r4 * 5) + h4 * (r3 * 5))
    (h0 * r3 + h1 * r2 + h2 * r1 + h3 * r0 + h4 * (r4 * 5))
    (h0 * r4 + h1 * r3 + h2 * r2 + h3 * r1 + h4 * r0)
    (by omega) (by omega) (by omega) (by omega) (by omega)
  refine ⟨c0, c1, c2, c3, c4, ?_⟩
  have fold : ∀ A c X : Nat, (A + c * P + X * P) % P = A % P := by
    intro A c X
    rw [Nat.add_assoc, ← Nat.add_mul, Nat.add_mul_mod_self_right]
  rw [key, ← hc]
  exact (fold _ _ _).symm

theorem fullCarry_spec (h : Limbs5) (hc : h.Carried) :
    (fullCarry h).Reduced ∧ (fullCarry h).val % P = h.val % P := by
  obtain ⟨h0, h1, h2, h3, h4⟩ := h
  obtain ⟨b0, b1, b2, b3, b4⟩ := hc
  simp only at b0 b1 b2 b3 b4
  have e2 : add32 h2 (h1 / 2 ^ 26) = h2 + h1 / 2 ^ 26 := by rw [add32]; omega
  generalize hx2 : h2 + h1 / 2 ^ 26 = x2 at *
  have e3 : add32 h3 (x2 / 2 ^ 26) = h3 + x2 / 2 ^ 26 := by rw [add32]; omega
  generalize hx3 : h3 + x2 / 2 ^ 26 = x3 at *
  have e4 : add32 h4 (x3 / 2 ^ 26) = h4 + x3 / 2 ^ 26 := by rw [add32]; omega
  generalize hx4 : h4 + x3 / 2 ^ 26 = x4 at *
  have m5 : mul32 (x4 / 2 ^ 26) 5 = x4 / 2 ^ 26 * 5 := by rw [mul32]; omega
  have e0 : add32 h0 (x4 / 2 ^ 26 * 5) = h0 + x4 / 2 ^ 26 * 5 := by rw [add32]; omega
  generalize hy : h0 + x4 / 2 ^ 26 * 5 = y at *
  have e1 : add32 (h1 % 2 ^ 26) (y / 2 ^ 26) = h1 % 2 ^ 26 + y / 2 ^ 26 := by
    rw [add32]; omega
  have hf : fullCarry ⟨h0, h1, h2, h3, h4⟩ =
      ⟨y % 2 ^ 26, h1 % 2 ^ 26 + y / 2 ^ 26, x2 % 2 ^ 26, x3 % 2 ^ 26, x4 % 2 ^ 26⟩ := by
    simp only [fullCarry, land_mask26, Nat.shiftRight_eq_div_pow, e2, e3, e4, m5, e0, e1]
  rw [hf]
  refine ⟨⟨?_, ?_, ?_, ?_, ?_⟩, ?_⟩
  · show y % 2 ^ 26 < 2 ^ 26
    omega
  · show h1 % 2 ^ 26 + y / 2 ^ 26 < 2 ^ 26
    omega
  · show x2 % 2 ^ 26 < 2 ^ 26
    omega
  · show x3 % 2 ^ 26 < 2 ^ 26
    omega
  · show x4 % 2 ^ 26 < 2 ^ 26
    omega
  · simp only [Limbs5.val, P]
    omega

theorem selectReduced_spec (h : Limbs5) (hr : h.Reduced) :
    (selectReduced h).Reduced ∧ (selectReduced h).val = h.val % P := by
  obtain ⟨h0, h1, h2, h3, h4⟩ := h
  obtain ⟨b0, b1, b2, b3, b4⟩ := hr
  simp only at b0 b1 b2 b3 b4
  have e0 : add32 h0 5 = h0 + 5 := by rw [add32]; omega
  have e1 : add32 h1 ((h0 + 5) / 2 ^ 26) = h1 + (h0 + 5) / 2 ^ 26 := by rw [add32]; omega
  generalize hx1 : h1 + (h0 + 5) / 2 ^ 26 = x1 at *
  have e2 : add32 h2 (x1 / 2 ^ 26) = h2 + x1 / 2 ^ 26 := by rw [add32]; omega
  generalize hx2 : h2 + x1 / 2 ^ 26 = x2 at *
  have e3 : add32 h3 (x2 / 2 ^ 26) = h3 + x2 / 2 ^ 26 := by rw [add32]; omega
  generalize hx3 : h3 + x2 / 2 ^ 26 = x3 at *
  have e4 : add32 h4 (x3 / 2 ^ 26) = h4 + x3 / 2 ^ 26 := by rw [add32]; omega
  generalize hx4 : h4 + x3 / 2 ^ 26 = x4 at *
  have sh : (1 : Nat) <<< 26 = 2 ^ 26 := by decide
  have n0 : not32 0 = 0xffffffff := by decide
  have n1 : not32 0xffffffff = 0 := by decide
  by_cases hge : 2 ^ 26 ≤ x4
  · have g4 : sub32 x4 (2 ^ 26) = x4 - 2 ^ 26 := by rw [sub32]; omega
    have mk : sub32 ((x4 - 2 ^ 26) / 2 ^ 31) 1 = 0xffffffff := by rw [sub32]; omega
    have hs : selectReduced ⟨h0, h1, h2, h3, h4⟩ =
        ⟨(h0 + 5) % 2 ^ 26, x1 % 2 ^ 26, x2 % 2 ^ 26, x3 % 2 ^ 26, x4 - 2 ^ 26⟩ := by
      simp only [selectReduced, land_mask26, Nat.shiftRight_eq_div_pow, e0, e1, e2, e3, e4, sh,
        g4, mk, n1, Nat.and_zero, Nat.zero_or, land_mask32, Limbs5.mk.injEq]
      refine ⟨?_, ?_, ?_, ?_, ?_⟩ <;> omega
    rw [hs]
    refine ⟨⟨?_, ?_, ?_, ?_, ?_⟩, ?_⟩
    · show (h0 + 5) % 2 ^ 26 < 2 ^ 26
      omega
    · show x1 % 2 ^ 26 < 2 ^ 26
      omega
    · show x2 % 2 ^ 26 < 2 ^ 26
      omega
    · show x3 % 2 ^ 26 < 2 ^ 26
      omega
    · show x4 - 2 ^ 26 < 2 ^ 26
      omega
    · simp only [Limbs5.val, P]
      omega
  · have g4 : sub32 x4 (2 ^ 26) = x4 + 2 ^ 32 - 2 ^ 26 := by rw [sub32]; omega
    have mk : sub32 ((x4 + 2 ^ 32 - 2 ^ 26) / 2 ^ 31) 1 = 0 := by rw [sub32]; omega
    have hs : selectReduced ⟨h0, h1, h2, h3, h4⟩ = ⟨h0, h1, h2, h3, h4⟩ := by
      simp only [selectReduced, land_mask26, Nat.shiftRight_eq_div_pow, e0, e1, e2, e3, e4, sh,
        g4, mk, n0, Nat.and_zero, Nat.or_zero, land_mask32, Limbs5.mk.injEq]
      refine ⟨?_, ?_, ?_, ?_, ?_⟩ <;> omega
    rw [hs]
    refine ⟨⟨b0, b1, b2, b3, b4⟩, ?_⟩
    simp only [Limbs5.val, P]
    omega

theorem lor_mul_two_pow (a c k : Nat) (h : a < 2 ^ k) : a ||| 2 ^ k * c = a + 2 ^ k * c := by
  rw [Nat.or_comm, ← Nat.mul_add_lt_is_or h c, Nat.add_comm]

theorem repack_val (h0 h1 h2 h3 h4 : Nat) (b0 : h0 < 2 ^ 26) (b1 : h1 < 2 ^ 26)
    (b2 : h2 < 2 ^ 26) (b3 : h3 < 2 ^ 26) :
    (h0 + 2 ^ 26 * (h1 % 2 ^ 6)) + (h1 / 2 ^ 6 + 2 ^ 20 * (h2 % 2 ^ 12)) * 2 ^ 32
      + (h2 / 2 ^ 12 + 2 ^ 14 * (h3 % 2 ^ 18)) * 2 ^ 64
      + (h3 / 2 ^ 18 + 2 ^ 8 * (h4 % 2 ^ 24)) * 2 ^ 96
    = (h0 + h1 * 2 ^ 26 + h2 * 2 ^ 52 + h3 * 2 ^ 78 + h4 * 2 ^ 104) % 2 ^ 128 := by
  omega

theorem addPad_val (w0 w1 w2 w3 q0 q1 q2 q3 : Nat) :
    (w0 + q0) % 2 ^ 32 + (w1 + q1 + (w0 + q0) / 2 ^ 32) % 2 ^ 32 * 2 ^ 32
      + (w2 + q2 + (w1 + q1 + (w0 + q0) / 2 ^ 32) / 2 ^ 32) % 2 ^ 32 * 2 ^ 64
      + (w3 + q3 + (w2 + q2 + (w1 + q1 + (w0 + q0) / 2 ^ 32) / 2 ^ 32) / 2 ^ 32) % 2 ^ 32 * 2 ^ 96
    = (w0 + w1 * 2 ^ 32 + w2 * 2 ^ 64 + w3 * 2 ^ 96
        + (q0 + q1 * 2 ^ 32 + q2 * 2 ^ 64 + q3 * 2 ^ 96)) % 2 ^ 128 := by
  omega

theorem packAddPad_spec (h : Limbs5) (pad : Words4) (hr : h.Reduced)
    (p0 : pad.v0 < 2 ^ 32) (p1 : pad.v1 < 2 ^ 32) (p2 : pad.v2 < 2 ^ 32) (p3 : pad.v3 < 2 ^ 32) :
    ((packAddPad h pad).v0 < 2 ^ 32 ∧ (packAddPad h pad).v1 < 2 ^ 32 ∧
      (packAddPad h pad).v2 < 2 ^ 32 ∧ (packAddPad h pad).v3 < 2 ^ 32) ∧
    (packAddPad h pad).val = (h.val + pad.val) % 2 ^ 128 := by
  obtain ⟨h0, h1, h2, h3, h4⟩ := h
  obtain ⟨q0, q1, q2, q3⟩ := pad
  obtain ⟨b0, b1, b2, b3, b4⟩ := hr
  simp only at b0 b1 b2 b3 b4 p0 p1 p2 p3
  have s1 : shl32 h1 26 = 2 ^ 26 * (h1 % 2 ^ 6) := by
    rw [shl32, Nat.shiftLeft_eq]; omega
  have s2 : shl32 h2 20 = 2 ^ 20 * (h2 % 2 ^ 12) := by
    rw [shl32, Nat.shiftLeft_eq]; omega
  have s3 : shl32 h3 14 = 2 ^ 14 * (h3 % 2 ^ 18) := by
    rw [shl32, Nat.shiftLeft_eq]; omega
  have s4 : shl32 h4 8 = 2 ^ 8 * (h4 % 2 ^ 24) := by
    rw [shl32, Nat.shiftLeft_eq]; omega
  have o0 := lor_mul_two_pow h0 (h1 % 2 ^ 6) 26 b0
  have o1 := lor_mul_two_pow (h1 / 2 ^ 6) (h2 % 2 ^ 12) 20 (by omega)
  have o2 := lor_mul_two_pow (h2 / 2 ^ 12) (h3 % 2 ^ 18) 14 (by omega)
  have o3 := lor_mul_two_pow (h3 / 2 ^ 18) (h4 % 2 ^ 24) 8 (by omega)
  generalize hw0 : h0 + 2 ^ 26 * (h1 % 2 ^ 6) = w0 at *
  generalize hw1 : h1 / 2 ^ 6 + 2 ^ 20 * (h2 % 2 ^ 12) = w1 at *
  generalize hw2 : h2 / 2 ^ 12 + 2 ^ 14 * (h3 % 2 ^ 18) = w2 at *
  generalize hw3 : h3 / 2 ^ 18 + 2 ^ 8 * (h4 % 2 ^ 24) = w3 at *
  have m0 : w0 % 2 ^ 32 = w0 := Nat.mod_eq_of_lt (by omega)
  have m1 : w1 % 2 ^ 32 = w1 := Nat.mod_eq_of_lt (by omega)
  have m2 : w2 % 2 ^ 32 = w2 := Nat.mod_eq_of_lt (by omega)
  have m3 : w3 % 2 ^ 32 = w3 := Nat.mod_eq_of_lt (by omega)
  have f0 : add64 w0 q0 = w0 + q0 := by rw [add64]; omega
  generalize hf0 : w0 + q0 = f0v at *
  have f1 : add64 (add64 w1 q1) (f0v / 2 ^ 32) = w1 + q1 + f0v / 2 ^ 32 := by
    simp only [add64]; omega
  generalize hf1 : w1 + q1 + f0v / 2 ^ 32 = f1v at *
  have f2 : add64 (add64 w2 q2) (f1v / 2 ^ 32) = w2 + q2 + f1v / 2 ^ 32 := by
    simp only [add64]; omega
  generalize hf2 : w2 + q2 + f1v / 2 ^ 32 = f2v at *
  have f3 : add64 (add64 w3 q3) (f2v / 2 ^ 32) = w3 + q3 + f2v / 2 ^ 32 := by
    simp only [add64]; omega
  generalize hf3 : w3 + q3 + f2v / 2 ^ 32 = f3v at *
  have hp : packAddPad ⟨h0, h1, h2, h3, h4⟩ ⟨q0, q1, q2, q3⟩ =
      ⟨f0v % 2 ^ 32, f1v % 2 ^ 32, f2v % 2 ^ 32, f3v % 2 ^ 32⟩ := by
    simp only [packAddPad, land_mask32, Nat.shiftRight_eq_div_pow, s1, s2, s3, s4, o0, o1, o2,
      o3, m0, m1, m2, m3, f0, f1, f2, f3, u32]
  rw [hp]
  refine ⟨⟨?_, ?_, ?_, ?_⟩, ?_⟩
  · show f0v % 2 ^ 32 < 2 ^ 32
    omega
  · show f1v % 2 ^ 32 < 2 ^ 32
    omega
  · show f2v % 2 ^ 32 < 2 ^ 32
    omega
  · show f3v % 2 ^ 32 < 2 ^ 32
    omega
  · simp only [Limbs5.val, Words4.val]
    have hA := repack_val h0 h1 h2 h3 h4 b0 b1 b2 b3
    rw [hw0, hw1, hw2, hw3] at hA
    have hB := addPad_val w0 w1 w2 w3 q0 q1 q2 q3
    rw [hf0, hf1, hf2, hf3, hA] at hB
    rw [hB, Nat.mod_add_mod]

theorem LE_append (a b : List Byte) : LE (a ++ b) = LE a + 2 ^ (8 * a.length) * LE b := by
  induction a with
  | nil => simp [LE]
  | cons x xs ih =>
    have : 2 ^ (8 * (xs.length + 1)) = 256 * 2 ^ (8 * xs.length) := by
      rw [Nat.mul_add, Nat.pow_add]; norm_num; ring
    show x.val + 256 * LE (xs ++ b) = (x.val + 256 * LE xs) + 2 ^ (8 * (xs.length + 1)) * LE b
    rw [ih, this]
    ring

theorem LE_replicate_zero (n : Nat) : LE (List.replicate n 0) = 0 := by
  induction n with
  | zero => rfl
  | succ n ih => simp [List.replicate_succ, LE, ih]

theorem LE_lt (a : List Byte) : LE a < 2 ^ (8 * a.length) := by
  induction a with
  | nil => simp [LE]
  | cons x xs ih =>
    simp only [LE, List.length_cons]
    have : 2 ^ (8 * (xs.length + 1)) = 256 * 2 ^ (8 * xs.length) := by
      rw [Nat.mul_add, Nat.pow_add]; norm_num; ring
    rw [this]
    have := x.isLt
    omega

theorem blockLimbs_spec (hibit : Nat) (m : List Byte) (hm : 16 ≤ m.length)
    (hh : hibit = 0 ∨ hibit = 2 ^ 24) :
    (blockLimbs hibit (m.take 16)).v0 < 2 ^ 26 ∧ (blockLimbs hibit (m.take 16)).v1 < 2 ^ 26 ∧
    (blockLimbs hibit (m.take 16)).v2 < 2 ^ 26 ∧ (blockLimbs hibit (m.take 16)).v3 < 2 ^ 26 ∧
    (blockLimbs hibit (m.take 16)).v4 < 2 ^ 26 ∧
    (blockLimbs hibit (m.take 16)).val = LE (m.take 16) + hibit * 2 ^ 104 := by
  obtain ⟨b0, b1, b2, b3, b4, b5, b6, b7, b8, b9, b10, b11, b12, b13, b14, b15, rest, rfl⟩ := exists16 m hm
  have c0 := b0.isLt
  have c1 := b1.isLt
  have c2 := b2.isLt
  have c3 := b3.isLt
  have c4 := b4.isLt
  have c5 := b5.isLt
  have c6 := b6.isLt
  have c7 := b7.isLt
  have c8 := b8.isLt
  have c9 := b9.isLt
  have c10 := b10.isLt
  have c11 := b11.isLt
  have c12 := b12.isLt
  have c13 := b13.isLt
  have c14 := b14.isLt
  have c15 := b15.isLt
  have hor : ((b12.val + b13.val * 2 ^ 8 + b14.val * 2 ^ 16 + b15.val * 2 ^ 24) / 2 ^ 8) ||| hibit
      = (b12.val + b13.val * 2 ^ 8 + b14.val * 2 ^ 16 + b15.val * 2 ^ 24) / 2 ^ 8 + hibit := by
    rcases hh with h | h
    · subst h; simp
    · subst h
      have := lor_mul_two_pow ((b12.val + b13.val * 2 ^ 8 + b14.val * 2 ^ 16 + b15.val * 2 ^ 24) / 2 ^ 8)
        1 24 (by omega)
      rw [Nat.mul_one] at this
      rw [this]
  simp only [blockLimbs, List.take, le32At, List.getD_cons_zero, List.getD_cons_succ, land_mask26,
    Limbs5.val, LE, Nat.shiftRight_eq_div_pow, hor]
  refine ⟨?_, ?_, ?_, ?_, ?_, ?_⟩ <;> omega

theorem absorbBlock_spec (r h : Limbs5) (hibit : Nat) (m : List Byte) (hm : 16 ≤ m.length)
    (hh : hibit = 0 ∨ hibit = 2 ^ 24) (hr : r.Reduced) (hc : h.Carried) :
    (absorbBlock r hibit h (m.take 16)).Carried ∧
    (absorbBlock r hibit h (m.take 16)).val % P
      = ((h.val + (LE (m.take 16) + hibit * 2 ^ 104)) * r.val) % P := by
  obtain ⟨l0, l1, l2, l3, l4, lv⟩ := blockLimbs_spec hibit m hm hh
  obtain ⟨c0, c1, c2, c3, c4⟩ := hc
  obtain ⟨r0, r1, r2, r3, r4⟩ := hr
  have hab : absorbBlock r hibit h (m.take 16) = mulReduce r
      ⟨add32 h.v0 (blockLimbs hibit (m.take 16)).v0, add32 h.v1 (blockLimbs hibit (m.take 16)).v1,
       add32 h.v2 (blockLimbs hibit (m.take 16)).v2, add32 h.v3 (blockLimbs hibit (m.take 16)).v3,
       add32 h.v4 (blockLimbs hibit (m.take 16)).v4⟩ := rfl
  rw [hab, ← lv]
  generalize blockLimbs hibit (m.take 16) = l at *
  have e0 : add32 h.v0 l.v0 = h.v0 + l.v0 := by rw [add32]; omega
  have e1 : add32 h.v1 l.v1 = h.v1 + l.v1 := by rw [add32]; omega
  have e2 : add32 h.v2 l.v2 = h.v2 + l.v2 := by rw [add32]; omega
  have e3 : add32 h.v3 l.v3 = h.v3 + l.v3 := by rw [add32]; omega
  have e4 : add32 h.v4 l.v4 = h.v4 + l.v4 := by rw [add32]; omega
  rw [e0, e1, e2, e3, e4]
  obtain ⟨m0, m1, m2, m3, m4, mv⟩ := mulReduce_spec r
    ⟨h.v0 + l.v0, h.v1 + l.v1, h.v2 + l.v2, h.v3 + l.v3, h.v4 + l.v4⟩ r0 r1 r2 r3 r4
    (by show h.v0 + l.v0 < _; omega) (by show h.v1 + l.v1 < _; omega)
    (by show h.v2 + l.v2 < _; omega) (by show h.v3 + l.v3 < _; omega)
    (by show h.v4 + l.v4 < _; omega)
  refine ⟨⟨m0, m1, m2, m3, m4⟩, ?_⟩
  rw [mv]
  congr 2
  simp only [Limbs5.val]
  ring

theorem polyStep_mod (r acc : Nat) (b : List Byte) :
    polyStep r (acc % P) b = polyStep r acc b := by
  unfold polyStep
  rw [Nat.mul_mod, Nat.add_mod, Nat.mod_mod, ← Nat.add_mod, ← Nat.mul_mod]

theorem absorb_spec (r : Limbs5) (hr : r.Reduced) :
    ∀ (n : Nat) (h : Limbs5) (m : List Byte), 16 * n ≤ m.length → h.Carried →
      (absorb r (1 <<< 24) n h m).Carried ∧
      (absorb r (1 <<< 24) n h m).val % P
        = (firstBlocks n m).foldl (polyStep r.val) (h.val % P) := by
  intro n
  induction n with
  | zero =>
    intro h m _ hc
    exact ⟨hc, rfl⟩
  | succ n ih =>
    intro h m hm hc
    obtain ⟨c1, v1⟩ := absorbBlock_spec r h (1 <<< 24) m (by omega) (Or.inr (by decide)) hr hc
    obtain ⟨c2, v2⟩ := ih (absorbBlock r (1 <<< 24) h (m.take 16)) (m.drop 16)
      (by simp only [List.length_drop]; omega) c1
    refine ⟨c2, ?_⟩
    show (absorb r (1 <<< 24) n (absorbBlock r (1 <<< 24) h (m.take 16)) (m.drop 16)).val % P = _
    rw [v2, v1]
    show _ = List.foldl (polyStep r.val) (polyStep r.val (h.val % P) (m.take 16)) _
    rw [polyStep_mod]
    have hl : (m.take 16).length = 16 := by rw [List.length_take]; omega
    have hb : (1 <<< 24) * 2 ^ 104 = 2 ^ (8 * 16) := by decide
    simp only [polyStep, hl, hb]

theorem land_mod_div (x m n : Nat) :
    x &&& m = 2 ^ n * ((x / 2 ^ n) &&& (m / 2 ^ n)) + ((x % 2 ^ n) &&& (m % 2 ^ n)) := by
  have hlt : (x % 2 ^ n) &&& (m % 2 ^ n) < 2 ^ n :=
    Nat.lt_of_le_of_lt Nat.and_le_right (Nat.mod_lt _ (Nat.two_pow_pos n))
  apply Nat.eq_of_testBit_eq
  intro j
  rw [Nat.testBit_mul_pow_two_add _ hlt]
  by_cases hj : j < n
  · simp [hj, Nat.testBit_land, Nat.testBit_mod_two_pow]
  · have e : n + (j - n) = j := by omega
    simp only [hj, if_false, Nat.testBit_land, ← Nat.shiftRight_eq_div_pow, Nat.testBit_shiftRight, e]

theorem land_low (y m n : Nat) (hm : m < 2 ^ n) : y &&& m = (y % 2 ^ n) &&& m := by
  rw [land_mod_div y m n, Nat.div_eq_of_lt hm, Nat.and_zero, Nat.mul_zero, Nat.zero_add,
    Nat.mod_eq_of_lt hm]

theorem land_congr_low (y z m n : Nat) (hm : m < 2 ^ n) (h : y % 2 ^ n = z % 2 ^ n) :
    y &&& m = z &&& m := by
  rw [land_low y m n hm, land_low z m n hm, h]

theorem land_limbs (X M : Nat) :
    X &&& M = ((X % 2 ^ 26) &&& (M % 2 ^ 26))
      + ((X / 2 ^ 26 % 2 ^ 26) &&& (M / 2 ^ 26 % 2 ^ 26)) * 2 ^ 26
      + ((X / 2 ^ 52 % 2 ^ 26) &&& (M / 2 ^ 52 % 2 ^ 26)) * 2 ^ 52
      + ((X / 2 ^ 78 % 2 ^ 26) &&& (M / 2 ^ 78 % 2 ^ 26)) * 2 ^ 78
      + ((X / 2 ^ 104) &&& (M / 2 ^ 104)) * 2 ^ 104 := by
  have h1 := land_mod_div X M 26
  have h2 := land_mod_div (X / 2 ^ 26) (M / 2 ^ 26) 26
  have h3 := land_mod_div (X / 2 ^ 52) (M / 2 ^ 52) 26
  have h4 := land_mod_div (X / 2 ^ 78) (M / 2 ^ 78) 26
  have d2 : ∀ Y : Nat, Y / 2 ^ 26 / 2 ^ 26 = Y / 2 ^ 52 := fun Y => by omega
  have d3 : ∀ Y : Nat, Y / 2 ^ 52 / 2 ^ 26 = Y / 2 ^ 78 := fun Y => by omega
  have d4 : ∀ Y : Nat, Y / 2 ^ 78 / 2 ^ 26 = Y / 2 ^ 104 := fun Y => by omega
  rw [d2, d2] at h2
  rw [d3, d3] at h3
  rw [d4, d4] at h4
  rw [h1, h2, h3, h4]
  ring

theorem clamp_limbs (x0 x1 x2 x3 x4 x5 x6 x7 x8 x9 x10 x11 x12 x13 x14 x15 : Nat)
    (c0 : x0 < 256)
    (c1 : x1 < 256)
    (c2 : x2 < 256)
    (c3 : x3 < 256)
    (c4 : x4 < 256)
    (c5 : x5 < 256)
    (c6 : x6 < 256)
    (c7 : x7 < 256)
    (c8 : x8 < 256)
    (c9 : x9 < 256)
    (c10 : x10 < 256)
    (c11 : x11 < 256) :
    ((x0 + x1 * 2 ^ 8 + x2 * 2 ^ 16 + x3 * 2 ^ 24) &&& 0x3ffffff)
      + (((x3 + x4 * 2 ^ 8 + x5 * 2 ^ 16 + x6 * 2 ^ 24) / 2 ^ 2) &&& 0x3ffff03) * 2 ^ 26
      + (((x6 + x7 * 2 ^ 8 + x8 * 2 ^ 16 + x9 * 2 ^ 24) / 2 ^ 4) &&& 0x3ffc0ff) * 2 ^ 52
      + (((x9 + x10 * 2 ^ 8 + x11 * 2 ^ 16 + x12 * 2 ^ 24) / 2 ^ 6) &&& 0x3f03fff) * 2 ^ 78
      + (((x12 + x13 * 2 ^ 8 + x14 * 2 ^ 16 + x15 * 2 ^ 24) / 2 ^ 8) &&& 0x00fffff) * 2 ^ 104
    = (x0 + x1 * 2 ^ 8 + x2 * 2 ^ 16 + x3 * 2 ^ 24 + x4 * 2 ^ 32 + x5 * 2 ^ 40 + x6 * 2 ^ 48 + x7 * 2 ^ 56 + x8 * 2 ^ 64 + x9 * 2 ^ 72 + x10 * 2 ^ 80 + x11 * 2 ^ 88 + x12 * 2 ^ 96 + x13 * 2 ^ 104 + x14 * 2 ^ 112 + x15 * 2 ^ 120) &&& clampMask := by
  obtain ⟨X, hX⟩ : ∃ X, X = (x0 + x1 * 2 ^ 8 + x2 * 2 ^ 16 + x3 * 2 ^ 24 + x4 * 2 ^ 32 + x5 * 2 ^ 40 + x6 * 2 ^ 48 + x7 * 2 ^ 56 + x8 * 2 ^ 64 + x9 * 2 ^ 72 + x10 * 2 ^ 80 + x11 * 2 ^ 88 + x12 * 2 ^ 96 + x13 * 2 ^ 104 + x14 * 2 ^ 112 + x15 * 2 ^ 120) := ⟨_, rfl⟩
  rw [← hX, land_limbs X clampMask]
  have m0 : clampMask % 2 ^ 26 = 0x3ffffff := by decide
  have m1 : clampMask / 2 ^ 26 % 2 ^ 26 = 0x3ffff03 := by decide
  have m2 : clampMask / 2 ^ 52 % 2 ^ 26 = 0x3ffc0ff := by decide
  have m3 : clampMask / 2 ^ 78 % 2 ^ 26 = 0x3f03fff := by decide
  have m4 : clampMask / 2 ^ 104 = 0x00fffff := by decide
  rw [m0, m1, m2, m3, m4]
  have e0 := land_congr_low (x0 + x1 * 2 ^ 8 + x2 * 2 ^ 16 + x3 * 2 ^ 24) (X % 2 ^ 26) 0x3ffffff 26 (by decide) (by omega)
  have e1 := land_congr_low ((x3 + x4 * 2 ^ 8 + x5 * 2 ^ 16 + x6 * 2 ^ 24) / 2 ^ 2) (X / 2 ^ 26 % 2 ^ 26) 0x3ffff03 26 (by decide) (by omega)
  have e2 := land_congr_low ((x6 + x7 * 2 ^ 8 + x8 * 2 ^ 16 + x9 * 2 ^ 24) / 2 ^ 4) (X / 2 ^ 52 % 2 ^ 26) 0x3ffc0ff 26 (by decide) (by omega)
  have e3 := land_congr_low ((x9 + x10 * 2 ^ 8 + x11 * 2 ^ 16 + x12 * 2 ^ 24) / 2 ^ 6) (X / 2 ^ 78 % 2 ^ 26) 0x3f03fff 26 (by decide) (by omega)
  have e4 : (x12 + x13 * 2 ^ 8 + x14 * 2 ^ 16 + x15 * 2 ^ 24) / 2 ^ 8 = X / 2 ^ 104 := by omega
  rw [e0, e1, e2, e3, e4]

theorem rOf_spec (key : List Byte) (hk : 16 ≤ key.length) :
    (rOf key).Reduced ∧ (rOf key).val = LE (key.take 16) &&& clampMask := by
  constructor
  · refine ⟨?_, ?_, ?_, ?_, ?_⟩
    · exact Nat.lt_of_le_of_lt Nat.and_le_right (by decide)
    · exact Nat.lt_of_le_of_lt Nat.and_le_right (by decide)
    · exact Nat.lt_of_le_of_lt Nat.and_le_right (by decide)
    · exact Nat.lt_of_le_of_lt Nat.and_le_right (by decide)
    · exact Nat.lt_of_le_of_lt Nat.and_le_right (by decide)
  · obtain ⟨b0, b1, b2, b3, b4, b5, b6, b7, b8, b9, b10, b11, b12, b13, b14, b15, rest, rfl⟩ := exists16 key hk
    have hc := clamp_limbs b0.val b1.val b2.val b3.val b4.val b5.val b6.val b7.val b8.val b9.val b10.val b11.val b12.val b13.val b14.val b15.val
      b0.isLt b1.isLt b2.isLt b3.isLt b4.isLt b5.isLt b6.isLt b7.isLt b8.isLt b9.isLt b10.isLt b11.isLt
    have hX : LE (List.take 16 (b0 :: b1 :: b2 :: b3 :: b4 :: b5 :: b6 :: b7 :: b8 :: b9 :: b10 :: b11 :: b12 :: b13 :: b14 :: b15 :: rest))
        = (b0.val + b1.val * 2 ^ 8 + b2.val * 2 ^ 16 + b3.val * 2 ^ 24 + b4.val * 2 ^ 32 + b5.val * 2 ^ 40 + b6.val * 2 ^ 48 + b7.val * 2 ^ 56 + b8.val * 2 ^ 64 + b9.val * 2 ^ 72 + b10.val * 2 ^ 80 + b11.val * 2 ^ 88 + b12.val * 2 ^ 96 + b13.val * 2 ^ 104 + b14.val * 2 ^ 112 + b15.val * 2 ^ 120) := by
      simp only [List.take, LE]
      omega
    rw [hX, ← hc]
    simp only [rOf, Limbs5.val, le32At, List.getD_cons_zero, List.getD_cons_succ,
      Nat.shiftRight_eq_div_pow]

theorem padOf_spec (key : List Byte) (hk : key.length = 32) :
    ((padOf key).v0 < 2 ^ 32 ∧ (padOf key).v1 < 2 ^ 32 ∧ (padOf key).v2 < 2 ^ 32 ∧
      (padOf key).v3 < 2 ^ 32) ∧ (padOf key).val = LE (key.drop 16) := by
  obtain ⟨b0, b1, b2, b3, b4, b5, b6, b7, b8, b9, b10, b11, b12, b13, b14, b15, rest, rfl⟩ := exists16 key (by omega)
  obtain ⟨d0, d1, d2, d3, d4, d5, d6, d7, d8, d9, d10, d11, d12, d13, d14, d15, rest', rfl⟩ := exists16 rest
    (by simp only [List.length_cons] at hk; omega)
  have hr : rest' = [] := by
    simp only [List.length_cons] at hk
    exact List.length_eq_zero.mp (by omega)
  subst hr
  have c0 := d0.isLt
  have c1 := d1.isLt
  have c2 := d2.isLt
  have c3 := d3.isLt
  have c4 := d4.isLt
  have c5 := d5.isLt
  have c6 := d6.isLt
  have c7 := d7.isLt
  have c8 := d8.isLt
  have c9 := d9.isLt
  have c10 := d10.isLt
  have c11 := d11.isLt
  have c12 := d12.isLt
  have c13 := d13.isLt
  have c14 := d14.isLt
  have c15 := d15.isLt
  simp only [padOf, Words4.val, le32At, List.getD_cons_zero, List.getD_cons_succ, List.drop, LE]
  refine ⟨⟨?_, ?_, ?_, ?_⟩, ?_⟩ <;> omega

theorem byte_congr (a b : Nat) (h : a % 256 = b % 256) : byte a = byte b := by
  unfold byte
  exact Fin.ext h

theorem le32_words (w : Words4) (h0 : w.v0 < 2 ^ 32) (h1 : w.v1 < 2 ^ 32) (h2 : w.v2 < 2 ^ 32)
    (h3 : w.v3 < 2 ^ 32) :
    le32 w.v0 ++ le32 w.v1 ++ le32 w.v2 ++ le32 w.v3 = leBytes 16 w.val := by
  obtain ⟨w0, w1, w2, w3⟩ := w
  simp only at h0 h1 h2 h3
  simp only [le32, leBytes, Words4.val, List.cons_append, List.nil_append, List.cons.injEq,
    Nat.shiftRight_eq_div_pow, and_true]
  refine ⟨?_, ?_, ?_, ?_, ?_, ?_, ?_, ?_, ?_, ?_, ?_, ?_, ?_, ?_, ?_, ?_⟩ <;>
    (apply byte_congr; omega)

theorem tagOfLimbs_spec (h : Limbs5) (pad : Words4) (hc : h.Carried)
    (p0 : pad.v0 < 2 ^ 32) (p1 : pad.v1 < 2 ^ 32) (p2 : pad.v2 < 2 ^ 32) (p3 : pad.v3 < 2 ^ 32) :
    tagOfLimbs h pad = leBytes 16 ((h.val % P + pad.val) % 2 ^ 128) := by
  obtain ⟨r1, v1⟩ := fullCarry_spec h hc
  obtain ⟨r2, v2⟩ := selectReduced_spec (fullCarry h) r1
  obtain ⟨⟨b0, b1, b2, b3⟩, v3⟩ := packAddPad_spec (selectReduced (fullCarry h)) pad r2 p0 p1 p2 p3
  unfold tagOfLimbs
  rw [le32_words _ b0 b1 b2 b3, v3, v2, v1]

theorem specBlocksAux_eq : ∀ (fuel : Nat) (m : List Byte), m.length ≤ fuel →
    specBlocksAux fuel m = firstBlocks (m.length / 16) m ++
      (if m.length % 16 = 0 then [] else [m.drop (16 * (m.length / 16))]) := by
  intro fuel
  induction fuel with
  | zero =>
    intro m hm
    have : m = [] := List.length_eq_zero.mp (by omega)
    subst this
    rfl
  | succ fuel ih =>
    intro m hm
    cases m with
    | nil => rfl
    | cons x xs =>
      have hne : (x :: xs).isEmpty = false := rfl
      simp only [specBlocksAux, hne, Bool.false_eq_true, if_false]
      by_cases hl : 16 ≤ (x :: xs).length
      · rw [ih ((x :: xs).drop 16) (by simp only [List.length_drop]; simp only [List.length_cons] at hm ⊢; omega)]
        have hq : (x :: xs).length / 16 = ((x :: xs).drop 16).length / 16 + 1 := by
          simp only [List.length_drop]; omega
        have hr : (x :: xs).length % 16 = ((x :: xs).drop 16).length % 16 := by
          simp only [List.length_drop]; omega
        rw [hq, hr, firstBlocks, Nat.mul_add, Nat.mul_one, Nat.add_comm (16 * _) 16,
          ← List.drop_drop]
        rfl
      · have hq : (x :: xs).length / 16 = 0 := by omega
        have hr : ¬ ((x :: xs).length % 16 = 0) := by
          simp only [List.length_cons] at hl ⊢; omega
        have hd : (x :: xs).drop 16 = [] := List.drop_of_length_le (by omega)
        have ht : (x :: xs).take 16 = x :: xs := List.take_of_length_le (by omega)
        rw [hq, if_neg hr, hd, ht]
        cases fuel <;> rfl

theorem finalBlock_spec (t : List Byte) (ht : t.length < 16) :
    (finalBlock t).length = 16 ∧ LE (finalBlock t) = LE t + 2 ^ (8 * t.length) := by
  constructor
  · simp [finalBlock]; omega
  · unfold finalBlock
    rw [LE_append, LE_append, LE_replicate_zero]
    simp [LE]

theorem streamTag_eq_specTag (key m : List Byte) (hk : key.length = 32) :
    streamTag key m = specTag key m := by
  obtain ⟨hr, hrv⟩ := rOf_spec key (by omega)
  obtain ⟨⟨p0, p1, p2, p3⟩, hpv⟩ := padOf_spec key hk
  have hz : (⟨0, 0, 0, 0, 0⟩ : Limbs5).Carried := by
    refine ⟨?_, ?_, ?_, ?_, ?_⟩ <;> decide
  obtain ⟨c1, v1⟩ := absorb_spec (rOf key) hr (m.length / 16) ⟨0, 0, 0, 0, 0⟩ m (by omega) hz
  have hz0 : (⟨0, 0, 0, 0, 0⟩ : Limbs5).val % P = 0 := by decide
  rw [hz0] at v1
  have hdrop : (key.drop 16).take 16 = key.drop 16 :=
    List.take_of_length_le (by simp only [List.length_drop]; omega)
  have hsb := specBlocksAux_eq m.length m (Nat.le_refl _)
  unfold streamTag specTag specAcc specBlocks
  rw [hsb, hdrop, ← hpv, ← hrv, List.foldl_append, ← v1]
  generalize absorb (rOf key) (1 <<< 24) (m.length / 16) ⟨0, 0, 0, 0, 0⟩ m = h1 at *
  have htl : (m.drop (16 * (m.length / 16))).length = m.length % 16 := by
    simp only [List.length_drop]; omega
  by_cases ht : m.length % 16 = 0
  · have e : finishLimbs (rOf key) h1 (m.drop (16 * (m.length / 16))) = h1 := by
      simp only [finishLimbs, htl, ht, if_true]
    rw [e, if_pos ht, tagOfLimbs_spec h1 _ c1 p0 p1 p2 p3]
    simp only [List.foldl_nil, Nat.mod_mod]
  · have e : finishLimbs (rOf key) h1 (m.drop (16 * (m.length / 16)))
        = absorbBlock (rOf key) 0 h1 (finalBlock (m.drop (16 * (m.length / 16)))) := by
      simp only [finishLimbs, htl, ht, if_false]
    obtain ⟨fl, fv⟩ := finalBlock_spec (m.drop (16 * (m.length / 16))) (by rw [htl]; omega)
    obtain ⟨c2, v2⟩ := absorbBlock_spec (rOf key) h1 0
      (finalBlock (m.drop (16 * (m.length / 16)))) (by omega) (Or.inl rfl) hr c1
    rw [List.take_of_length_le (by omega)] at c2 v2
    rw [e, if_neg ht, tagOfLimbs_spec _ _ c2 p0 p1 p2 p3, v2, fv]
    simp only [List.foldl_cons, List.foldl_nil, polyStep_mod]
    simp only [polyStep, Nat.zero_mul, Nat.add_zero]

theorem lor_eq_zero (a x : Nat) : a ||| x = 0 ↔ a = 0 ∧ x = 0 := by
  constructor
  · intro h
    have hb : ∀ i, a.testBit i = false ∧ x.testBit i = false := by
      intro i
      have := congrArg (fun n => Nat.testBit n i) h
      simpa [Nat.testBit_lor] using this
    exact ⟨Nat.eq_of_testBit_eq (fun i => by simp [(hb i).1]),
      Nat.eq_of_testBit_eq (fun i => by simp [(hb i).2])⟩
  · rintro ⟨rfl, rfl⟩
    rfl

theorem foldl_or_eq_zero (l : List Nat) (a : Nat) :
    l.foldl (fun v e => v ||| e) a = 0 ↔ a = 0 ∧ ∀ e ∈ l, e = 0 := by
  induction l generalizing a with
  | nil => simp
  | cons x xs ih =>
    rw [List.foldl_cons, ih]
    simp only [lor_eq_zero, List.mem_cons, forall_eq_or_imp]
    tauto

theorem foldl_or_lt (l : List Nat) (a : Nat) (ha : a < 2 ^ 8) (hl : ∀ e ∈ l, e < 2 ^ 8) :
    l.foldl (fun v e => v ||| e) a < 2 ^ 8 := by
  induction l generalizing a with
  | nil => simpa using ha
  | cons x xs ih =>
    rw [List.foldl_cons]
    exact ih _ (Nat.or_lt_two_pow ha (hl x (List.mem_cons_self _ _)))
      (fun e he => hl e (List.mem_cons_of_mem _ he))

theorem zipWith_xor_zero : ∀ (x y : List Byte), x.length = y.length →
    ((∀ e ∈ List.zipWith (fun a b => a.val ^^^ b.val) x y, e = 0) ↔ x = y)
  | [], [], _ => by simp
  | [], _ :: _, h => by simp at h
  | _ :: _, [], h => by simp at h
  | a :: as, b :: bs, h => by
    have ih := zipWith_xor_zero as bs (by simpa using h)
    simp only [List.zipWith_cons_cons, List.mem_cons, forall_eq_or_imp, ih, List.cons.injEq,
      Nat.xor_eq_zero]
    constructor
    · rintro ⟨h1, h2⟩
      exact ⟨Fin.ext h1, h2⟩
    · rintro ⟨h1, h2⟩
      exact ⟨congrArg Fin.val h1, h2⟩

theorem zipWith_xor_lt (x y : List Byte) :
    ∀ e ∈ List.zipWith (fun a b => a.val ^^^ b.val) x y, e < 2 ^ 8 := by
  intro e he
  rw [List.mem_iff_getElem] at he
  obtain ⟨i, hi, rfl⟩ := he
  rw [List.getElem_zipWith]
  exact Nat.xor_lt_two_pow (Fin.isLt _) (Fin.isLt _)

theorem ConstantTimeCompare_eq_one (x y : List Byte) : ConstantTimeCompare x y = 1 ↔ x = y := by
  unfold ConstantTimeCompare
  by_cases hl : x.length = y.length
  · simp only [hl, ne_eq, not_true_eq_false, if_false]
    have hlt := foldl_or_lt _ 0 (by decide) (zipWith_xor_lt x y)
    have hz := foldl_or_eq_zero (List.zipWith (fun a b => a.val ^^^ b.val) x y) 0
    have hx := zipWith_xor_zero x y hl
    generalize (List.zipWith (fun a b => a.val ^^^ b.val) x y).foldl (fun v e => v ||| e) 0 = v at *
    rw [← hx, ← (show v = 0 ↔ ∀ e ∈ _, e = 0 from by simpa using hz)]
    simp only [ConstantTimeByteEq, Nat.xor_zero, sub32, Nat.shiftRight_eq_div_pow]
    constructor
    · intro h
      have : (v + (2 ^ 32 - 1 % 2 ^ 32)) % 2 ^ 32 / 2 ^ 31 = 1 := by exact_mod_cast h
      omega
    · intro h
      subst h
      rfl
  · simp only [hl, ne_eq, not_false_eq_true, if_true]
    constructor
    · intro h; exact absurd h (by decide)
    · intro h; exact absurd (congrArg List.length h) hl

theorem leBytes_length (n v : Nat) : (leBytes n v).length = n := by
  induction n generalizing v with
  | zero => rfl
  | succ n ih => simp [leBytes, ih]

theorem LE_leBytes (n v : Nat) : LE (leBytes n v) = v % 2 ^ (8 * n) := by
  induction n generalizing v with
  | zero => simp [leBytes, LE, Nat.mod_one]
  | succ n ih =>
    simp only [leBytes, LE, ih, byte]
    have h : 2 ^ (8 * (n + 1)) = 256 * 2 ^ (8 * n) := by
      rw [Nat.mul_add, Nat.pow_add]; norm_num; ring
    rw [h, Nat.mod_mul, Nat.add_comm]

theorem LE_inj : ∀ (a b : List Byte), a.length = b.length → LE a = LE b → a = b
  | [], [], _, _ => rfl
  | [], _ :: _, h, _ => by simp at h
  | _ :: _, [], h, _ => by simp at h
  | x :: xs, y :: ys, h, e => by
    simp only [LE] at e
    have hx := x.isLt
    have hy := y.isLt
    have e1 : x.val = y.val := by omega
    have e2 : LE xs = LE ys := by omega
    rw [Fin.ext e1, LE_inj xs ys (by simpa using h) e2]

theorem byte_xor_ne (x : Byte) (k : Nat) (hk : k < 8) : byte (x.val ^^^ (1 <<< k)) ≠ x := by
  intro h
  have hp : (1 : Nat) <<< k < 2 ^ 8 := by
    rw [Nat.shiftLeft_eq, Nat.one_mul]
    exact Nat.pow_lt_pow_right (by decide) hk
  have hlt : x.val ^^^ (1 <<< k) < 2 ^ 8 := Nat.xor_lt_two_pow x.isLt hp
  have h1 : (x.val ^^^ (1 <<< k)) % 256 = x.val := congrArg Fin.val h
  rw [Nat.mod_eq_of_lt (show x.val ^^^ (1 <<< k) < 256 from hlt)] at h1
  have h2 : x.val ^^^ (x.val ^^^ (1 <<< k)) = x.val ^^^ x.val := by rw [h1]
  rw [Nat.xor_cancel_left, Nat.xor_self, Nat.shiftLeft_eq, Nat.one_mul] at h2
  exact absurd h2 (Nat.pos_iff_ne_zero.mp (Nat.two_pow_pos k))

theorem flipBit_length (bs : List Byte) (i : Nat) : (flipBit bs i).length = bs.length := by
  simp [flipBit]

theorem flipBit_ne (bs : List Byte) (i : Nat) (hi : i < 8 * bs.length) : flipBit bs i ≠ bs := by
  intro h
  have hj : i / 8 < bs.length := by omega
  have h1 := congrArg (fun l => l[i / 8]?) h
  simp only [flipBit, List.getElem?_set_self hj, List.getD_eq_getElem?_getD,
    List.getElem?_eq_getElem hj, Option.getD_some, Option.some.injEq] at h1
  exact byte_xor_ne _ _ (by omega) h1

theorem flipBit_take (bs : List Byte) (i n : Nat) (hn : 8 * n ≤ i) :
    (flipBit bs i).take n = bs.take n := by
  unfold flipBit
  rcases Nat.lt_or_ge n (i / 8) with h | h
  · exact List.take_set_of_lt _ _ h
  · have : i / 8 = n := by omega
    rw [List.set_eq_take_append_cons_drop]
    split
    · rw [List.take_append_of_le_length (by rw [List.length_take]; omega), List.take_take]
      congr 1
      omega
    · rfl

theorem New_spec (key : List Byte) (hk : key.length = 32) :
    ∃ st, New key = .ok (some st, none) ∧ Absorbed key [] st := by
  obtain ⟨st, h1, h2⟩ := Absorbed_Init Poly1305.zero key hk
  refine ⟨st, ?_, h2⟩
  have hc : ¬ ((key.length : Int) ≠ KeySize) := by
    show ¬ ((key.length : Int) ≠ 32)
    omega
  simp only [New, hc, if_false, h1, bind, Except.bind, pure, Except.pure]

theorem New_bad (key : List Byte) (hk : key.length ≠ 32) :
    New key = .ok (none, some .ErrInvalidKeySize) := by
  have hc : (key.length : Int) ≠ KeySize := by
    show (key.length : Int) ≠ 32
    omega
  simp only [New, pure, Except.pure]
  rw [if_pos hc]

theorem Init_bad (st : Poly1305) (key : List Byte) (hk : key.length ≠ 32) :
    st.Init key = .error (.errorValue .ErrInvalidKeySize) := by
  have hc : (key.length : Int) ≠ KeySize := by
    show (key.length : Int) ≠ 32
    omega
  simp only [Poly1305.Init, bind, Except.bind, throw, throwThe, MonadExceptOf.throw]
  rw [if_pos hc]

theorem Absorbed_writeAll (key : List Byte) :
    ∀ (chunks : List (List Byte)) (M : List Byte) (st : Poly1305), Absorbed key M st →
      ∃ st', writeAll st chunks = .ok st' ∧ Absorbed key (M ++ chunks.flatten) st' := by
  intro chunks
  induction chunks with
  | nil =>
    intro M st ha
    exact ⟨st, rfl, by simpa using ha⟩
  | cons c cs ih =>
    intro M st ha
    obtain ⟨st1, h1, a1⟩ := Absorbed_Write key M c st ha
    obtain ⟨st2, h2, a2⟩ := ih (M ++ c) st1 a1
    refine ⟨st2, ?_, by simpa [List.append_assoc] using a2⟩
    simp only [writeAll, h1, bind, Except.bind]
    exact h2

theorem Absorbed_Sum (key M b : List Byte) (st : Poly1305) (ha : Absorbed key M st) :
    st.Sum b = .ok (st, b ++ streamTag key M) := by
  obtain ⟨st', hf⟩ := Absorbed_finish key M st ha
  simp only [Poly1305.Sum, hf, bind, Except.bind, pure, Except.pure]

theorem Sum_eq_specTag (m key : List Byte) (hk : key.length = 32) :
    Sum m key = .ok (specTag key m) := by
  rw [Sum_eq_streamTag m key hk, streamTag_eq_specTag key m hk]

theorem specTag_length (key m : List Byte) : (specTag key m).length = 16 :=
  leBytes_length _ _

theorem Verify_spec (tag m key : List Byte) (hk : key.length = 32) :
    Verify tag m key = .ok (decide (tag = specTag key m)) := by
  simp only [Verify, Sum_eq_specTag m key hk, bind, Except.bind, pure, Except.pure,
    ConstantTimeCompare_eq_one]

theorem specTag_eq_iff (key m key' m' : List Byte) (hk : key.length = 32) (hk' : key'.length = 32) :
    specTag key m = specTag key' m' ↔
      (specAcc (LE (key.take 16) &&& clampMask) (specBlocks m) + LE (key.drop 16)) % 2 ^ 128
        = (specAcc (LE (key'.take 16) &&& clampMask) (specBlocks m') + LE (key'.drop 16)) % 2 ^ 128 := by
  have hd : (key.drop 16).take 16 = key.drop 16 :=
    List.take_of_length_le (by simp only [List.length_drop]; omega)
  have hd' : (key'.drop 16).take 16 = key'.drop 16 :=
    List.take_of_length_le (by simp only [List.length_drop]; omega)
  unfold specTag
  rw [hd, hd']
  constructor
  · intro h
    have := congrArg LE h
    rw [LE_leBytes, LE_leBytes] at this
    omega
  · intro h
    rw [h]

theorem tagOfLimbs_length (h : Limbs5) (pad : Words4) : (tagOfLimbs h pad).length = 16 := rfl

theorem Sum_method_spec (st : Poly1305) (b : List Byte) (h0 : 0 ≤ st.leftover)
    (h1 : st.leftover < 16) :
    st.Sum b = .ok (st, b ++ tagOfLimbs
      (finishLimbs st.r st.h (st.buffer.val.take st.leftover.toNat)) st.pad) := by
  obtain ⟨st', hf, _⟩ := finish_spec st h0 h1
  simp only [Poly1305.Sum, hf, bind, Except.bind, pure, Except.pure]

theorem specBlocksAux_flatten : ∀ (fuel : Nat) (m : List Byte), m.length ≤ fuel →
    (specBlocksAux fuel m).flatten = m := by
  intro fuel
  induction fuel with
  | zero =>
    intro m hm
    have : m = [] := List.length_eq_zero.mp (by omega)
    subst this
    rfl
  | succ fuel ih =>
    intro m hm
    cases m with
    | nil => rfl
    | cons x xs =>
      have hne : (x :: xs).isEmpty = false := rfl
      simp only [specBlocksAux, hne, Bool.false_eq_true, if_false, List.flatten_cons]
      rw [ih _ (by simp only [List.length_drop]; simp only [List.length_cons] at hm ⊢; omega),
        List.take_append_drop]

theorem specBlocksAux_lengths : ∀ (fuel : Nat) (m : List Byte),
    ∀ b ∈ specBlocksAux fuel m, 1 ≤ b.length ∧ b.length ≤ 16 := by
  intro fuel
  induction fuel with
  | zero =>
    intro m b hb
    simp [specBlocksAux] at hb
  | succ fuel ih =>
    intro m b hb
    cases m with
    | nil => simp [specBlocksAux] at hb
    | cons x xs =>
      have hne : (x :: xs).isEmpty = false := rfl
      simp only [specBlocksAux, hne, Bool.false_eq_true, if_false, List.mem_cons] at hb
      rcases hb with rfl | hb
      · simp only [List.length_take, List.length_cons]
        omega
      · exact ih _ b hb

/-- The blocks of the specification concatenate to the message. -/
theorem specBlocks_flatten (m : List Byte) : (specBlocks m).flatten = m :=
  specBlocksAux_flatten m.length m (Nat.le_refl _)

/-- Every block of the specification has between 1 and 16 bytes. -/
theorem specBlocks_lengths (m : List Byte) :
    ∀ b ∈ specBlocks m, 1 ≤ b.length ∧ b.length ≤ 16 :=
  specBlocksAux_lengths m.length m

/-- All blocks of the specification except the last have exactly 16 bytes. -/
theorem specBlocks_shape (m : List Byte) :
    specBlocks m = firstBlocks (m.length / 16) m ++
      (if m.length % 16 = 0 then [] else [m.drop (16 * (m.length / 16))]) :=
  specBlocksAux_eq m.length m (Nat.le_refl _)

theorem LE_testBit (bs : List Byte) (j : Nat) :
    (LE bs).testBit j = ((bs.getD (j / 8) 0).val).testBit (j % 8) := by
  induction bs generalizing j with
  | nil => simp [LE]
  | cons b bs ih =>
    have hb : b.val < 2 ^ 8 := b.isLt
    have e : LE (b :: bs) = 2 ^ 8 * LE bs + b.val := by
      simp only [LE]; omega
    rw [e, Nat.testBit_mul_pow_two_add _ hb]
    by_cases hj : j < 8
    · have h0 : j / 8 = 0 := by omega
      have h1 : j % 8 = j := by omega
      simp [hj, h0, h1]
    · have h0 : j / 8 = (j - 8) / 8 + 1 := by omega
      have h1 : j % 8 = (j - 8) % 8 := by omega
      rw [if_neg hj, ih, h0, h1]
      rfl

theorem flipBit_getD_ne (bs : List Byte) (i t : Nat) (ht : t ≠ i / 8) :
    (flipBit bs i).getD t 0 = bs.getD t 0 := by
  unfold flipBit
  simp only [List.getD_eq_getElem?_getD]
  rw [List.getElem?_set_ne (fun h => ht h.symm)]

theorem LE_flipBit_testBit (bs : List Byte) (i j : Nat) (hij : j ≠ i) :
    (LE (flipBit bs i)).testBit j = (LE bs).testBit j := by
  rw [LE_testBit, LE_testBit]
  by_cases hb : j / 8 = i / 8
  · have hk : i % 8 ≠ j % 8 := by omega
    by_cases hl : i / 8 < bs.length
    · have hp : (1 : Nat) <<< (i % 8) < 2 ^ 8 := by
        rw [Nat.shiftLeft_eq, Nat.one_mul]
        exact Nat.pow_lt_pow_right (by decide) (by omega)
      have hlt : (bs.getD (i / 8) 0).val ^^^ (1 <<< (i % 8)) < 256 :=
        Nat.xor_lt_two_pow (Fin.isLt _) hp
      have hg : (flipBit bs i).getD (i / 8) 0
          = byte ((bs.getD (i / 8) 0).val ^^^ (1 <<< (i % 8))) := by
        unfold flipBit
        rw [List.getD_eq_getElem?_getD, List.getElem?_set_self hl]
        rfl
      rw [hb, hg]
      show (((bs.getD (i / 8) 0).val ^^^ (1 <<< (i % 8))) % 256).testBit (j % 8) = _
      rw [Nat.mod_eq_of_lt hlt, Nat.testBit_xor, Nat.shiftLeft_eq, Nat.one_mul,
        Nat.testBit_two_pow_of_ne hk, Bool.xor_false]
    · have : flipBit bs i = bs := by
        unfold flipBit
        rw [List.set_eq_take_append_cons_drop, if_neg hl]
      rw [this]
  · rw [flipBit_getD_ne bs i (j / 8) hb]

theorem land_flipBit (bs : List Byte) (i M : Nat) (hM : M.testBit i = false) :
    LE (flipBit bs i) &&& M = LE bs &&& M := by
  apply Nat.eq_of_testBit_eq
  intro j
  rw [Nat.testBit_land, Nat.testBit_land]
  by_cases hij : j = i
  · subst hij
    rw [hM, Bool.and_false, Bool.and_false]
  · rw [LE_flipBit_testBit bs i j hij]

theorem flipBit_take_low (bs : List Byte) (i n : Nat) (hn : i < 8 * n) :
    (flipBit bs i).take n = flipBit (bs.take n) i := by
  unfold flipBit
  rw [List.set_take]
  congr 3
  simp only [List.getD_eq_getElem?_getD]
  rw [List.getElem?_take_of_lt (by omega)]

theorem Reduced_val_inj (a b : Limbs5) (ha : a.Reduced) (hb : b.Reduced)
    (h : a.val = b.val) : a = b := by
  obtain ⟨a0, a1, a2, a3, a4⟩ := a
  obtain ⟨b0, b1, b2, b3, b4⟩ := b
  obtain ⟨x0, x1, x2, x3, x4⟩ := ha
  obtain ⟨y0, y1, y2, y3, y4⟩ := hb
  simp only [Limbs5.val] at h
  simp only at x0 x1 x2 x3 x4 y0 y1 y2 y3 y4
  simp only [Limbs5.mk.injEq]
  refine ⟨?_, ?_, ?_, ?_, ?_⟩ <;> omega

theorem rOf_flipBit (key : List Byte) (i : Nat) (hk : key.length = 32) (hi : i < 128)
    (hM : clampMask.testBit i = false) : rOf (flipBit key i) = rOf key := by
  have hk' : (flipBit key i).length = 32 := by rw [flipBit_length, hk]
  obtain ⟨r1, v1⟩ := rOf_spec key (by omega)
  obtain ⟨r2, v2⟩ := rOf_spec (flipBit key i) (by omega)
  apply Reduced_val_inj _ _ r2 r1
  rw [v1, v2, flipBit_take_low key i 16 (by omega), land_flipBit _ i _ hM]

theorem padOf_flipBit (key : List Byte) (i : Nat) (hi : i < 128) :
    padOf (flipBit key i) = padOf key := by
  have g : ∀ t, 16 ≤ t → (flipBit key i).getD t 0 = key.getD t 0 :=
    fun t ht => flipBit_getD_ne key i t (by omega)
  simp only [padOf, le32At, g 16 (by omega), g 17 (by omega), g 18 (by omega), g 19 (by omega),
    g 20 (by omega), g 21 (by omega), g 22 (by omega), g 23 (by omega), g 24 (by omega),
    g 25 (by omega), g 26 (by omega), g 27 (by omega), g 28 (by omega), g 29 (by omega),
    g 30 (by omega), g 31 (by omega)]

theorem streamTag_flipBit_clamped (key m : List Byte) (i : Nat) (hk : key.length = 32)
    (hi : i < 128) (hM : clampMask.testBit i = false) :
    streamTag (flipBit key i) m = streamTag key m := by
  unfold streamTag
  rw [rOf_flipBit key i hk hi hM, padOf_flipBit key i hi]

/-- The 22 bit positions of the first key half that the clamp mask clears. -/
theorem clampMask_cleared_bits :
    ∀ i, i < 128 → (clampMask.testBit i = false ↔
      i ∈ [28, 29, 30, 31, 32, 33, 60, 61, 62, 63, 64, 65, 92, 93, 94, 95, 96, 97,
        124, 125, 126, 127]) := by
  decide

theorem specAcc_zero (blocks : List (List Byte)) : specAcc 0 blocks = 0 := by
  unfold specAcc
  have : ∀ (l : List (List Byte)) (a : Nat), a = 0 → l.foldl (polyStep 0) a = 0 := by
    intro l
    induction l with
    | nil => intro a ha; simpa using ha
    | cons b bs ih =>
      intro a _
      rw [List.foldl_cons]
      exact ih _ (by simp [polyStep])
  exact this blocks 0 rfl

theorem Init_ok_length (st0 st : Poly1305) (key : List Byte) (h : st0.Init key = .ok st) :
    key.length = 32 := by
  by_contra hk
  rw [Init_bad st0 key hk] at h
  cases h

theorem New_ok (key : List Byte) (st : Poly1305) (e : Option GoError)
    (h : New key = .ok (some st, e)) :
    key.length = 32 ∧ Poly1305.zero.Init key = .ok st := by
  by_cases hk : key.length = 32
  · refine ⟨hk, ?_⟩
    have hi := Init_spec Poly1305.zero key hk
    have hc : ¬ ((key.length : Int) ≠ KeySize) := by
      show ¬ ((key.length : Int) ≠ 32)
      omega
    simp only [New, hc, if_false, hi, bind, Except.bind, pure, Except.pure, Except.ok.injEq,
      Prod.mk.injEq, Option.some.injEq] at h
    rw [hi, h.1]
  · rw [New_bad key hk] at h
    cases h

theorem Keyed_Init (st : Poly1305) (hs : Keyed st) :
    ∃ (st0 : Poly1305) (key : List Byte), key.length = 32 ∧
      st = { st0 with r := rOf key, h := ⟨0, 0, 0, 0, 0⟩, pad := padOf key, leftover := 0, final := false } := by
  rcases hs with ⟨key, e, h⟩ | ⟨st0, key, h⟩
  · obtain ⟨hk, hi⟩ := New_ok key st e h
    rw [Init_spec _ key hk] at hi
    exact ⟨Poly1305.zero, key, hk, (Except.ok.inj hi).symm⟩
  · have hk := Init_ok_length st0 st key h
    rw [Init_spec _ key hk] at h
    exact ⟨st0, key, hk, (Except.ok.inj h).symm⟩

theorem Carried_zero : (⟨0, 0, 0, 0, 0⟩ : Limbs5).Carried := by
  refine ⟨?_, ?_, ?_, ?_, ?_⟩ <;> decide

theorem Keyed_Wf (st : Poly1305) (hs : Keyed st) : st.Wf := by
  obtain ⟨st0, key, hk, rfl⟩ := Keyed_Init st hs
  exact ⟨(rOf_spec key (by omega)).1, Carried_zero, rfl, Int.le_refl 0, show (0 : Int) < 16 by decide⟩

theorem WriteStep_Wf (st st' : Poly1305) (hw : st.Wf) (hs : WriteStep st st') : st'.Wf := by
  obtain ⟨hr, hc, hf, h0, h1⟩ := hw
  obtain ⟨p, n, e, hp⟩ := hs
  obtain ⟨st2, hw2, e1, _, e3, e4, e5, _⟩ := Write_spec st p h0 h1
  rw [hw2] at hp
  simp only [Except.ok.injEq, Prod.mk.injEq] at hp
  obtain ⟨rfl, _⟩ := hp
  refine ⟨by rw [e1]; exact hr, ?_, by rw [e3]; exact hf, by rw [e5]; omega, by rw [e5]; omega⟩
  rw [e4, hf]
  exact (absorb_spec st.r hr _ st.h _ (by omega) hc).1

theorem ReachW_Wf (st : Poly1305) (h : ReachW st) : st.Wf := by
  induction h with
  | start st hs => exact Keyed_Wf st hs
  | step st st' _ hs ih => exact WriteStep_Wf st st' ih hs

theorem Sum_ok_state (st : Poly1305) (b : List Byte) (st' : Poly1305) (out : List Byte)
    (h : st.Sum b = .ok (st', out)) : st' = st := by
  cases hf : st.finish with
  | error e =>
    simp only [Poly1305.Sum, hf, bind, Except.bind] at h
    cases h
  | ok v =>
    simp only [Poly1305.Sum, hf, bind, Except.bind, pure, Except.pure, Except.ok.injEq,
      Prod.mk.injEq] at h
    exact h.1.symm

theorem Init_ok_leftover (st0 st : Poly1305) (key : List Byte) (h : st0.Init key = .ok st) :
    st.leftover = 0 := by
  have hk := Init_ok_length st0 st key h
  rw [Init_spec _ key hk] at h
  rw [← Except.ok.inj h]

theorem Started_leftover (st : Poly1305) (hs : Started st) : st.leftover = 0 := by
  rcases hs with rfl | ⟨key, e, h⟩ | ⟨st0, key, h⟩
  · rfl
  · exact Init_ok_leftover _ _ key (New_ok key st e h).2
  · exact Init_ok_leftover _ _ key h

theorem Step_leftover (st st' : Poly1305) (h0 : 0 ≤ st.leftover) (h1 : st.leftover ≤ 15)
    (hs : Step st st') : 0 ≤ st'.leftover ∧ st'.leftover ≤ 15 := by
  rcases hs with ⟨p, n, e, hp⟩ | ⟨b, out, hb⟩ | rfl | ⟨key, hi⟩
  · obtain ⟨st2, hw2, _, _, _, _, e5, _⟩ := Write_spec st p h0 (by omega)
    rw [hw2] at hp
    simp only [Except.ok.injEq, Prod.mk.injEq] at hp
    obtain ⟨rfl, _⟩ := hp
    rw [e5]
    omega
  · rw [Sum_ok_state st b st' out hb]
    exact ⟨h0, h1⟩
  · exact ⟨h0, h1⟩
  · rw [Init_ok_leftover st st' key hi]
    exact ⟨by decide, by decide⟩

theorem Reach_leftover (st : Poly1305) (h : Reach st) : 0 ≤ st.leftover ∧ st.leftover ≤ 15 := by
  induction h with
  | start st hs =>
    rw [Started_leftover st hs]
    exact ⟨by decide, by decide⟩
  | step st st' _ hs ih => exact Step_leftover st st' ih.1 ih.2 hs

theorem hibitOf_cases (fin : Bool) : hibitOf fin = 0 ∨ hibitOf fin = 2 ^ 24 := by
  cases fin
  · exact Or.inr (by decide)
  · exact Or.inl rfl

theorem blocks_one (st : Poly1305) (B : List Byte) (hB : B.length = 16) :
    st.blocks B 16 = .ok { st with h := absorbBlock st.r (hibitOf st.final) st.h B } := by
  have h := blocks_eq st B 16 (by omega)
  have ht : B.take 16 = B := List.take_of_length_le (by omega)
  have ha : absorb st.r (hibitOf st.final) (16 / 16) st.h B
      = absorbBlock st.r (hibitOf st.final) st.h B := by
    show absorbBlock st.r (hibitOf st.final) st.h (B.take 16) = _
    rw [ht]
  rw [ha] at h
  exact h

theorem blocks_one_spec (st : Poly1305) (hr : st.r.Reduced) (hc : st.h.Carried)
    (B : List Byte) (hB : B.length = 16) :
    ∃ st', st.blocks B 16 = .ok st' ∧ st'.h.Carried ∧
      st'.h.val % P = ((st.h.val + LE B + (if st.final then 0 else 2 ^ 128)) * st.r.val) % P ∧
      st'.r = st.r ∧ st'.pad = st.pad ∧ st'.leftover = st.leftover ∧ st'.buffer = st.buffer ∧
      st'.final = st.final := by
  refine ⟨_, blocks_one st B hB, ?_, ?_, rfl, rfl, rfl, rfl, rfl⟩
  · have := (absorbBlock_spec st.r st.h (hibitOf st.final) B (by omega)
      (hibitOf_cases st.final) hr hc).1
    rw [List.take_of_length_le (by omega)] at this
    exact this
  · have := (absorbBlock_spec st.r st.h (hibitOf st.final) B (by omega)
      (hibitOf_cases st.final) hr hc).2
    rw [List.take_of_length_le (by omega)] at this
    show (absorbBlock st.r (hibitOf st.final) st.h B).val % P = _
    rw [this]
    cases st.final
    · have : hibitOf false * 2 ^ 104 = 2 ^ 128 := by decide
      simp only [this, Bool.false_eq_true, if_false, Nat.add_assoc]
    · have : hibitOf true * 2 ^ 104 = 0 := by decide
      simp only [this, if_true, Nat.add_assoc]

theorem absorb_split (r : Limbs5) (hb : Nat) (h : Limbs5) (D b : List Byte) :
    absorb r hb ((D ++ b).length / 16) h (D ++ b)
      = absorb r hb ((D.drop (16 * (D.length / 16)) ++ b).length / 16)
          (absorb r hb (D.length / 16) h D) (D.drop (16 * (D.length / 16)) ++ b) := by
  have hl : (D.drop (16 * (D.length / 16)) ++ b).length = D.length % 16 + b.length := by
    rw [List.length_append, List.length_drop]; omega
  have hq : (D ++ b).length / 16
      = D.length / 16 + (D.drop (16 * (D.length / 16)) ++ b).length / 16 := by
    rw [hl, List.length_append]; omega
  have hd : (D ++ b).drop (16 * (D.length / 16)) = D.drop (16 * (D.length / 16)) ++ b :=
    List.drop_append_of_le_length (by omega)
  rw [hq, absorb_add, hd, absorb_append r hb (D.length / 16) _ D b (by omega)]

theorem sumChunks_eq (key : List Byte) (chunks : List (List Byte)) (hk : key.length = 32) :
    sumChunks key chunks = .ok (streamTag key chunks.flatten) := by
  obtain ⟨st, hn, a0⟩ := New_spec key hk
  obtain ⟨st1, hw, a1⟩ := Absorbed_writeAll key chunks [] st a0
  have hs := Absorbed_Sum key ([] ++ chunks.flatten) [] st1 a1
  simp only [sumChunks, hn, hw, hs, bind, Except.bind, pure, Except.pure, List.nil_append]

theorem initChunks_eq (st : Poly1305) (key : List Byte) (chunks : List (List Byte))
    (hk : key.length = 32) :
    initChunks st key chunks = .ok (streamTag key chunks.flatten) := by
  obtain ⟨st0, hn, a0⟩ := Absorbed_Init st key hk
  obtain ⟨st1, hw, a1⟩ := Absorbed_writeAll key chunks [] st0 a0
  have hs := Absorbed_Sum key ([] ++ chunks.flatten) [] st1 a1
  simp only [initChunks, hn, hw, hs, bind, Except.bind, pure, Except.pure, List.nil_append]

theorem Verify_of_Sum (tag m key : List Byte) (h : Sum m key = .ok tag) :
    Verify tag m key = .ok true := by
  simp only [Verify, h, bind, Except.bind, pure, Except.pure,
    (ConstantTimeCompare_eq_one tag tag).mpr rfl, decide_True]

theorem finish_ok_cleared (st st' : Poly1305) (mac : List Byte)
    (h : st.finish = .ok (st', mac)) :
    st'.h = ⟨0, 0, 0, 0, 0⟩ ∧ st'.r = ⟨0, 0, 0, 0, 0⟩ ∧ st'.pad = ⟨0, 0, 0, 0⟩ := by
  unfold Poly1305.finish at h
  simp only [bind, Except.bind, pure, Except.pure] at h
  split at h
  · cases h
  · simp only [Except.ok.injEq, Prod.mk.injEq] at h
    rw [← h.1]
    exact ⟨rfl, rfl, rfl⟩

theorem ReachW_limbState : ReachW limbState :=
  ReachW.start limbState (Or.inl ⟨limbKey, none, rfl⟩)

theorem ReachW_limbAfter : ReachW limbAfter :=
  ReachW.step limbState limbAfter ReachW_limbState ⟨limbBlock, 16, none, rfl⟩

theorem totalTags_succ (n : Nat) :
    totalTags (n + 1)
      = totalTags n ++ specTag (List.replicate 32 (byte n)) (List.replicate n (byte n)) := by
  simp [totalTags, List.range_succ]

theorem totalStep_spec (i : Nat) (st : Poly1305) (ha : Absorbed totalKey (totalTags i) st) :
    ∃ s', totalStep (i : Int) st = .ok s' ∧ Absorbed totalKey (totalTags (i + 1)) s' := by
  have hs := Sum_eq_specTag (List.replicate i (byte i)) (List.replicate 32 (byte i))
    (List.length_replicate 32 (byte i))
  obtain ⟨s', hw, a1⟩ := Absorbed_Write totalKey (totalTags i)
    (specTag (List.replicate 32 (byte i)) (List.replicate i (byte i))) st ha
  refine ⟨s', ?_, by rw [totalTags_succ]; exact a1⟩
  simp only [totalStep, Int.toNat_ofNat, hs, hw, bind, Except.bind, pure, Except.pure]

theorem totalRun_eq (key : List Byte) (body : Int → Poly1305 → Go Poly1305)
    (st0 st1 st2 : Poly1305) (tag : List Byte) (hn : New key = .ok (some st0, none))
    (hl : forRange body 0 256 st0 = .ok st1) (hs : st1.Sum [] = .ok (st2, tag)) :
    totalRun key body = .ok tag := by
  simp only [totalRun, hn, hl, hs, bind, Except.bind, pure, Except.pure]

theorem testTotal_spec : testTotal = .ok (specTag totalKey (totalTags 256)) := by
  have hk : totalKey.length = 32 := by decide
  obtain ⟨st0, hn, a0⟩ := New_spec totalKey hk
  obtain ⟨st1, hl, a1⟩ := forRange_inv totalStep 0 256
    (fun i st => Absorbed totalKey (totalTags i) st)
    (fun i st _ ha => totalStep_spec i st ha) st0 (Nat.zero_le 256) a0
  have hs := Absorbed_Sum totalKey (totalTags 256) [] st1 a1
  rw [streamTag_eq_specTag totalKey _ hk, List.nil_append] at hs
  simp only [Nat.cast_ofNat, Nat.cast_zero] at hl
  exact totalRun_eq totalKey totalStep st0 st1 st1 _ hn hl hs

theorem LE_replicate (b : Byte) (n : Nat) : LE (List.replicate n b) = repLE b.val n := by
  induction n with
  | zero => rfl
  | succ n ih =>
    show b.val + 256 * LE (List.replicate n b) = b.val + 256 * repLE b.val n
    rw [ih]

theorem firstBlocks_replicate (b : Byte) :
    ∀ (n i : Nat), 16 * n ≤ i →
      firstBlocks n (List.replicate i b) = List.replicate n (List.replicate 16 b) := by
  intro n
  induction n with
  | zero => intro i _; rfl
  | succ n ih =>
    intro i hi
    show (List.replicate i b).take 16 :: firstBlocks n ((List.replicate i b).drop 16) = _
    rw [List.take_replicate, List.drop_replicate, ih (i - 16) (by omega),
      Nat.min_eq_left (by omega)]
    rfl

theorem foldl_polyStep_replicate (r : Nat) (blk : List Byte) :
    ∀ (n acc : Nat), (List.replicate n blk).foldl (polyStep r) acc
      = repAcc r (LE blk + 2 ^ (8 * blk.length)) n acc := by
  intro n
  induction n with
  | zero => intro acc; rfl
  | succ n ih =>
    intro acc
    show (List.replicate n blk).foldl (polyStep r) (polyStep r acc blk) = _
    rw [ih]
    rfl

theorem repTag_spec (i : Nat) :
    specTag (List.replicate 32 (byte i)) (List.replicate i (byte i))
      = leBytes 16 (repTag i) := by
  have hb : (byte i).val = i % 256 := rfl
  have h1 : (List.replicate 32 (byte i)).take 16 = List.replicate 16 (byte i) := by
    rw [List.take_replicate]; rfl
  have h2 : ((List.replicate 32 (byte i)).drop 16).take 16 = List.replicate 16 (byte i) := by
    rw [List.drop_replicate, List.take_replicate]; rfl
  have h3 : (List.replicate i (byte i)).drop (16 * (i / 16))
      = List.replicate (i % 16) (byte i) := by
    rw [List.drop_replicate]
    congr 1
    omega
  unfold specTag specAcc repTag
  rw [h1, h2, specBlocks_shape, List.length_replicate, h3,
    firstBlocks_replicate (byte i) (i / 16) i (by omega), List.foldl_append,
    foldl_polyStep_replicate, LE_replicate, List.length_replicate, hb]
  by_cases hz : i % 16 = 0
  · simp only [hz, if_true, List.foldl_nil]
  · simp only [hz, if_false, List.foldl_cons, List.foldl_nil, polyStep, LE_replicate,
      List.length_replicate, hb]

theorem specBlocksAux_flatten16 :
    ∀ (L : List (List Byte)) (fuel : Nat), L.length ≤ fuel → (∀ x ∈ L, x.length = 16) →
      specBlocksAux fuel L.flatten = L := by
  intro L
  induction L with
  | nil =>
    intro fuel _ _
    cases fuel <;> rfl
  | cons x xs ih =>
    intro fuel hf hx
    obtain ⟨f, rfl⟩ : ∃ f, fuel = f + 1 := ⟨fuel - 1, by simp at hf; omega⟩
    have hx16 : x.length = 16 := hx x (List.mem_cons_self _ _)
    have hne : (x ++ xs.flatten).isEmpty = false := by
      cases x with
      | nil => simp at hx16
      | cons a t => rfl
    have ht : (x ++ xs.flatten).take 16 = x := by
      rw [List.take_append_of_le_length (by omega), List.take_of_length_le (by omega)]
    have hd : (x ++ xs.flatten).drop 16 = xs.flatten := by
      rw [← hx16]; exact List.drop_left _ _
    show specBlocksAux (f + 1) (x ++ xs.flatten) = _
    simp only [specBlocksAux, hne, ht, hd, Bool.false_eq_true, if_false]
    rw [ih f (by simp at hf; omega) (fun y hy => hx y (List.mem_cons_of_mem _ hy))]

theorem specBlocks_flatten16 (L : List (List Byte)) (hL : ∀ x ∈ L, x.length = 16) :
    specBlocks L.flatten = L := by
  unfold specBlocks
  refine specBlocksAux_flatten16 L _ ?_ hL
  have : L.flatten.length = 16 * L.length := by
    induction L with
    | nil => rfl
    | cons x xs ih =>
      rw [List.flatten_cons, List.length_append, ih (fun y hy => hL y (List.mem_cons_of_mem _ hy)),
        hL x (List.mem_cons_self _ _), List.length_cons]
      omega
  omega

theorem specTag_flatten16 (key : List Byte) (L : List (List Byte))
    (hL : ∀ x ∈ L, x.length = 16) :
    specTag key L.flatten
      = leBytes 16 ((L.foldl (polyStep (LE (key.take 16) &&& clampMask)) 0
          + LE ((key.drop 16).take 16)) % 2 ^ 128) := by
  unfold specTag specAcc
  rw [specBlocks_flatten16 L hL]

theorem totalTags_eq (n : Nat) :
    totalTags n = ((List.range n).map (fun i => leBytes 16 (repTag i))).flatten := by
  unfold totalTags
  simp only [repTag_spec]

theorem totalTags_tag : specTag totalKey (totalTags 256) = totalTag := by
  have hL : ∀ x ∈ (List.range 256).map (fun i => leBytes 16 (repTag i)), x.length = 16 := by
    intro x hx
    obtain ⟨i, _, rfl⟩ := List.mem_map.mp hx
    exact leBytes_length _ _
  rw [totalTags_eq, specTag_flatten16 totalKey _ hL, List.foldl_map, totalTag]

theorem totalTag_eq : totalTag = totalMac := by
  decide!

theorem testTotal_eq : testTotal = .ok totalMac := by
  rw [testTotal_spec, totalTags_tag, totalTag_eq]

theorem fits_some (w x : Nat) (h : x < 2 ^ w) : fits w x = some x := if_pos h

theorem dot5Checked_eq (a1 b1 a2 b2 a3 b3 a4 b4 a5 b5 : Nat)
    (h1 : a1 * b1 < 2 ^ 61) (h2 : a2 * b2 < 2 ^ 61) (h3 : a3 * b3 < 2 ^ 61)
    (h4 : a4 * b4 < 2 ^ 61) (h5 : a5 * b5 < 2 ^ 61) :
    dot5Checked a1 b1 a2 b2 a3 b3 a4 b4 a5 b5
      = some (a1 * b1 + a2 * b2 + a3 * b3 + a4 * b4 + a5 * b5) := by
  unfold dot5Checked
  generalize a1 * b1 = p1 at *
  generalize a2 * b2 = p2 at *
  generalize a3 * b3 = p3 at *
  generalize a4 * b4 = p4 at *
  generalize a5 * b5 = p5 at *
  simp only [Option.bind_eq_bind, Option.some_bind,
    fits_some 64 p1 (by omega), fits_some 64 p2 (by omega), fits_some 64 p3 (by omega),
    fits_some 64 p4 (by omega), fits_some 64 p5 (by omega),
    fits_some 64 (p1 + p2) (by omega), fits_some 64 (p1 + p2 + p3) (by omega),
    fits_some 64 (p1 + p2 + p3 + p4) (by omega),
    fits_some 64 (p1 + p2 + p3 + p4 + p5) (by omega)]

theorem fits_bind {β : Type} (w x : Nat) (h : x < 2 ^ w) (f : Nat → Option β) :
    (fits w x >>= f) = f x := by
  rw [fits_some w x h]
  rfl

theorem dot5Checked_bind {β : Type} (a1 b1 a2 b2 a3 b3 a4 b4 a5 b5 : Nat)
    (h1 : a1 * b1 < 2 ^ 61) (h2 : a2 * b2 < 2 ^ 61) (h3 : a3 * b3 < 2 ^ 61)
    (h4 : a4 * b4 < 2 ^ 61) (h5 : a5 * b5 < 2 ^ 61) (f : Nat → Option β) :
    (dot5Checked a1 b1 a2 b2 a3 b3 a4 b4 a5 b5 >>= f)
      = f (a1 * b1 + a2 * b2 + a3 * b3 + a4 * b4 + a5 * b5) := by
  rw [dot5Checked_eq a1 b1 a2 b2 a3 b3 a4 b4 a5 b5 h1 h2 h3 h4 h5]
  rfl

theorem carryChecked_eq (d0 d1 d2 d3 d4 : Nat)
    (h0 : d0 ≤ 21 * ((2 ^ 27 + 64) * 2 ^ 26)) (h1 : d1 ≤ 21 * ((2 ^ 27 + 64) * 2 ^ 26))
    (h2 : d2 ≤ 21 * ((2 ^ 27 + 64) * 2 ^ 26)) (h3 : d3 ≤ 21 * ((2 ^ 27 + 64) * 2 ^ 26))
    (h4 : d4 ≤ 5 * ((2 ^ 27 + 64) * 2 ^ 26)) :
    carryChecked d0 d1 d2 d3 d4 = some (carry5 d0 d1 d2 d3 d4) := by
  have c0 : u32 (d0 / 2 ^ 26) = d0 / 2 ^ 26 := by
    rw [u32]; omega
  have e1 : add64 d1 (d0 / 2 ^ 26) = d1 + d0 / 2 ^ 26 := by
    rw [add64]; omega
  have c1 : u32 ((d1 + d0 / 2 ^ 26) / 2 ^ 26) = (d1 + d0 / 2 ^ 26) / 2 ^ 26 := by
    rw [u32]; omega
  generalize hx1 : d1 + d0 / 2 ^ 26 = x1 at *
  have e2 : add64 d2 (x1 / 2 ^ 26) = d2 + x1 / 2 ^ 26 := by
    rw [add64]; omega
  have c2 : u32 ((d2 + x1 / 2 ^ 26) / 2 ^ 26) = (d2 + x1 / 2 ^ 26) / 2 ^ 26 := by
    rw [u32]; omega
  generalize hx2 : d2 + x1 / 2 ^ 26 = x2 at *
  have e3 : add64 d3 (x2 / 2 ^ 26) = d3 + x2 / 2 ^ 26 := by
    rw [add64]; omega
  have c3 : u32 ((d3 + x2 / 2 ^ 26) / 2 ^ 26) = (d3 + x2 / 2 ^ 26) / 2 ^ 26 := by
    rw [u32]; omega
  generalize hx3 : d3 + x2 / 2 ^ 26 = x3 at *
  have e4 : add64 d4 (x3 / 2 ^ 26) = d4 + x3 / 2 ^ 26 := by
    rw [add64]; omega
  have c4 : u32 ((d4 + x3 / 2 ^ 26) / 2 ^ 26) = (d4 + x3 / 2 ^ 26) / 2 ^ 26 := by
    rw [u32]; omega
  generalize hx4 : d4 + x3 / 2 ^ 26 = x4 at *
  have m5 : mul32 (x4 / 2 ^ 26) 5 = x4 / 2 ^ 26 * 5 := by
    rw [mul32]; omega
  have a0 : add32 (d0 % 2 ^ 26) (x4 / 2 ^ 26 * 5) = d0 % 2 ^ 26 + x4 / 2 ^ 26 * 5 := by
    rw [add32]; omega
  generalize hy : d0 % 2 ^ 26 + x4 / 2 ^ 26 * 5 = y at *
  have a1 : add32 (x1 % 2 ^ 26) (y / 2 ^ 26) = x1 % 2 ^ 26 + y / 2 ^ 26 := by
    rw [add32]; omega
  have hc : carry5 d0 d1 d2 d3 d4 =
      ⟨y % 2 ^ 26, x1 % 2 ^ 26 + y / 2 ^ 26, x2 % 2 ^ 26, x3 % 2 ^ 26, x4 % 2 ^ 26⟩ := by
    simp only [carry5, land_mask26, Nat.shiftRight_eq_div_pow, u32_mod26, c0, e1, c1, e2, c2,
      e3, c3, e4, c4, m5, a0, a1]
  rw [hc]
  unfold carryChecked
  simp only [land_mask26, Nat.shiftRight_eq_div_pow, u32_mod26]
  rw [fits_bind 32 (d0 / 2 ^ 26) (by omega), hx1, fits_bind 64 x1 (by omega),
    fits_bind 32 (x1 / 2 ^ 26) (by omega), hx2, fits_bind 64 x2 (by omega),
    fits_bind 32 (x2 / 2 ^ 26) (by omega), hx3, fits_bind 64 x3 (by omega),
    fits_bind 32 (x3 / 2 ^ 26) (by omega), hx4, fits_bind 64 x4 (by omega),
    fits_bind 32 (x4 / 2 ^ 26) (by omega), fits_bind 32 (x4 / 2 ^ 26 * 5) (by omega), hy,
    fits_bind 32 y (by omega), fits_bind 32 (x1 % 2 ^ 26 + y / 2 ^ 26) (by omega)]
  rfl

theorem blockStepChecked_eq (r h : Limbs5) (hibit : Nat) (B : List Byte) (hB : B.length = 16)
    (hh : hibit = 0 ∨ hibit = 2 ^ 24) (hr : r.Reduced) (hc : h.Carried) :
    blockStepChecked r hibit h B = some (absorbBlock r hibit h B) := by
  obtain ⟨l0, l1, l2, l3, l4, _⟩ := blockLimbs_spec hibit B (by omega) hh
  rw [List.take_of_length_le (by omega)] at l0 l1 l2 l3 l4
  unfold absorbBlock blockStepChecked
  simp only [blockLimbs] at l0 l1 l2 l3 l4 ⊢
  generalize le32At B 0 &&& 0x3ffffff = m0 at *
  generalize (le32At B 3 >>> 2) &&& 0x3ffffff = m1 at *
  generalize (le32At B 6 >>> 4) &&& 0x3ffffff = m2 at *
  generalize (le32At B 9 >>> 6) &&& 0x3ffffff = m3 at *
  generalize (le32At B 12 >>> 8) ||| hibit = m4 at *
  obtain ⟨r0, r1, r2, r3, r4⟩ := r
  obtain ⟨h0, h1, h2, h3, h4⟩ := h
  obtain ⟨hr0, hr1, hr2, hr3, hr4⟩ := hr
  obtain ⟨hc0, hc1, hc2, hc3, hc4⟩ := hc
  simp only at hr0 hr1 hr2 hr3 hr4 hc0 hc1 hc2 hc3 hc4 ⊢
  have q0 : add32 h0 m0 = h0 + m0 := by rw [add32]; omega
  have q1 : add32 h1 m1 = h1 + m1 := by rw [add32]; omega
  have q2 : add32 h2 m2 = h2 + m2 := by rw [add32]; omega
  have q3 : add32 h3 m3 = h3 + m3 := by rw [add32]; omega
  have q4 : add32 h4 m4 = h4 + m4 := by rw [add32]; omega
  have hh0 : h0 + m0 < 2 ^ 27 + 64 := by omega
  have hh1 : h1 + m1 < 2 ^ 27 + 64 := by omega
  have hh2 : h2 + m2 < 2 ^ 27 + 64 := by omega
  have hh3 : h3 + m3 < 2 ^ 27 + 64 := by omega
  have hh4 : h4 + m4 < 2 ^ 27 + 64 := by omega
  generalize h0 + m0 = a0 at *
  generalize h1 + m1 = a1 at *
  generalize h2 + m2 = a2 at *
  generalize h3 + m3 = a3 at *
  generalize h4 + m4 = a4 at *
  have b : ∀ a b : Nat, a < 2 ^ 27 + 64 → b < 2 ^ 26 → a * b ≤ (2 ^ 27 + 64) * 2 ^ 26 :=
    fun a b ha hb => Nat.mul_le_mul (Nat.le_of_lt ha) (Nat.le_of_lt hb)
  have b5 : ∀ a b : Nat, a < 2 ^ 27 + 64 → b < 2 ^ 26 →
      a * (b * 5) ≤ (2 ^ 27 + 64) * (2 ^ 26 * 5) :=
    fun a b ha hb => Nat.mul_le_mul (Nat.le_of_lt ha) (Nat.mul_le_mul (Nat.le_of_lt hb) (Nat.le_refl 5))
  have b00 := b a0 r0 hh0 hr0
  have b01 := b a0 r1 hh0 hr1
  have b02 := b a0 r2 hh0 hr2
  have b03 := b a0 r3 hh0 hr3
  have b04 := b a0 r4 hh0 hr4
  have b10 := b a1 r0 hh1 hr0
  have b11 := b a1 r1 hh1 hr1
  have b12 := b a1 r2 hh1 hr2
  have b13 := b a1 r3 hh1 hr3
  have b14 := b5 a1 r4 hh1 hr4
  have b20 := b a2 r0 hh2 hr0
  have b21 := b a2 r1 hh2 hr1
  have b22 := b a2 r2 hh2 hr2
  have b23 := b5 a2 r3 hh2 hr3
  have b24 := b5 a2 r4 hh2 hr4
  have b30 := b a3 r0 hh3 hr0
  have b31 := b a3 r1 hh3 hr1
  have b32 := b5 a3 r2 hh3 hr2
  have b33 := b5 a3 r3 hh3 hr3
  have b34 := b5 a3 r4 hh3 hr4
  have b40 := b a4 r0 hh4 hr0
  have b41 := b5 a4 r1 hh4 hr1
  have b42 := b5 a4 r2 hh4 hr2
  have b43 := b5 a4 r3 hh4 hr3
  have b44 := b5 a4 r4 hh4 hr4
  have s1 : mul32 r1 5 = r1 * 5 := Nat.mod_eq_of_lt (by omega)
  have s2 : mul32 r2 5 = r2 * 5 := Nat.mod_eq_of_lt (by omega)
  have s3 : mul32 r3 5 = r3 * 5 := Nat.mod_eq_of_lt (by omega)
  have s4 : mul32 r4 5 = r4 * 5 := Nat.mod_eq_of_lt (by omega)
  rw [mulReduce_eq_carry5]
  simp only [s1, s2, s3, s4, q0, q1, q2, q3, q4]
  rw [sum5_exact _ _ _ _ _ _ _ _ _ _ (by omega) (by omega) (by omega) (by omega) (by omega),
    sum5_exact _ _ _ _ _ _ _ _ _ _ (by omega) (by omega) (by omega) (by omega) (by omega),
    sum5_exact _ _ _ _ _ _ _ _ _ _ (by omega) (by omega) (by omega) (by omega) (by omega),
    sum5_exact _ _ _ _ _ _ _ _ _ _ (by omega) (by omega) (by omega) (by omega) (by omega),
    sum5_exact _ _ _ _ _ _ _ _ _ _ (by omega) (by omega) (by omega) (by omega) (by omega)]
  rw [fits_bind 32 (r1 * 5) (by omega), fits_bind 32 (r2 * 5) (by omega),
    fits_bind 32 (r3 * 5) (by omega), fits_bind 32 (r4 * 5) (by omega),
    fits_bind 32 a0 (by omega), fits_bind 32 a1 (by omega), fits_bind 32 a2 (by omega),
    fits_bind 32 a3 (by omega), fits_bind 32 a4 (by omega),
    dot5Checked_bind _ _ _ _ _ _ _ _ _ _ (by omega) (by omega) (by omega) (by omega) (by omega),
    dot5Checked_bind _ _ _ _ _ _ _ _ _ _ (by omega) (by omega) (by omega) (by omega) (by omega),
    dot5Checked_bind _ _ _ _ _ _ _ _ _ _ (by omega) (by omega) (by omega) (by omega) (by omega),
    dot5Checked_bind _ _ _ _ _ _ _ _ _ _ (by omega) (by omega) (by omega) (by omega) (by omega),
    dot5Checked_bind _ _ _ _ _ _ _ _ _ _ (by omega) (by omega) (by omega) (by omega) (by omega)]
  exact carryChecked_eq _ _ _ _ _ (by omega) (by omega) (by omega) (by omega) (by omega)

theorem ReachW_pad (st : Poly1305) (h : ReachW st) :
    st.pad.v0 < 2 ^ 32 ∧ st.pad.v1 < 2 ^ 32 ∧ st.pad.v2 < 2 ^ 32 ∧ st.pad.v3 < 2 ^ 32 := by
  induction h with
  | start st hs =>
    obtain ⟨st0, key, hk, rfl⟩ := Keyed_Init st hs
    exact (padOf_spec key hk).1
  | step st st' hr hs ih =>
    obtain ⟨_, _, _, h0, h1⟩ := ReachW_Wf st hr
    obtain ⟨p, n, e, hp⟩ := hs
    obtain ⟨st2, hw2, _, e2, _⟩ := Write_spec st p h0 h1
    rw [hw2] at hp
    simp only [Except.ok.injEq, Prod.mk.injEq] at hp
    obtain ⟨rfl, _⟩ := hp
    rw [e2]
    exact ih

theorem finishLimbs_Carried (r h : Limbs5) (t : List Byte) (ht : t.length < 16)
    (hr : r.Reduced) (hc : h.Carried) : (finishLimbs r h t).Carried := by
  unfold finishLimbs
  split
  · exact hc
  · have := (absorbBlock_spec r h 0 (finalBlock t) (by rw [(finalBlock_spec t ht).1])
      (Or.inl rfl) hr hc).1
    rw [List.take_of_length_le (by rw [(finalBlock_spec t ht).1])] at this
    exact this

theorem Reduced_val_lt (h : Limbs5) (hr : h.Reduced) : h.val < 2 ^ 130 := by
  obtain ⟨b0, b1, b2, b3, b4⟩ := hr
  unfold Limbs5.val
  omega

theorem pending_length (st : Poly1305) (h0 : 0 ≤ st.leftover) (h1 : st.leftover < 16) :
    (st.buffer.val.take st.leftover.toNat).length = st.leftover.toNat := by
  rw [List.length_take, st.buffer.property]
  omega

theorem selectReduced_cases (c : Limbs5) (hr : c.Reduced) :
    (c.val < 2 ^ 130 - 5 → selectReduced c = c) ∧
    (2 ^ 130 - 5 ≤ c.val → (selectReduced c).val = c.val - (2 ^ 130 - 5)) := by
  obtain ⟨sr, sv⟩ := selectReduced_spec c hr
  have hlt := Reduced_val_lt c hr
  unfold P at sv
  constructor
  · intro hc
    refine Reduced_val_inj _ _ sr hr ?_
    rw [sv]
    exact Nat.mod_eq_of_lt hc
  · intro hc
    rw [sv]
    omega

theorem Reach_final (st : Poly1305) (h : Reach st) : st.final = false := by
  induction h with
  | start st hs =>
    rcases hs with rfl | ⟨key, e, h⟩ | ⟨st0, key, h⟩
    · rfl
    · obtain ⟨hk, hi⟩ := New_ok key st e h
      rw [Init_spec _ key hk] at hi
      rw [← Except.ok.inj hi]
    · have hk := Init_ok_length st0 st key h
      rw [Init_spec _ key hk] at h
      rw [← Except.ok.inj h]
  | step st st' hr hs ih =>
    obtain ⟨h0, h1⟩ := Reach_leftover st hr
    rcases hs with ⟨p, n, e, hp⟩ | ⟨b, out, hb⟩ | rfl | ⟨key, hi⟩
    · obtain ⟨st2, hw2, _, _, e3, _⟩ := Write_spec st p h0 (by omega)
      rw [hw2] at hp
      simp only [Except.ok.injEq, Prod.mk.injEq] at hp
      obtain ⟨rfl, _⟩ := hp
      rw [e3]
      exact ih
    · rw [Sum_ok_state st b st' out hb]
      exact ih
    · exact ih
    · have hk := Init_ok_length st st' key hi
      rw [Init_spec _ key hk] at hi
      rw [← Except.ok.inj hi]

theorem Reach_partState : Reach partState :=
  Reach.step limbState partState
    (Reach.start limbState (Or.inr (Or.inl ⟨limbKey, none, rfl⟩)))
    (Or.inl ⟨[1, 2, 3], 3, none, rfl⟩)

/-! ## Claims -/

/-- C1: for every 32-byte key and every message `m`, the package-level `Sum` stores exactly
the standard Poly1305 tag, the 16-byte little-endian encoding of `(acc + s) mod 2^128`, where
`r = LE128(key[0:16]) AND 0x0ffffffc0ffffffc0ffffffc0fffffff`, `s = LE128(key[16:32])`,
`p = 2^130 - 5`, and `acc` is folded from 0 over the consecutive 16-byte blocks of `m` (the
last one 1..16 bytes long, none for the empty message) by `acc := ((acc + c_i) * r) mod p`
with `c_i = LE(block_i) + 2^(8*len(block_i))`. -/
theorem C1_Sum_is_standard_tag (key m : List Byte) (hk : key.length = 32) :
    Sum m key = .ok (leBytes 16
      (((specBlocks m).foldl
          (fun acc b => ((acc + (LE b + 2 ^ (8 * b.length)))
            * (LE (key.take 16) &&& 0x0ffffffc0ffffffc0ffffffc0fffffff)) % (2 ^ 130 - 5)) 0
        + LE ((key.drop 16).take 16)) % 2 ^ 128)) :=
  Sum_eq_specTag m key hk

/-- Witness for C1 at the wrap vector of `TestWrap`: key `02 00 .. 00`, message sixteen `ff`. -/
theorem C1_witness :
    ((2 : Byte) :: List.replicate 31 0).length = 32 ∧
    Sum (List.replicate 16 255) ((2 : Byte) :: List.replicate 31 0) = .ok (leBytes 16
      (((specBlocks (List.replicate 16 255)).foldl
          (fun acc b => ((acc + (LE b + 2 ^ (8 * b.length)))
            * (LE (((2 : Byte) :: List.replicate 31 0).take 16)
                &&& 0x0ffffffc0ffffffc0ffffffc0fffffff)) % (2 ^ 130 - 5)) 0
        + LE ((((2 : Byte) :: List.replicate 31 0).drop 16).take 16)) % 2 ^ 128)) :=
  ⟨by decide, C1_Sum_is_standard_tag _ _ (by decide)⟩

/-- C2: chunk invariance. For every 32-byte key and every list of chunks (empty chunks
allowed), `New(key)`, `Write` on each chunk in order and then `Sum(nil)` returns exactly the
16 bytes that the package-level `Sum` produces for the concatenation of the chunks. -/
theorem C2_chunk_invariance (key : List Byte) (chunks : List (List Byte))
    (hk : key.length = 32) :
    ∃ tag, Sum chunks.flatten key = .ok tag ∧ sumChunks key chunks = .ok tag ∧
      tag.length = 16 := by
  obtain ⟨st, hn, a0⟩ := New_spec key hk
  obtain ⟨st1, hw, a1⟩ := Absorbed_writeAll key chunks [] st a0
  have hs := Absorbed_Sum key ([] ++ chunks.flatten) [] st1 a1
  refine ⟨streamTag key chunks.flatten, Sum_eq_streamTag _ key hk, ?_, ?_⟩
  · simp only [sumChunks, hn, hw, hs, bind, Except.bind, pure, Except.pure, List.nil_append]
  · rw [streamTag_eq_specTag key _ hk]
    exact specTag_length _ _

/-- Witness for C2: the all-zero key and the chunks `[1,2,3]`, `[]`, `[4]`. -/
theorem C2_witness :
    (List.replicate 32 (0 : Byte)).length = 32 ∧
    ∃ tag, Sum [[1, 2, 3], [], [4]].flatten (List.replicate 32 0) = .ok tag ∧
      sumChunks (List.replicate 32 0) [[1, 2, 3], [], [4]] = .ok tag ∧ tag.length = 16 :=
  ⟨by decide, C2_chunk_invariance _ _ (by decide)⟩

/-- C3: the method `st.Sum(b)` leaves every field of `st` (`r`, `h`, `pad`, `leftover`,
`buffer`, `final`) exactly as it was before the call: whenever the call returns, the receiver
is the state `st` it started from, and for every state with `0 <= leftover < 16` the call does
return, with `b` followed by 16 bytes. -/
theorem C3_Sum_leaves_state (st : Poly1305) (b : List Byte) :
    (∀ (st' : Poly1305) (out : List Byte), st.Sum b = .ok (st', out) →
      st' = st ∧ st'.r = st.r ∧ st'.h = st.h ∧ st'.pad = st.pad ∧ st'.leftover = st.leftover ∧
        st'.buffer = st.buffer ∧ st'.final = st.final) ∧
    (0 ≤ st.leftover → st.leftover < 16 →
      ∃ mac, mac.length = 16 ∧ st.Sum b = .ok (st, b ++ mac)) := by
  constructor
  · intro st' out h
    have hst : st' = st := by
      cases hf : st.finish with
      | error e =>
        simp only [Poly1305.Sum, hf, bind, Except.bind] at h
        cases h
      | ok v =>
        simp only [Poly1305.Sum, hf, bind, Except.bind, pure, Except.pure, Except.ok.injEq,
          Prod.mk.injEq] at h
        exact h.1.symm
    subst hst
    exact ⟨rfl, rfl, rfl, rfl, rfl, rfl, rfl⟩
  · intro h0 h1
    exact ⟨_, tagOfLimbs_length _ _, Sum_method_spec st b h0 h1⟩

/-- Witness for C3 at a keyed engine with three buffered bytes. -/
theorem C3_witness :
    sampleState.Sum [9]
      = .ok (sampleState, [9, 81, 4, 3, 157, 36, 24, 72, 125, 157, 48, 81, 2, 17, 116, 10, 15]) ∧
    (sampleState = sampleState ∧ sampleState.r = sampleState.r ∧
      sampleState.h = sampleState.h ∧ sampleState.pad = sampleState.pad ∧
      sampleState.leftover = sampleState.leftover ∧ sampleState.buffer = sampleState.buffer ∧
      sampleState.final = sampleState.final) ∧
    (0 ≤ sampleState.leftover ∧ sampleState.leftover < 16) ∧
    ∃ mac, mac.length = 16 ∧ sampleState.Sum [9] = .ok (sampleState, [9] ++ mac) :=
  ⟨rfl, (C3_Sum_leaves_state sampleState [9]).1 sampleState _ rfl, ⟨by decide, by decide⟩,
    (C3_Sum_leaves_state sampleState [9]).2 (by decide) (by decide)⟩

/-- C4: peek non-interference. For every 32-byte key and all byte strings `a` and `b`, after
`New(key)` and `Write(a)` the method `Sum(nil)` returns the tag of the package-level `Sum`
over `(a, key)`, and after a further `Write(b)` a second `Sum(nil)` returns the tag of the
package-level `Sum` over `(a ++ b, key)`. -/
theorem C4_peek_non_interference (key a b : List Byte) (hk : key.length = 32) :
    ∃ t1 t2, Sum a key = .ok t1 ∧ Sum (a ++ b) key = .ok t2 ∧
      peekTwice key a b = .ok (t1, t2) := by
  obtain ⟨st, hn, a0⟩ := New_spec key hk
  obtain ⟨st1, hw1, a1⟩ := Absorbed_Write key [] a st a0
  have hs1 := Absorbed_Sum key ([] ++ a) [] st1 a1
  obtain ⟨st2, hw2, a2⟩ := Absorbed_Write key ([] ++ a) b st1 a1
  have hs2 := Absorbed_Sum key ([] ++ a ++ b) [] st2 a2
  refine ⟨streamTag key a, streamTag key (a ++ b), Sum_eq_streamTag _ key hk,
    Sum_eq_streamTag _ key hk, ?_⟩
  simp only [peekTwice, hn, hw1, hs1, hw2, hs2, bind, Except.bind, pure, Except.pure,
    List.nil_append]

/-- Witness for C4: the all-zero key, `a = [1,2,3]` and `b = [4,5]`. -/
theorem C4_witness :
    (List.replicate 32 (0 : Byte)).length = 32 ∧
    ∃ t1 t2, Sum [1, 2, 3] (List.replicate 32 0) = .ok t1 ∧
      Sum ([1, 2, 3] ++ [4, 5]) (List.replicate 32 0) = .ok t2 ∧
      peekTwice (List.replicate 32 0) [1, 2, 3] [4, 5] = .ok (t1, t2) :=
  ⟨by decide, C4_peek_non_interference _ _ _ (by decide)⟩

/-- C5: for every tag (in particular every 16-byte tag), message `m` and 32-byte key, `Sum`
produces 16 bytes `out` and `Verify(tag, m, key)` returns true if and only if `tag` is
byte-for-byte equal to `out`. -/
theorem C5_Verify_iff_tag_equal (tag m key : List Byte) (hk : key.length = 32) :
    ∃ out, Sum m key = .ok out ∧ out.length = 16 ∧
      Verify tag m key = .ok (decide (tag = out)) :=
  ⟨specTag key m, Sum_eq_specTag m key hk, specTag_length key m, Verify_spec tag m key hk⟩

/-- Witness for C5: the all-zero key, the empty message and the all-zero tag. -/
theorem C5_witness :
    (List.replicate 32 (0 : Byte)).length = 32 ∧
    ∃ out, Sum [] (List.replicate 32 0) = .ok out ∧ out.length = 16 ∧
      Verify (List.replicate 16 0) [] (List.replicate 32 0)
        = .ok (decide (List.replicate 16 0 = out)) :=
  ⟨by decide, C5_Verify_iff_tag_equal _ _ _ (by decide)⟩

/-- C6, counterexample: with the key `01 00 .. 00` (so `r = 1`) and the message `[1]`, `Sum`
gives the tag `01 01 00 .. 00`; flipping bit 31 of the key (the top bit of `key[3]`, which the
clamp clears) leaves the tag unchanged, so `Verify` on the flipped key returns true. With the
same key and the empty message the tag is all zero, and flipping bit 0 of the key (a bit of
`r` that the clamp keeps) is accepted as well. -/
theorem C6_counterexample :
    (Sum [1] ((1 : Byte) :: List.replicate 31 0) = .ok ((1 : Byte) :: 1 :: List.replicate 14 0) ∧
      flipBit ((1 : Byte) :: List.replicate 31 0) 31 = [1, 0, 0, 128] ++ List.replicate 28 0 ∧
      Verify ((1 : Byte) :: 1 :: List.replicate 14 0) [1]
        (flipBit ((1 : Byte) :: List.replicate 31 0) 31) = .ok true) ∧
    (Sum [] ((1 : Byte) :: List.replicate 31 0) = .ok (List.replicate 16 0) ∧
      flipBit ((1 : Byte) :: List.replicate 31 0) 0 = List.replicate 32 0 ∧
      Verify (List.replicate 16 0) [] (flipBit ((1 : Byte) :: List.replicate 31 0) 0)
        = .ok true) :=
  ⟨⟨rfl, rfl, rfl⟩, ⟨rfl, rfl, rfl⟩⟩

/-- C6, amended: for every 32-byte key, every message `m` and every bit position `i` among
the 256 bits of the key, with `tag` the output of `Sum` for `(m, key)` and `key'` the key with
bit `i` flipped: if `i` is one of the 128 bits of the pad half `key[16:32]` (positions
128..255) then `Verify(tag, m, key')` returns false, and if `i` is one of the bits of
`key[0:16]` that the clamp mask `0x0ffffffc0ffffffc0ffffffc0fffffff` clears then the tag is
unchanged and `Verify(tag, m, key')` returns true. -/
theorem C6_key_bit_flip (key m : List Byte) (i : Nat) (hk : key.length = 32) (hi : i < 256) :
    ∃ tag, Sum m key = .ok tag ∧
      (128 ≤ i → Verify tag m (flipBit key i) = .ok false) ∧
      (i < 128 → clampMask.testBit i = false → Verify tag m (flipBit key i) = .ok true) := by
  have hk' : (flipBit key i).length = 32 := by rw [flipBit_length, hk]
  refine ⟨specTag key m, Sum_eq_specTag m key hk, ?_, ?_⟩
  · intro h1
    rw [Verify_spec _ _ _ hk']
    have hne : specTag key m ≠ specTag (flipBit key i) m := by
      intro h
      rw [specTag_eq_iff key m (flipBit key i) m hk hk', flipBit_take key i 16 (by omega)] at h
      have hl1 := LE_lt (key.drop 16)
      have hl2 := LE_lt ((flipBit key i).drop 16)
      rw [List.length_drop] at hl1 hl2
      rw [hk] at hl1
      rw [hk'] at hl2
      norm_num at hl1 hl2
      have hs : LE (key.drop 16) = LE ((flipBit key i).drop 16) := by omega
      have hd := LE_inj _ _ (by simp only [List.length_drop, hk, hk']) hs
      have hkk : flipBit key i = key := by
        rw [← List.take_append_drop 16 (flipBit key i), ← hd, flipBit_take key i 16 (by omega),
          List.take_append_drop]
      exact flipBit_ne key i (by omega) hkk
    rw [decide_eq_false hne]
  · intro h1 hM
    rw [Verify_spec _ _ _ hk', ← streamTag_eq_specTag _ _ hk', ← streamTag_eq_specTag _ _ hk,
      streamTag_flipBit_clamped key m i hk h1 hM]
    simp

/-- Witness for C6 (amended): the all-zero key, the message `[1]`, bit 128. -/
theorem C6_witness :
    (List.replicate 32 (0 : Byte)).length = 32 ∧ 128 < 256 ∧
    ∃ tag, Sum [1] (List.replicate 32 0) = .ok tag ∧
      (128 ≤ 128 → Verify tag [1] (flipBit (List.replicate 32 0) 128) = .ok false) ∧
      (128 < 128 → clampMask.testBit 128 = false →
        Verify tag [1] (flipBit (List.replicate 32 0) 128) = .ok true) :=
  ⟨by decide, by decide, C6_key_bit_flip _ _ 128 (by decide) (by decide)⟩

/-- C7, counterexample: with the all-zero key (so `r = 0`) the tag of `[0]` is all zero, and
`Verify` accepts it for the message `[1]`, which is `[0]` with bit 0 flipped. -/
theorem C7_counterexample :
    Sum [0] (List.replicate 32 0) = .ok (List.replicate 16 0) ∧
    flipBit [0] 0 = [1] ∧
    Verify (List.replicate 16 0) (flipBit [0] 0) (List.replicate 32 0) = .ok true :=
  ⟨rfl, rfl, rfl⟩

/-- C7, amended: for every 32-byte key, every non-empty message `m` and every bit position in
`m`, if `tag` is the output of `Sum` for `(m, key)` and `m'` is `m` with that bit flipped (so
`m'` differs from `m`), then `Verify(tag, m', key)` returns true exactly when the Poly1305
accumulators of `m'` and `m` under the clamped `r` agree modulo `2^128`, and false exactly
when they differ; in particular it returns true whenever the clamped `r` is 0. -/
theorem C7_message_bit_flip (key m : List Byte) (i : Nat) (hk : key.length = 32)
    (hi : i < 8 * m.length) :
    ∃ tag, Sum m key = .ok tag ∧ flipBit m i ≠ m ∧
      Verify tag (flipBit m i) key = .ok (decide
        (specAcc (LE (key.take 16) &&& clampMask) (specBlocks (flipBit m i)) % 2 ^ 128
          = specAcc (LE (key.take 16) &&& clampMask) (specBlocks m) % 2 ^ 128)) ∧
      (LE (key.take 16) &&& clampMask = 0 → Verify tag (flipBit m i) key = .ok true) := by
  have hv : Verify (specTag key m) (flipBit m i) key = .ok (decide
      (specAcc (LE (key.take 16) &&& clampMask) (specBlocks (flipBit m i)) % 2 ^ 128
        = specAcc (LE (key.take 16) &&& clampMask) (specBlocks m) % 2 ^ 128)) := by
    rw [Verify_spec _ _ _ hk]
    congr 1
    apply decide_eq_decide.mpr
    rw [specTag_eq_iff key m key (flipBit m i) hk hk]
    omega
  refine ⟨specTag key m, Sum_eq_specTag m key hk, flipBit_ne m i hi, hv, ?_⟩
  intro hr
  rw [hv, hr, specAcc_zero, specAcc_zero]
  rfl

/-- Witness for C7 (amended): the key `01 00 .. 00`, the message `[0]`, bit 0. -/
theorem C7_witness :
    ((1 : Byte) :: List.replicate 31 0).length = 32 ∧ 0 < 8 * ([0] : List Byte).length ∧
    ∃ tag, Sum [0] ((1 : Byte) :: List.replicate 31 0) = .ok tag ∧ flipBit [0] 0 ≠ [0] ∧
      Verify tag (flipBit [0] 0) ((1 : Byte) :: List.replicate 31 0) = .ok (decide
        (specAcc (LE (((1 : Byte) :: List.replicate 31 0).take 16) &&& clampMask)
            (specBlocks (flipBit [0] 0)) % 2 ^ 128
          = specAcc (LE (((1 : Byte) :: List.replicate 31 0).take 16) &&& clampMask)
            (specBlocks [0]) % 2 ^ 128)) ∧
      (LE (((1 : Byte) :: List.replicate 31 0).take 16) &&& clampMask = 0 →
        Verify tag (flipBit [0] 0) ((1 : Byte) :: List.replicate 31 0) = .ok true) :=
  ⟨by decide, by decide, C7_message_bit_flip _ _ 0 (by decide) (by decide)⟩

/-- C8: for every byte slice `key`, `New(key)` returns no engine together with the error
`ErrInvalidKeySize` if and only if `len(key) != 32`, and it returns an engine together with a
nil error if and only if `len(key) == 32`. -/
theorem C8_New_key_size (key : List Byte) :
    (New key = .ok (none, some .ErrInvalidKeySize) ↔ key.length ≠ 32) ∧
    ((∃ h, New key = .ok (some h, none)) ↔ key.length = 32) := by
  by_cases hk : key.length = 32
  · obtain ⟨st, hn, _⟩ := New_spec key hk
    constructor
    · constructor
      · intro h
        rw [hn] at h
        cases h
      · intro h
        exact absurd hk h
    · exact ⟨fun _ => hk, fun _ => ⟨st, hn⟩⟩
  · have hn := New_bad key hk
    constructor
    · exact ⟨fun _ => hk, fun _ => hn⟩
    · constructor
      · rintro ⟨h, hh⟩
        rw [hn] at hh
        cases hh
      · intro h
        exact absurd h hk

/-- C9, counterexample: the method `Init` called with the empty key on the zero engine does
not return; it panics with `ErrInvalidKeySize`. -/
theorem C9_counterexample :
    ([] : List Byte).length ≠ 32 ∧
    Poly1305.zero.Init [] = .error (.errorValue .ErrInvalidKeySize) :=
  ⟨by decide, rfl⟩

/-- C9, amended: for every key whose length is not 32, `New(key)` reports the wrong key
length as the returned error `ErrInvalidKeySize` (no engine, no panic), while the method
`Init(key)` on any engine state panics with `ErrInvalidKeySize`. -/
theorem C9_wrong_key_length (key : List Byte) (st : Poly1305) (hk : key.length ≠ 32) :
    New key = .ok (none, some .ErrInvalidKeySize) ∧
    st.Init key = .error (.errorValue .ErrInvalidKeySize) :=
  ⟨New_bad key hk, Init_bad st key hk⟩

/-- Witness for C9 (amended): a 31-byte key on the sample engine. -/
theorem C9_witness :
    (List.replicate 31 (0 : Byte)).length ≠ 32 ∧
    New (List.replicate 31 0) = .ok (none, some .ErrInvalidKeySize) ∧
    sampleState.Init (List.replicate 31 0) = .error (.errorValue .ErrInvalidKeySize) :=
  ⟨by decide, C9_wrong_key_length _ _ (by decide)⟩

/-- C10: for every engine state with `0 <= leftover < 16` and every byte slice `p`, the
empty one included, `Write(p)` returns (no index or slice expression goes out of range) with
`n = len(p)` and a nil error. -/
theorem C10_Write_total (st : Poly1305) (p : List Byte) (h0 : 0 ≤ st.leftover)
    (h1 : st.leftover < 16) :
    ∃ st', st.Write p = .ok (st', (p.length : Int), none) := by
  obtain ⟨st', hw, _⟩ := Write_spec st p h0 h1
  exact ⟨st', hw⟩

/-- Witness for C10: the sample engine (three buffered bytes) and a 30-byte input. -/
theorem C10_witness :
    0 ≤ sampleState.leftover ∧ sampleState.leftover < 16 ∧
    ∃ st', sampleState.Write (List.replicate 30 7)
      = .ok (st', ((List.replicate 30 (7 : Byte)).length : Int), none) :=
  ⟨by decide, by decide, C10_Write_total _ _ (by decide) (by decide)⟩

/-- C11: for every engine state, `Reset` never returns normally: its outcome is always the
panic `poly1305: Reset() is not supported`, never a return, and at the moment it panics all
five limbs of `h`, all five limbs of `r` and all four words of `pad` in the engine are zero. -/
theorem C11_Reset_panics (st : Poly1305) :
    st.Reset.2 = .error (.text "poly1305: Reset() is not supported") ∧
    (∀ u : Unit, st.Reset.2 ≠ .ok u) ∧
    st.Reset.1.h = ⟨0, 0, 0, 0, 0⟩ ∧ st.Reset.1.r = ⟨0, 0, 0, 0, 0⟩ ∧
    st.Reset.1.pad = ⟨0, 0, 0, 0⟩ := by
  refine ⟨rfl, ?_, rfl, rfl, rfl⟩
  intro u h
  cases h

/-- C12: for every engine state, after `finish` has run on an engine instance, all five limbs
of `h`, all five limbs of `r` and all four words of `pad` of that instance are zero; and for
every state with `0 <= leftover < 16` the call does run to its end. -/
theorem C12_finish_zeroes (st : Poly1305) :
    (∀ (st' : Poly1305) (mac : List Byte), st.finish = .ok (st', mac) →
      st'.h = ⟨0, 0, 0, 0, 0⟩ ∧ st'.r = ⟨0, 0, 0, 0, 0⟩ ∧ st'.pad = ⟨0, 0, 0, 0⟩) ∧
    (0 ≤ st.leftover → st.leftover < 16 →
      ∃ (st' : Poly1305) (mac : List Byte), st.finish = .ok (st', mac)) := by
  constructor
  · intro st' mac h
    exact finish_ok_cleared st st' mac h
  · intro h0 h1
    obtain ⟨st', hf, _⟩ := finish_spec st h0 h1
    exact ⟨st', _, hf⟩

/-- Witness for C12 at a keyed engine with three buffered bytes. -/
theorem C12_witness :
    (0 ≤ sampleState.leftover ∧ sampleState.leftover < 16) ∧
    ∃ (st' : Poly1305) (mac : List Byte), sampleState.finish = .ok (st', mac) ∧
      st'.h = ⟨0, 0, 0, 0, 0⟩ ∧ st'.r = ⟨0, 0, 0, 0, 0⟩ ∧ st'.pad = ⟨0, 0, 0, 0⟩ := by
  obtain ⟨st', mac, h⟩ := (C12_finish_zeroes sampleState).2 (by decide) (by decide)
  exact ⟨⟨by decide, by decide⟩, st', mac, h, (C12_finish_zeroes sampleState).1 st' mac h⟩

/-- C13: leftover invariant. In every engine state reachable from `New(key)`, `Init(key)` or
the zero value through any sequence of `Write`, method `Sum`, `Clear` and `Init` calls, the
leftover count satisfies `0 <= leftover <= 15` after each call returns. -/
theorem C13_leftover_invariant (st : Poly1305) (h : Reach st) :
    0 ≤ st.leftover ∧ st.leftover ≤ 15 :=
  Reach_leftover st h

/-- Witness for C13: the engine of `New(limbKey)` after `Write` of three bytes. -/
theorem C13_witness : Reach partState ∧ 0 ≤ partState.leftover ∧ partState.leftover ≤ 15 :=
  ⟨Reach.step limbState partState
      (Reach.start limbState (Or.inr (Or.inl ⟨limbKey, none, rfl⟩)))
      (Or.inl ⟨[1, 2, 3], 3, none, rfl⟩),
    C13_leftover_invariant partState
      (Reach.step limbState partState
        (Reach.start limbState (Or.inr (Or.inl ⟨limbKey, none, rfl⟩)))
        (Or.inl ⟨[1, 2, 3], 3, none, rfl⟩))⟩

/-- C14: `Init` fully re-initializes. For every prior engine state `st` (any `h`, `r`, `pad`,
leftover, buffer contents and final flag), every 32-byte key and every sequence of `Write`
calls, `st.Init(key)` followed by those Writes and the method `Sum(nil)` returns the same tag
as a fresh `New(key)` followed by the same Writes and `Sum(nil)`; and after `Init` the
accumulator is zero, leftover is 0 and final is false. -/
theorem C14_Init_reinitializes (st : Poly1305) (key : List Byte) (chunks : List (List Byte))
    (hk : key.length = 32) :
    (∃ st1, st.Init key = .ok st1 ∧ st1.h = ⟨0, 0, 0, 0, 0⟩ ∧ st1.leftover = 0 ∧
      st1.final = false) ∧
    ∃ tag, initChunks st key chunks = .ok tag ∧ sumChunks key chunks = .ok tag :=
  ⟨⟨_, Init_spec st key hk, rfl, rfl, rfl⟩,
    _, initChunks_eq st key chunks hk, sumChunks_eq key chunks hk⟩

/-- Witness for C14: a used engine, the all-zero key and the chunks `[1,2,3]`, `[4,5]`. -/
theorem C14_witness :
    (List.replicate 32 (0 : Byte)).length = 32 ∧
    (∃ st1, sampleState.Init (List.replicate 32 0) = .ok st1 ∧ st1.h = ⟨0, 0, 0, 0, 0⟩ ∧
      st1.leftover = 0 ∧ st1.final = false) ∧
    ∃ tag, initChunks sampleState (List.replicate 32 0) [[1, 2, 3], [4, 5]] = .ok tag ∧
      sumChunks (List.replicate 32 0) [[1, 2, 3], [4, 5]] = .ok tag :=
  ⟨by decide, C14_Init_reinitializes sampleState _ _ (by decide)⟩

/-- C15: granularity independence at the state level. For every engine state `st` with
`0 <= leftover < 16` and all byte strings `a` and `b`, `Write(a)` followed by `Write(b)`
leaves the same accumulator limbs `h`, the same leftover count and the same first `leftover`
buffered bytes as a single `Write(a ++ b)` (and the same `r`, `pad` and final flag); all three
calls return. -/
theorem C15_granularity_independence (st : Poly1305) (a b : List Byte)
    (h0 : 0 ≤ st.leftover) (h1 : st.leftover < 16) :
    ∃ s1 s2 s3, st.Write a = .ok (s1, (a.length : Int), none) ∧
      s1.Write b = .ok (s2, (b.length : Int), none) ∧
      st.Write (a ++ b) = .ok (s3, ((a ++ b).length : Int), none) ∧
      s2.h = s3.h ∧ s2.leftover = s3.leftover ∧
      s2.buffer.val.take s2.leftover.toNat = s3.buffer.val.take s3.leftover.toNat ∧
      s2.r = s3.r ∧ s2.pad = s3.pad ∧ s2.final = s3.final := by
  obtain ⟨s1, w1, r1, p1, f1, a1, l1, b1⟩ := Write_spec st a h0 h1
  obtain ⟨s2, w2, r2, p2, f2, a2, l2, b2⟩ := Write_spec s1 b (by omega) (by omega)
  obtain ⟨s3, w3, r3, p3, f3, a3, l3, b3⟩ := Write_spec st (a ++ b) h0 h1
  generalize hD : st.buffer.val.take st.leftover.toNat ++ a = D at a1 l1 b1
  have hD3 : st.buffer.val.take st.leftover.toNat ++ (a ++ b) = D ++ b := by
    rw [← List.append_assoc, hD]
  rw [hD3] at a3 l3 b3
  have hk : s1.leftover.toNat = D.length % 16 := by omega
  rw [hk, b1] at a2 l2 b2
  have hl : (D.drop (16 * (D.length / 16)) ++ b).length = D.length % 16 + b.length := by
    rw [List.length_append, List.length_drop]; omega
  have hq : (D ++ b).length / 16
      = D.length / 16 + (D.drop (16 * (D.length / 16)) ++ b).length / 16 := by
    rw [hl, List.length_append]; omega
  have hr : (D ++ b).length % 16 = (D.drop (16 * (D.length / 16)) ++ b).length % 16 := by
    rw [hl, List.length_append]; omega
  have hd : (D ++ b).drop (16 * (D.length / 16)) = D.drop (16 * (D.length / 16)) ++ b :=
    List.drop_append_of_le_length (by omega)
  have k2 : s2.leftover.toNat = (D.drop (16 * (D.length / 16)) ++ b).length % 16 := by omega
  have k3 : s3.leftover.toNat = (D ++ b).length % 16 := by omega
  refine ⟨s1, s2, s3, w1, w2, w3, ?_, ?_, ?_, by rw [r2, r1, r3], by rw [p2, p1, p3],
    by rw [f2, f1, f3]⟩
  · rw [a2, a3, r1, f1, a1]
    exact (absorb_split st.r (hibitOf st.final) st.h D b).symm
  · rw [l2, l3, hr]
  · rw [k2, k3, b2, b3, hq, Nat.mul_add, ← List.drop_drop, hd]

/-- Witness for C15: one 16-byte block absorbed in two 8-byte calls and in one call. -/
theorem C15_witness :
    (0 ≤ limbState.leftover ∧ limbState.leftover < 16) ∧
    ∃ s1 s2 s3, limbState.Write (limbBlock.take 8) = .ok (s1, ((limbBlock.take 8).length : Int), none) ∧
      s1.Write (limbBlock.drop 8) = .ok (s2, ((limbBlock.drop 8).length : Int), none) ∧
      limbState.Write (limbBlock.take 8 ++ limbBlock.drop 8)
        = .ok (s3, ((limbBlock.take 8 ++ limbBlock.drop 8).length : Int), none) ∧
      s2.h = s3.h ∧ s2.leftover = s3.leftover ∧
      s2.buffer.val.take s2.leftover.toNat = s3.buffer.val.take s3.leftover.toNat ∧
      s2.r = s3.r ∧ s2.pad = s3.pad ∧ s2.final = s3.final :=
  ⟨⟨by decide, by decide⟩,
    C15_granularity_independence limbState (limbBlock.take 8) (limbBlock.drop 8)
      (by decide) (by decide)⟩

set_option maxRecDepth 100000 in
/-- C16: for each of the eleven (key, message, tag) vectors listed in `TestIETFDraft`,
package-level `Sum` produces exactly the listed tag and `Verify` on the listed tag returns
true. -/
theorem C16_IETF_vectors :
    (Sum ietfMsg1 ietfKey1 = .ok ietfTag1 ∧ Verify ietfTag1 ietfMsg1 ietfKey1 = .ok true) ∧
    (Sum ietfMsg2 ietfKey2 = .ok ietfTag2 ∧ Verify ietfTag2 ietfMsg2 ietfKey2 = .ok true) ∧
    (Sum ietfMsg3 ietfKey3 = .ok ietfTag3 ∧ Verify ietfTag3 ietfMsg3 ietfKey3 = .ok true) ∧
    (Sum ietfMsg4 ietfKey4 = .ok ietfTag4 ∧ Verify ietfTag4 ietfMsg4 ietfKey4 = .ok true) ∧
    (Sum ietfMsg5 ietfKey5 = .ok ietfTag5 ∧ Verify ietfTag5 ietfMsg5 ietfKey5 = .ok true) ∧
    (Sum ietfMsg6 ietfKey6 = .ok ietfTag6 ∧ Verify ietfTag6 ietfMsg6 ietfKey6 = .ok true) ∧
    (Sum ietfMsg7 ietfKey7 = .ok ietfTag7 ∧ Verify ietfTag7 ietfMsg7 ietfKey7 = .ok true) ∧
    (Sum ietfMsg8 ietfKey8 = .ok ietfTag8 ∧ Verify ietfTag8 ietfMsg8 ietfKey8 = .ok true) ∧
    (Sum ietfMsg9 ietfKey9 = .ok ietfTag9 ∧ Verify ietfTag9 ietfMsg9 ietfKey9 = .ok true) ∧
    (Sum ietfMsg10 ietfKey10 = .ok ietfTag10 ∧
      Verify ietfTag10 ietfMsg10 ietfKey10 = .ok true) ∧
    (Sum ietfMsg11 ietfKey11 = .ok ietfTag11 ∧
      Verify ietfTag11 ietfMsg11 ietfKey11 = .ok true) :=
  ⟨⟨rfl, Verify_of_Sum _ _ _ rfl⟩, ⟨rfl, Verify_of_Sum _ _ _ rfl⟩,
    ⟨rfl, Verify_of_Sum _ _ _ rfl⟩, ⟨rfl, Verify_of_Sum _ _ _ rfl⟩,
    ⟨rfl, Verify_of_Sum _ _ _ rfl⟩, ⟨rfl, Verify_of_Sum _ _ _ rfl⟩,
    ⟨rfl, Verify_of_Sum _ _ _ rfl⟩, ⟨rfl, Verify_of_Sum _ _ _ rfl⟩,
    ⟨rfl, Verify_of_Sum _ _ _ rfl⟩, ⟨rfl, Verify_of_Sum _ _ _ rfl⟩,
    ⟨rfl, Verify_of_Sum _ _ _ rfl⟩⟩

/-- C17: the aggregate regression vector as coded in `TestTotal`. With `t_i`, for
`i = 0..255`, the tag `Sum` produces for the message of `i` bytes all equal to `byte(i)` under
the 32-byte key whose bytes all equal `byte(i)`, an engine created by `New` on the key
`01 02 03 04 05 06 07 ff fe fd fc fb fa f9 ff .. ff 00 00 00 00` that is fed `t_0`, ..., `t_255`
by successive `Write` calls returns from `Sum(nil)` exactly
`64 af e2 e8 d6 ad 7b bd d2 87 f9 7c 44 62 3d 39`. -/
theorem C17_TestTotal :
    testTotal = .ok [0x64, 0xaf, 0xe2, 0xe8, 0xd6, 0xad, 0x7b, 0xbd,
      0xd2, 0x87, 0xf9, 0x7c, 0x44, 0x62, 0x3d, 0x39] :=
  testTotal_eq

/-- C18: clamp. For every 32-byte key, `Init(key)` returns, after it every limb `r[i]` is
below `2^26`, and the value `r[0] + r[1]*2^26 + r[2]*2^52 + r[3]*2^78 + r[4]*2^104` equals
`LE128(key[0:16]) AND 0x0ffffffc0ffffffc0ffffffc0fffffff`. -/
theorem C18_clamp (st : Poly1305) (key : List Byte) (hk : key.length = 32) :
    ∃ st', st.Init key = .ok st' ∧
      st'.r.v0 < 2 ^ 26 ∧ st'.r.v1 < 2 ^ 26 ∧ st'.r.v2 < 2 ^ 26 ∧ st'.r.v3 < 2 ^ 26 ∧
      st'.r.v4 < 2 ^ 26 ∧
      st'.r.v0 + st'.r.v1 * 2 ^ 26 + st'.r.v2 * 2 ^ 52 + st'.r.v3 * 2 ^ 78 + st'.r.v4 * 2 ^ 104
        = LE (key.take 16) &&& 0x0ffffffc0ffffffc0ffffffc0fffffff := by
  obtain ⟨⟨b0, b1, b2, b3, b4⟩, hv⟩ := rOf_spec key (by omega)
  exact ⟨_, Init_spec st key hk, b0, b1, b2, b3, b4, hv⟩

/-- Witness for C18: the key of IETF vector 4 on a used engine. -/
theorem C18_witness :
    ietfKey4.length = 32 ∧
    ∃ st', sampleState.Init ietfKey4 = .ok st' ∧
      st'.r.v0 < 2 ^ 26 ∧ st'.r.v1 < 2 ^ 26 ∧ st'.r.v2 < 2 ^ 26 ∧ st'.r.v3 < 2 ^ 26 ∧
      st'.r.v4 < 2 ^ 26 ∧
      st'.r.v0 + st'.r.v1 * 2 ^ 26 + st'.r.v2 * 2 ^ 52 + st'.r.v3 * 2 ^ 78 + st'.r.v4 * 2 ^ 104
        = LE (ietfKey4.take 16) &&& 0x0ffffffc0ffffffc0ffffffc0fffffff :=
  ⟨by decide, C18_clamp sampleState ietfKey4 (by decide)⟩

/-- C19: block step. For every engine state reachable from `New` or `Init` by Writes, every
16-byte block `B` and either value of the final flag, one iteration of `blocks` returns and
replaces the accumulator by limbs whose value `V'` satisfies
`V' = (V + LE128(B) + hi) * R (mod 2^130 - 5)`, where `V` and `R` are the radix-`2^26` values
of `h` and `r` before the step and `hi = 2^128` when final is false and `0` when final is
true; the other fields are unchanged. -/
theorem C19_block_step (st : Poly1305) (hst : ReachW st) (B : List Byte) (hB : B.length = 16)
    (fin : Bool) :
    ∃ st', Poly1305.blocks { st with final := fin } B 16 = .ok st' ∧
      st'.h.val % (2 ^ 130 - 5)
        = ((st.h.val + LE B + (if fin then 0 else 2 ^ 128)) * st.r.val) % (2 ^ 130 - 5) ∧
      st'.r = st.r ∧ st'.pad = st.pad ∧ st'.leftover = st.leftover ∧
      st'.buffer = st.buffer ∧ st'.final = fin := by
  obtain ⟨hr, hc, _, _, _⟩ := ReachW_Wf st hst
  obtain ⟨st', hb, _, hv, e1, e2, e3, e4, e5⟩ :=
    blocks_one_spec { st with final := fin } hr hc B hB
  exact ⟨st', hb, hv, e1, e2, e3, e4, e5⟩

/-- Witness for C19: the engine of `New(limbKey)`, the block `limbBlock`, final false. -/
theorem C19_witness :
    ReachW limbState ∧ limbBlock.length = 16 ∧
    ∃ st', Poly1305.blocks { limbState with final := false } limbBlock 16 = .ok st' ∧
      st'.h.val % (2 ^ 130 - 5)
        = ((limbState.h.val + LE limbBlock + (if false then 0 else 2 ^ 128))
            * limbState.r.val) % (2 ^ 130 - 5) ∧
      st'.r = limbState.r ∧ st'.pad = limbState.pad ∧ st'.leftover = limbState.leftover ∧
      st'.buffer = limbState.buffer ∧ st'.final = false :=
  ⟨ReachW_limbState, by decide,
    C19_block_step limbState ReachW_limbState limbBlock (by decide) false⟩

/-- C20 as stated fails: the engine that `New` returns for the key `03 00 .. 00`, after one
`Write` of the 16-byte block `limbBlock` (one block absorption by `blocks`), has accumulator
limb `h[1] = 2^26`, which is not strictly less than `2^26`. -/
theorem C20_counterexample :
    New limbKey = .ok (some limbState, none) ∧
    limbState.Write limbBlock = .ok (limbAfter, 16, none) ∧
    limbState.blocks limbBlock 16 = .ok limbAfter ∧
    ReachW limbAfter ∧ limbAfter.h.v1 = 2 ^ 26 ∧ ¬ (limbAfter.h.v1 < 2 ^ 26) :=
  ⟨rfl, rfl, rfl, ReachW_limbAfter, by decide, by decide⟩

/-- C20 (amended): for every engine state reachable from `New` or `Init` through `Write`
calls, the accumulator limbs `h[0]`, `h[2]`, `h[3]`, `h[4]` are strictly less than `2^26` and
`h[1]` is strictly less than `2^26 + 64`; and the same bounds hold after each further block
absorption by `blocks`, with either value of the final flag. -/
theorem C20_limb_bounds (st : Poly1305) (hst : ReachW st) :
    (st.h.v0 < 2 ^ 26 ∧ st.h.v1 < 2 ^ 26 + 64 ∧ st.h.v2 < 2 ^ 26 ∧ st.h.v3 < 2 ^ 26 ∧
      st.h.v4 < 2 ^ 26) ∧
    ∀ (B : List Byte) (fin : Bool), B.length = 16 →
      ∃ st', Poly1305.blocks { st with final := fin } B 16 = .ok st' ∧
        st'.h.v0 < 2 ^ 26 ∧ st'.h.v1 < 2 ^ 26 + 64 ∧ st'.h.v2 < 2 ^ 26 ∧ st'.h.v3 < 2 ^ 26 ∧
        st'.h.v4 < 2 ^ 26 := by
  obtain ⟨hr, hc, _, _, _⟩ := ReachW_Wf st hst
  refine ⟨hc, ?_⟩
  intro B fin hB
  obtain ⟨st', hb, hc', _⟩ := blocks_one_spec { st with final := fin } hr hc B hB
  exact ⟨st', hb, hc'⟩

/-- Witness for C20 (amended): the engine of `New(limbKey)` and the block `limbBlock`. -/
theorem C20_witness :
    ReachW limbState ∧
    (limbState.h.v0 < 2 ^ 26 ∧ limbState.h.v1 < 2 ^ 26 + 64 ∧ limbState.h.v2 < 2 ^ 26 ∧
      limbState.h.v3 < 2 ^ 26 ∧ limbState.h.v4 < 2 ^ 26) ∧
    limbBlock.length = 16 ∧
    ∃ st', Poly1305.blocks { limbState with final := false } limbBlock 16 = .ok st' ∧
      st'.h.v0 < 2 ^ 26 ∧ st'.h.v1 < 2 ^ 26 + 64 ∧ st'.h.v2 < 2 ^ 26 ∧ st'.h.v3 < 2 ^ 26 ∧
      st'.h.v4 < 2 ^ 26 :=
  ⟨ReachW_limbState, (C20_limb_bounds limbState ReachW_limbState).1, by decide,
    (C20_limb_bounds limbState ReachW_limbState).2 limbBlock false (by decide)⟩

/-- C21: for every engine state reachable from `New` or `Init` by Writes, `finish` returns,
and the full carry at its start (after the optional final block, whose result is the
accumulator `h` below) yields five limbs each below `2^26` whose radix-`2^26` value is
congruent modulo `2^130 - 5` to the accumulator value before the carry and is less than
`2 * (2^130 - 5)`. -/
theorem C21_full_carry (st : Poly1305) (hst : ReachW st) :
    ∃ (st' : Poly1305) (h : Limbs5),
      h = finishLimbs st.r st.h (st.buffer.val.take st.leftover.toNat) ∧
      st.finish = .ok (st', tagOfLimbs h st.pad) ∧
      (fullCarry h).v0 < 2 ^ 26 ∧ (fullCarry h).v1 < 2 ^ 26 ∧ (fullCarry h).v2 < 2 ^ 26 ∧
      (fullCarry h).v3 < 2 ^ 26 ∧ (fullCarry h).v4 < 2 ^ 26 ∧
      (fullCarry h).val % (2 ^ 130 - 5) = h.val % (2 ^ 130 - 5) ∧
      (fullCarry h).val < 2 * (2 ^ 130 - 5) := by
  obtain ⟨hr, hc, _, h0, h1⟩ := ReachW_Wf st hst
  obtain ⟨st', hf, _⟩ := finish_spec st h0 h1
  have hcar := finishLimbs_Carried st.r st.h (st.buffer.val.take st.leftover.toNat)
    (by rw [pending_length st h0 h1]; omega) hr hc
  obtain ⟨fr, fv⟩ := fullCarry_spec _ hcar
  have hlt := Reduced_val_lt _ fr
  obtain ⟨b0, b1, b2, b3, b4⟩ := fr
  exact ⟨st', _, rfl, hf, b0, b1, b2, b3, b4, fv, by omega⟩

/-- Witness for C21: the engine of `New(limbKey)` after one block, whose limb 1 is `2^26`. -/
theorem C21_witness :
    ReachW limbAfter ∧
    ∃ (st' : Poly1305) (h : Limbs5),
      h = finishLimbs limbAfter.r limbAfter.h
        (limbAfter.buffer.val.take limbAfter.leftover.toNat) ∧
      limbAfter.finish = .ok (st', tagOfLimbs h limbAfter.pad) ∧
      (fullCarry h).v0 < 2 ^ 26 ∧ (fullCarry h).v1 < 2 ^ 26 ∧ (fullCarry h).v2 < 2 ^ 26 ∧
      (fullCarry h).v3 < 2 ^ 26 ∧ (fullCarry h).v4 < 2 ^ 26 ∧
      (fullCarry h).val % (2 ^ 130 - 5) = h.val % (2 ^ 130 - 5) ∧
      (fullCarry h).val < 2 * (2 ^ 130 - 5) :=
  ⟨ReachW_limbAfter, C21_full_carry limbAfter ReachW_limbAfter⟩

/-- C22: final reduction and pad addition. For every engine state reachable from `New` or
`Init` by Writes with `leftover = 0`, `finish` writes the little-endian 16-byte encoding of
`((V mod (2^130 - 5)) + S) mod 2^128`, where `V` is the radix-`2^26` value of `h` and
`S = pad[0] + pad[1]*2^32 + pad[2]*2^64 + pad[3]*2^96`; the branch-free selection keeps the
carried `h` when it is below `p = 2^130 - 5` and yields `h - p` when it is at least `p`. -/
theorem C22_final_reduction (st : Poly1305) (hst : ReachW st) (hl : st.leftover = 0) :
    (∃ st', st.finish
      = .ok (st', leBytes 16 ((st.h.val % (2 ^ 130 - 5)
          + (st.pad.v0 + st.pad.v1 * 2 ^ 32 + st.pad.v2 * 2 ^ 64 + st.pad.v3 * 2 ^ 96))
          % 2 ^ 128))) ∧
    ((fullCarry st.h).val < 2 ^ 130 - 5 → selectReduced (fullCarry st.h) = fullCarry st.h) ∧
    (2 ^ 130 - 5 ≤ (fullCarry st.h).val →
      (selectReduced (fullCarry st.h)).val = (fullCarry st.h).val - (2 ^ 130 - 5)) := by
  obtain ⟨hr, hc, _, h0, h1⟩ := ReachW_Wf st hst
  obtain ⟨p0, p1, p2, p3⟩ := ReachW_pad st hst
  obtain ⟨st', hf, _⟩ := finish_spec st h0 h1
  have hp : st.buffer.val.take st.leftover.toNat = [] := by
    rw [hl]; rfl
  have hfl : finishLimbs st.r st.h [] = st.h := rfl
  rw [hp, hfl, tagOfLimbs_spec st.h st.pad hc p0 p1 p2 p3] at hf
  exact ⟨⟨st', hf⟩, selectReduced_cases _ (fullCarry_spec st.h hc).1⟩

/-- Witness for C22: the engine of `New(limbKey)` after one block. -/
theorem C22_witness :
    ReachW limbAfter ∧ limbAfter.leftover = 0 ∧
    (∃ st', limbAfter.finish
      = .ok (st', leBytes 16 ((limbAfter.h.val % (2 ^ 130 - 5)
          + (limbAfter.pad.v0 + limbAfter.pad.v1 * 2 ^ 32 + limbAfter.pad.v2 * 2 ^ 64
              + limbAfter.pad.v3 * 2 ^ 96)) % 2 ^ 128))) ∧
    ((fullCarry limbAfter.h).val < 2 ^ 130 - 5 →
      selectReduced (fullCarry limbAfter.h) = fullCarry limbAfter.h) ∧
    (2 ^ 130 - 5 ≤ (fullCarry limbAfter.h).val →
      (selectReduced (fullCarry limbAfter.h)).val
        = (fullCarry limbAfter.h).val - (2 ^ 130 - 5)) :=
  ⟨ReachW_limbAfter, rfl, C22_final_reduction limbAfter ReachW_limbAfter rfl⟩

/-- C23: final-block padding. For every engine state with `leftover = k <= 15`: when `k = 0`,
`finish` absorbs no extra block (the tag is computed from `h` as it is); when `1 <= k <= 15`
it absorbs exactly one block, by one call of `blocks` with the final flag set, consisting of
`buffer[0:k]`, then one `0x01` byte, then `15 - k` zero bytes, without the `2^128` marker
(`hibit = 0`; for a clamped `r` and a carried `h` the new accumulator is congruent to
`(V + LE(buffer[0:k]) + 2^(8k)) * R` modulo `2^130 - 5`); and the tag does not depend on the
bytes of `buffer` at positions `k..15`. -/
theorem C23_final_block (st : Poly1305) (k : Nat) (hk : st.leftover = (k : Int))
    (hk15 : k ≤ 15) :
    (k = 0 → ∃ st', st.finish = .ok (st', tagOfLimbs st.h st.pad)) ∧
    (1 ≤ k → ∃ (B : Buffer) (st1 st' : Poly1305),
      B.val = st.buffer.val.take k ++ [1] ++ List.replicate (15 - k) 0 ∧
      Poly1305.blocks { st with buffer := B, final := true } B.val 16 = .ok st1 ∧
      st1.h = absorbBlock st.r 0 st.h B.val ∧
      st.finish = .ok (st', tagOfLimbs st1.h st.pad) ∧
      (st.r.Reduced → st.h.Carried →
        st1.h.val % (2 ^ 130 - 5)
          = ((st.h.val + (LE (st.buffer.val.take k) + 2 ^ (8 * k))) * st.r.val)
              % (2 ^ 130 - 5))) ∧
    (∀ st2 : Poly1305, st2.r = st.r → st2.h = st.h → st2.pad = st.pad →
      st2.leftover = st.leftover → st2.buffer.val.take k = st.buffer.val.take k →
      ∃ (tag : List Byte) (st' st2' : Poly1305),
        st.finish = .ok (st', tag) ∧ st2.finish = .ok (st2', tag)) := by
  have h0 : 0 ≤ st.leftover := by omega
  have h1 : st.leftover < 16 := by omega
  have hn : st.leftover.toNat = k := by omega
  obtain ⟨st', hf, _⟩ := finish_spec st h0 h1
  rw [hn] at hf
  have hlen : (st.buffer.val.take k).length = k := by
    rw [List.length_take, st.buffer.property]; omega
  refine ⟨?_, ?_, ?_⟩
  · intro hz
    subst hz
    exact ⟨st', hf⟩
  · intro hk1
    obtain ⟨fl, fv⟩ := finalBlock_spec (st.buffer.val.take k) (by omega)
    have hfin : finishLimbs st.r st.h (st.buffer.val.take k)
        = absorbBlock st.r 0 st.h (finalBlock (st.buffer.val.take k)) := by
      unfold finishLimbs
      rw [if_neg (by omega)]
    rw [hfin] at hf
    refine ⟨⟨finalBlock (st.buffer.val.take k), fl⟩, _,
      st', ?_, blocks_one _ _ fl, rfl, hf, ?_⟩
    · show finalBlock (st.buffer.val.take k) = _
      unfold finalBlock
      rw [hlen]
    · intro hr hc
      have hv := (absorbBlock_spec st.r st.h 0 (finalBlock (st.buffer.val.take k))
        (by omega) (Or.inl rfl) hr hc).2
      rw [List.take_of_length_le (by omega), fv, hlen, Nat.zero_mul, Nat.add_zero] at hv
      exact hv
  · intro st2 e1 e2 e3 e4 e5
    obtain ⟨st2', hf2, _⟩ := finish_spec st2 (by omega) (by omega)
    have hn2 : st2.leftover.toNat = k := by omega
    rw [hn2, e1, e2, e3, e5] at hf2
    exact ⟨_, st', st2', hf, hf2⟩

/-- Witness for C23: a keyed engine with three buffered bytes. -/
theorem C23_witness :
    (sampleState.leftover = ((3 : Nat) : Int) ∧ 3 ≤ 15) ∧
    (3 = 0 → ∃ st', sampleState.finish = .ok (st', tagOfLimbs sampleState.h sampleState.pad)) ∧
    (1 ≤ 3 → ∃ (B : Buffer) (st1 st' : Poly1305),
      B.val = sampleState.buffer.val.take 3 ++ [1] ++ List.replicate (15 - 3) 0 ∧
      Poly1305.blocks { sampleState with buffer := B, final := true } B.val 16 = .ok st1 ∧
      st1.h = absorbBlock sampleState.r 0 sampleState.h B.val ∧
      sampleState.finish = .ok (st', tagOfLimbs st1.h sampleState.pad) ∧
      (sampleState.r.Reduced → sampleState.h.Carried →
        st1.h.val % (2 ^ 130 - 5)
          = ((sampleState.h.val + (LE (sampleState.buffer.val.take 3) + 2 ^ (8 * 3)))
              * sampleState.r.val) % (2 ^ 130 - 5))) ∧
    (∀ st2 : Poly1305, st2.r = sampleState.r → st2.h = sampleState.h →
      st2.pad = sampleState.pad → st2.leftover = sampleState.leftover →
      st2.buffer.val.take 3 = sampleState.buffer.val.take 3 →
      ∃ (tag : List Byte) (st' st2' : Poly1305),
        sampleState.finish = .ok (st', tag) ∧ st2.finish = .ok (st2', tag)) :=
  ⟨⟨rfl, by decide⟩, C23_final_block sampleState 3 rfl (by decide)⟩

/-- C24: no machine-word overflow in the block step. For every engine state reachable from
`New` or `Init` through `Write` calls and every 16-byte block, with either value of the final
flag, `blocks` returns and its new accumulator is the result of the same step in exact
arithmetic with every operation checked: none of the limb additions `h_i += m_i`, the
products `s_i = 5 * r_i`, the 64-bit products and sums `d0..d4` (including the added
carries), the conversions `c = uint32(d_i >> 26)`, the product `c * 5`, the sum
`h0 + c * 5` or the last `h1 += c` exceeds its 32-bit or 64-bit word. -/
theorem C24_no_overflow (st : Poly1305) (hst : ReachW st) (B : List Byte)
    (hB : B.length = 16) (fin : Bool) :
    ∃ st', Poly1305.blocks { st with final := fin } B 16 = .ok st' ∧
      blockStepChecked st.r (if !fin then 1 <<< 24 else 0) st.h B = some st'.h := by
  obtain ⟨hr, hc, _, _, _⟩ := ReachW_Wf st hst
  exact ⟨_, blocks_one { st with final := fin } B hB,
    blockStepChecked_eq st.r st.h _ B hB (hibitOf_cases fin) hr hc⟩

/-- Witness for C24: the engine of `New(limbKey)`, the block `limbBlock`, final false. -/
theorem C24_witness :
    ReachW limbState ∧ limbBlock.length = 16 ∧
    ∃ st', Poly1305.blocks { limbState with final := false } limbBlock 16 = .ok st' ∧
      blockStepChecked limbState.r (if !false then 1 <<< 24 else 0) limbState.h limbBlock
        = some st'.h :=
  ⟨ReachW_limbState, by decide,
    C24_no_overflow limbState ReachW_limbState limbBlock (by decide) false⟩

/-- C25: in every engine state reachable from `New`, `Init` or the zero value through any
sequence of `Write`, method `Sum`, `Clear` and `Init` calls, the final flag is false; so
every `Write` returns with the flag still false after absorbing its blocks with the `2^128`
marker (`hibit = 1 << 24`), and the method `Sum`, whose `finish` works on a copy, returns
with the flag of the engine still false. -/
theorem C25_final_flag (st : Poly1305) (hst : Reach st) :
    st.final = false ∧
    (∀ p : List Byte, ∃ st', st.Write p = .ok (st', (p.length : Int), none) ∧
      st'.final = false ∧
      st'.h = absorb st.r (1 <<< 24)
        ((st.buffer.val.take st.leftover.toNat ++ p).length / 16) st.h
        (st.buffer.val.take st.leftover.toNat ++ p)) ∧
    (∀ (b : List Byte) (st' : Poly1305) (out : List Byte),
      st.Sum b = .ok (st', out) → st'.final = false) := by
  have hf := Reach_final st hst
  obtain ⟨h0, h1⟩ := Reach_leftover st hst
  refine ⟨hf, ?_, ?_⟩
  · intro p
    obtain ⟨st', hw, _, _, e3, e4, _⟩ := Write_spec st p h0 (by omega)
    rw [hf] at e3 e4
    exact ⟨st', hw, e3, e4⟩
  · intro b st' out hs
    rw [Sum_ok_state st b st' out hs]
    exact hf

/-- Witness for C25: the engine of `New(limbKey)` after `Write` of three bytes. -/
theorem C25_witness :
    Reach partState ∧ partState.final = false ∧
    (∀ p : List Byte, ∃ st', partState.Write p = .ok (st', (p.length : Int), none) ∧
      st'.final = false ∧
      st'.h = absorb partState.r (1 <<< 24)
        ((partState.buffer.val.take partState.leftover.toNat ++ p).length / 16) partState.h
        (partState.buffer.val.take partState.leftover.toNat ++ p)) ∧
    (∀ (b : List Byte) (st' : Poly1305) (out : List Byte),
      partState.Sum b = .ok (st', out) → st'.final = false) :=
  ⟨Reach_partState, C25_final_flag partState Reach_partState⟩

end poly1305
